import Mathlib

/-!
# VisTree: pooled quadtree level-of-detail structure (src/src/VisTree.cc)

Shallow embedding of `VisTree` and proofs of its specified properties.

Modelling conventions
* `VisTree.h` and `Config.h` are not among the sources.  The constants they
  declare (`MaxNumNodes`, `NumLevels`, `Config::ChunkSizeXY`) and
  `VisBounds::MinDist` are fields of `Config`; every theorem holds for all
  their values unless a hypothesis says otherwise.
* Node indices are `int16` in the source and `InvalidIndex` is `-1`; they are
  modelled as `Int`, with the narrowing conversion made explicit where `Setup`
  stores an `int` into the free-list.
* `int` arithmetic on bounds is modelled in `Int`; signed overflow is undefined
  in the source, so only overflow-free executions are described.
* `float` values are modelled as exact rationals (no rounding).
* A failed `o_assert_dbg`, a `PopBack` on an empty array and an out-of-range
  array access are fatal: the operation yields `none`.
* `Log::Info("draw: ...")` is modelled by the `draw` flag of the `Visit`
  record that every invocation of `traverse` appends to its log.
-/

namespace VoxelTest

/-- Oryol's `InvalidIndex`. -/
def InvalidIndex : Int := -1

/-- A 2D axis-aligned integer rectangle `x0..x1`, `y0..y1`. -/
structure VisBounds where
  x0 : Int
  x1 : Int
  y0 : Int
  y1 : Int
  deriving DecidableEq, Repr

/-- Compile-time constants and helpers declared in headers that are not among
the sources: `VisTree::MaxNumNodes`, `VisTree::NumLevels`,
`Config::ChunkSizeXY` and `VisBounds::MinDist`. -/
structure Config where
  MaxNumNodes : Nat
  NumLevels : Nat
  ChunkSizeXY : Nat
  MinDist : VisBounds → Int → Int → Int

/-- A tree node: `geoms0` is `geoms[0]` (the only geometry slot `VisTree.cc`
reads), `child0 .. child3` are `childs[0] .. childs[3]`. -/
structure VisNode where
  geoms0 : Int
  child0 : Int
  child1 : Int
  child2 : Int
  child3 : Int
  deriving DecidableEq, Repr

namespace VisNode

/-- Read `childs[i]` (`i < NumChilds = 4`). -/
def childs (n : VisNode) (i : Nat) : Int :=
  match i with
  | 0 => n.child0
  | 1 => n.child1
  | 2 => n.child2
  | _ => n.child3

/-- Write `childs[i] = v`. -/
def setChild (n : VisNode) (i : Nat) (v : Int) : VisNode :=
  match i with
  | 0 => { n with child0 := v }
  | 1 => { n with child1 := v }
  | 2 => { n with child2 := v }
  | _ => { n with child3 := v }

/-- Modelled from the spec: `VisNode::Reset` (declared in `VisTree.h`) resets
the slot's content, all children `Invalid`. -/
def Reset (_ : VisNode) : VisNode :=
  { geoms0 := InvalidIndex, child0 := InvalidIndex, child1 := InvalidIndex,
    child2 := InvalidIndex, child3 := InvalidIndex }

/-- Modelled from the spec: `VisNode::IsLeaf` (declared in `VisTree.h`), a node
is a leaf iff all four children are `Invalid`. -/
def IsLeaf (n : VisNode) : Bool :=
  n.child0 == InvalidIndex && n.child1 == InvalidIndex &&
  n.child2 == InvalidIndex && n.child3 == InvalidIndex

end VisNode

/-- The tree object: projection constant `K`, node pool `nodes`, the stack of
free indices `freeNodes` (top of stack = last element) and `rootNode`. -/
structure VisTree where
  K : ℚ
  nodes : List VisNode
  freeNodes : List Int
  rootNode : Int
  deriving DecidableEq

/-- One invocation of `traverse`: its level, node index and bounds, and whether
it took the `Log::Info("draw: ...")` branch. -/
structure Visit where
  lvl : Nat
  nodeIndex : Int
  bounds : VisBounds
  draw : Bool
  deriving DecidableEq, Repr

/-- Conversion of an `int` to `int16` (two's complement narrowing). -/
def toInt16 (i : Int) : Int := (i + 32768) % 65536 - 32768

namespace VisTree

/-- Raw array read `this->nodes[i]`; out of range has no defined result. -/
def slot (t : VisTree) (i : Int) : Option VisNode :=
  if 0 ≤ i then t.nodes[i.toNat]? else none

/-- Write through a reference to `this->nodes[i]`. -/
def store (t : VisTree) (i : Int) (n : VisNode) : VisTree :=
  { t with nodes := t.nodes.set i.toNat n }

/-- `VisTree::At`: bounds-asserted access. -/
def At (cfg : Config) (t : VisTree) (nodeIndex : Int) : Option VisNode :=
  if 0 ≤ nodeIndex ∧ nodeIndex < cfg.MaxNumNodes then t.slot nodeIndex else none

/-- `VisTree::AllocNode`: pop the last free index, reset that slot, return the
index. -/
def AllocNode (t : VisTree) : Option (VisTree × Int) :=
  match t.freeNodes.getLast? with
  | none => none
  | some index =>
    match t.slot index with
    | none => none
    | some node =>
      some (({ t with freeNodes := t.freeNodes.dropLast }).store index node.Reset, index)

/-- Body of the loop in `Split`: `node.childs[i] = this->AllocNode()`, where
`node` is a reference to `nodes[nodeIndex]`. -/
def splitChild (nodeIndex : Int) (t : VisTree) (i : Nat) : Option VisTree :=
  match t.AllocNode with
  | none => none
  | some (t1, index) =>
    match t1.slot nodeIndex with
    | none => none
    | some node => some (t1.store nodeIndex (node.setChild i index))

/-- `VisTree::Split`. -/
def Split (cfg : Config) (t : VisTree) (nodeIndex : Int) : Option VisTree :=
  match t.At cfg nodeIndex with
  | none => none
  | some node =>
    if node.IsLeaf then [0, 1, 2, 3].foldlM (splitChild nodeIndex) t else none

/-- Body of the loop in `Merge`; `merge` is the recursive call and `node` a
reference to `nodes[nodeIndex]`, re-read at every use. -/
def mergeChild (merge : VisTree → Int → Option VisTree) (nodeIndex : Int)
    (t : VisTree) (i : Nat) : Option VisTree :=
  match t.slot nodeIndex with
  | none => none
  | some node =>
    if InvalidIndex ≠ node.childs i then
      match merge t (node.childs i) with
      | none => none
      | some t1 =>
        match t1.slot nodeIndex with
        | none => none
        | some node1 =>
          let t2 := { t1 with freeNodes := t1.freeNodes ++ [node1.childs i] }
          some (t2.store nodeIndex (node1.setChild i InvalidIndex))
    else some t

/-- `VisTree::Merge`.  The first argument bounds the recursion depth: the
source recursion returns exactly when some depth bound yields `some`. -/
def Merge (cfg : Config) : Nat → VisTree → Int → Option VisTree
  | 0, _, _ => none
  | fuel + 1, t, nodeIndex =>
    match t.At cfg nodeIndex with
    | none => none
    | some node =>
      if InvalidIndex = node.geoms0 then
        [0, 1, 2, 3].foldlM (mergeChild (Merge cfg fuel) nodeIndex) t
      else none

/-- `VisTree::ScreenSpaceError`; `K` is the member `this->K`, the only part of
the object the method reads. -/
def ScreenSpaceError (cfg : Config) (K : ℚ) (bounds : VisBounds) (lvl : Nat)
    (posX posY : Int) : ℚ :=
  let delta : ℚ := ((1 <<< lvl : Nat) : ℚ)
  let D : ℚ := ((cfg.MinDist bounds posX posY + 1 : Int) : ℚ)
  let rho := (delta / D) * K
  rho

/-- The error tolerance `tau` of `traverse`. -/
def tau : ℚ := 100

/-- `VisTree::Bounds`. -/
def Bounds (cfg : Config) (lvl : Nat) (x y : Int) : Option VisBounds :=
  if lvl ≤ cfg.NumLevels then
    let dim : Int := (((1 <<< lvl : Nat) * cfg.ChunkSizeXY : Nat) : Int)
    let x0 := (x >>> lvl) * dim
    let y0 := (y >>> lvl) * dim
    some { x0 := x0, x1 := x0 + dim, y0 := y0, y1 := y0 + dim }
  else none

/-- The child bounds computed in the loop of `traverse` for loop variables
`x`, `y`. -/
def childBounds (bounds : VisBounds) (x y : Nat) : VisBounds :=
  let halfX := (bounds.x1 - bounds.x0).tdiv 2
  let halfY := (bounds.y1 - bounds.y0).tdiv 2
  let x0 := bounds.x0 + x * halfX
  let y0 := bounds.y0 + y * halfY
  { x0 := x0, x1 := x0 + halfX, y0 := y0, y1 := y0 + halfY }

/-- The child slot `(y<<1)|x` used in the loop of `traverse`. -/
def childIndex (x y : Nat) : Nat := (y <<< 1) ||| x

/-- Body of the double loop in `traverse` for loop variables `xy = (x, y)`;
`go` is the recursive call at `lvl-1`.  The accumulator is the log so far and
the current tree (`none` after a fatal error). -/
def visitChild (go : VisTree → Int → VisBounds → List Visit × Option VisTree)
    (nodeIndex : Int) (bounds : VisBounds)
    (acc : List Visit × Option VisTree) (xy : Nat × Nat) : List Visit × Option VisTree :=
  match acc.2 with
  | none => acc
  | some t =>
    match t.slot nodeIndex with
    | none => (acc.1, none)
    | some node =>
      let r := go t (node.childs (childIndex xy.1 xy.2)) (childBounds bounds xy.1 xy.2)
      (acc.1 ++ r.1, r.2)

/-- `VisTree::traverse`.  Returns the log of all invocations in call order and
the final tree, or `none` for the tree after a fatal error. -/
def traverse (cfg : Config) : Nat → VisTree → Int → VisBounds → Int → Int →
    List Visit × Option VisTree
  | 0, t, nodeIndex, bounds, _, _ =>
    match t.At cfg nodeIndex with
    | none => ([⟨0, nodeIndex, bounds, false⟩], none)
    | some _ => ([⟨0, nodeIndex, bounds, true⟩], some t)
  | lvl + 1, t, nodeIndex, bounds, posX, posY =>
    match t.At cfg nodeIndex with
    | none => ([⟨lvl + 1, nodeIndex, bounds, false⟩], none)
    | some node =>
      if ScreenSpaceError cfg t.K bounds (lvl + 1) posX posY ≤ tau then
        ([⟨lvl + 1, nodeIndex, bounds, true⟩], some t)
      else
        [(0, 0), (0, 1), (1, 0), (1, 1)].foldl
          (visitChild (fun t1 n b => traverse cfg lvl t1 n b posX posY) nodeIndex bounds)
          ([⟨lvl + 1, nodeIndex, bounds, false⟩],
            if node.IsLeaf then t.Split cfg nodeIndex else some t)

/-- `VisTree::Traverse`. -/
def Traverse (cfg : Config) (t : VisTree) (posX posY : Int) : List Visit × Option VisTree :=
  match Bounds cfg cfg.NumLevels 0 0 with
  | none => ([], none)
  | some bounds => t.traverse cfg cfg.NumLevels t.rootNode bounds posX posY

/-- `VisTree::Setup`; `tanHalfFov` is the value of `glm::tan(fov*0.5f)`. -/
def Setup (cfg : Config) (t : VisTree) (displayWidth : Int) (tanHalfFov : ℚ) :
    Option VisTree :=
  let t1 := { t with K := (displayWidth : ℚ) / (2 * tanHalfFov) }
  let t2 := { t1 with freeNodes :=
    t1.freeNodes ++ (List.range cfg.MaxNumNodes).reverse.map (fun (i : Nat) => toInt16 (i : Int)) }
  match t2.AllocNode with
  | none => none
  | some (t3, index) => some { t3 with rootNode := index }

/-- `VisTree::Discard`. -/
def Discard (t : VisTree) : VisTree := { t with freeNodes := [] }

end VisTree

/-- The records written by `Log::Info("draw: ...")`, in order. -/
def drawn (log : List Visit) : List VisBounds :=
  (log.filter (fun v => v.draw)).map (fun v => v.bounds)

/-! ## Specification vocabulary -/

/-- `ReachFrom t r i`: node index `i` is reached from `r` by following valid
(non-`Invalid`) child links of the pool. -/
inductive ReachFrom (t : VisTree) (r : Int) : Int → Prop
  | refl : ReachFrom t r r
  | step {i : Int} {n : VisNode} (k : Nat) : ReachFrom t r i → t.slot i = some n → k < 4 →
      n.childs k ≠ InvalidIndex → ReachFrom t r (n.childs k)

/-- A node index is live when it is reachable from the root. -/
def Live (t : VisTree) (i : Int) : Prop := ReachFrom t t.rootNode i

/-- Shape of a pooled quadtree: every node carries its pool index. -/
inductive QTree
  | leaf (i : Int)
  | node (i : Int) (a b c d : QTree)
  deriving DecidableEq, Repr

namespace QTree

/-- Pool index of the root of the shape. -/
def idx : QTree → Int
  | leaf i => i
  | node i _ _ _ _ => i

/-- All pool indices of the shape, parent first. -/
def indices : QTree → List Int
  | leaf i => [i]
  | node i a b c d => i :: (a.indices ++ b.indices ++ c.indices ++ d.indices)

/-- Pool indices of the proper descendants in the order `Merge` frees them. -/
def freed : QTree → List Int
  | leaf _ => []
  | node _ a b c d =>
    a.freed ++ [a.idx] ++ (b.freed ++ [b.idx]) ++ (c.freed ++ [c.idx]) ++ (d.freed ++ [d.idx])

/-- Number of edges on the longest root-to-leaf path. -/
def height : QTree → Nat
  | leaf _ => 0
  | node _ a b c d => max (max a.height b.height) (max c.height d.height) + 1

end QTree

/-- `Rep t T`: the pool of `t` stores the shape `T`: leaves of `T` are leaf
nodes, inner nodes of `T` hold the indices of their four subtrees. -/
def Rep (t : VisTree) : QTree → Prop
  | .leaf i => ∃ n, t.slot i = some n ∧ n.IsLeaf = true
  | .node i a b c d =>
    (∃ n, t.slot i = some n ∧ n.childs 0 = a.idx ∧ n.childs 1 = b.idx ∧
      n.childs 2 = c.idx ∧ n.childs 3 = d.idx) ∧
    Rep t a ∧ Rep t b ∧ Rep t c ∧ Rep t d

/-- Precondition of `Merge` on the stored shape `T`: geometry is unset on the
node and all its descendants. -/
def MergePre (cfg : Config) (t : VisTree) (T : QTree) : Prop :=
  t.nodes.length = cfg.MaxNumNodes ∧ Rep t T ∧ T.indices.Nodup ∧
  ∀ j ∈ T.indices, ∀ m, t.slot j = some m → m.geoms0 = InvalidIndex

/-- Effect of `Merge` on the stored shape `T`: the proper descendants are
appended to the free-list, every node of `T` is a blank leaf, and everything
else is unchanged. -/
def MergePost (t : VisTree) (T : QTree) (t1 : VisTree) : Prop :=
  t1.freeNodes = t.freeNodes ++ T.freed ∧
  (∀ j ∈ T.indices, ∃ m, t.slot j = some m ∧ t1.slot j = some m.Reset) ∧
  (∀ j, j ∉ T.indices → t1.slot j = t.slot j) ∧
  t1.nodes.length = t.nodes.length ∧ t1.K = t.K ∧ t1.rootNode = t.rootNode

/-- Pool invariant with the shape made explicit: the pool has `MaxNumNodes`
slots, the shape `T` is stored at the root, and every index in
`0 .. MaxNumNodes-1` is either in `T` or on the free-list, exactly once. -/
def InvT (cfg : Config) (t : VisTree) (T : QTree) : Prop :=
  t.nodes.length = cfg.MaxNumNodes ∧ T.idx = t.rootNode ∧ Rep t T ∧
  List.Perm (T.indices ++ t.freeNodes) ((List.range cfg.MaxNumNodes).map (fun (i : Nat) => (i : Int)))

/-- Pool invariant (well-formed tree state): the nodes reachable from the root
form a quadtree and partition the pool together with the free-list. -/
def Inv (cfg : Config) (t : VisTree) : Prop := ∃ T : QTree, InvT cfg t T

/-- No live node holds geometry (`geoms[0]` is unset). -/
def NoGeoms (t : VisTree) : Prop :=
  ∀ i, Live t i → ∀ m, t.slot i = some m → m.geoms0 = InvalidIndex

/-- States produced by `Setup` on a fresh object followed by any sequence of
`Split` calls (on a live leaf, with at least four free indices) and `Merge`
calls (on a live node). -/
inductive Reachable (cfg : Config) : VisTree → Prop
  | setup {t0 t : VisTree} (displayWidth : Int) (tanHalfFov : ℚ) :
      t0.freeNodes = [] → t0.nodes.length = cfg.MaxNumNodes →
      t0.Setup cfg displayWidth tanHalfFov = some t → Reachable cfg t
  | split {t t1 : VisTree} {n : Int} {nd : VisNode} :
      Reachable cfg t → Live t n → t.slot n = some nd → nd.IsLeaf = true →
      4 ≤ t.freeNodes.length → t.Split cfg n = some t1 → Reachable cfg t1
  | merge {t t1 : VisTree} {n : Int} (fuel : Nat) :
      Reachable cfg t → Live t n → t.Merge cfg fuel n = some t1 → Reachable cfg t1

/-! ### Traversal vocabulary -/

open VisTree

/-- The state-free acceptance recursion of the spec: `emit L b` is `[b]` when
the screen-space error of `b` at level `L` is at most `tau` or `L = 0`, and
otherwise the concatenation of `emit (L-1)` over the four quartered child
bounds (in the order of the loop of `traverse`). -/
def emit (cfg : Config) (K : ℚ) (posX posY : Int) : Nat → VisBounds → List VisBounds
  | 0, b => [b]
  | L + 1, b =>
    if ScreenSpaceError cfg K b (L + 1) posX posY ≤ tau then [b]
    else emit cfg K posX posY L (childBounds b 0 0) ++ emit cfg K posX posY L (childBounds b 0 1) ++
      emit cfg K posX posY L (childBounds b 1 0) ++ emit cfg K posX posY L (childBounds b 1 1)

/-- Number of pool indices a traversal of a fresh leaf with bounds `b` at level
`L` allocates. -/
def demandLeaf (cfg : Config) (K : ℚ) (posX posY : Int) : Nat → VisBounds → Nat
  | 0, _ => 0
  | L + 1, b =>
    if ScreenSpaceError cfg K b (L + 1) posX posY ≤ tau then 0
    else 4 + demandLeaf cfg K posX posY L (childBounds b 0 0) +
      demandLeaf cfg K posX posY L (childBounds b 0 1) +
      demandLeaf cfg K posX posY L (childBounds b 1 0) +
      demandLeaf cfg K posX posY L (childBounds b 1 1)

/-- Number of pool indices a traversal of the stored shape `S` with bounds `b`
at level `L` allocates: four for every leaf it has to split. -/
def demand (cfg : Config) (K : ℚ) (posX posY : Int) : Nat → VisBounds → QTree → Nat
  | 0, _, _ => 0
  | L + 1, b, .leaf _ => demandLeaf cfg K posX posY (L + 1) b
  | L + 1, b, .node _ c0 c1 c2 c3 =>
    if ScreenSpaceError cfg K b (L + 1) posX posY ≤ tau then 0
    else demand cfg K posX posY L (childBounds b 0 0) c0 +
      demand cfg K posX posY L (childBounds b 0 1) c2 +
      demand cfg K posX posY L (childBounds b 1 0) c1 +
      demand cfg K posX posY L (childBounds b 1 1) c3

/-- Size of the quadtree in which every node above level 0 is split:
`(4^(L+1) - 1) / 3`. -/
def fullSize (L : Nat) : Nat := (4 ^ (L + 1) - 1) / 3

/-- `CallTrace L log`: `log` is the call-order log of one invocation at level
`L` together with the invocations nested in it; an invocation either makes no
recursive call, or it is at a level `l + 1` and makes at most four calls, each
at level `l`. -/
inductive CallTrace : Nat → List Visit → Prop
  | single (v : Visit) : CallTrace v.lvl [v]
  | calls (v : Visit) (l : Nat) (cs : List (List Visit)) : v.lvl = l + 1 → cs.length ≤ 4 →
      (∀ c ∈ cs, CallTrace l c) → CallTrace (l + 1) (v :: cs.flatten)

/-- The quadrant of `b` with index `k = (yHalf<<1)|xHalf`: bit 0 of `k` selects
the X half, bit 1 the Y half. -/
def quadrant (b : VisBounds) (k : Nat) : VisBounds := childBounds b (k % 2) (k / 2)

/-- The point `(u, v)` lies in the half-open rectangle `b`. -/
def VisBounds.contains {R : Type} [LinearOrderedRing R] (b : VisBounds) (u v : R) : Prop :=
  ((b.x0 : R) ≤ u ∧ u < (b.x1 : R)) ∧ ((b.y0 : R) ≤ v ∧ v < (b.y1 : R))

instance {R : Type} [LinearOrderedRing R] (b : VisBounds) (u v : R) :
    Decidable (b.contains u v) := by
  unfold VisBounds.contains
  infer_instance

/-- Area of a rectangle. -/
def VisBounds.area (b : VisBounds) : Int := (b.x1 - b.x0) * (b.y1 - b.y0)

/-- Number of rectangles of `out` that contain the point `(u, v)`. -/
def cover {R : Type} [LinearOrderedRing R] (out : List VisBounds) (u v : R) : Nat :=
  out.countP (fun b => decide (b.contains u v))

/-- `out` exactly tiles `B`: every point of `B` (with coordinates in any
ordered ring, e.g. the integers or the reals) lies in exactly one rectangle of
`out`, no point outside `B` lies in any, and the areas add up to that of `B`. -/
def Tiles (out : List VisBounds) (B : VisBounds) : Prop :=
  (∀ (R : Type) [LinearOrderedRing R] (u v : R),
    cover out u v = if B.contains u v then 1 else 0) ∧
  (out.map VisBounds.area).sum = B.area

/-- The four child bounds of `b` in the order the loop of `traverse` visits
them. -/
def quarters (b : VisBounds) : List VisBounds :=
  [childBounds b 0 0, childBounds b 0 1, childBounds b 1 0, childBounds b 1 1]

/-- States produced by `Setup` on a fresh object followed by any sequence of
successful `Traverse` calls with arbitrary viewer positions. -/
inductive TraverseReachable (cfg : Config) : VisTree → Prop
  | setup {t0 t : VisTree} (displayWidth : Int) (tanHalfFov : ℚ) :
      t0.freeNodes = [] → t0.nodes.length = cfg.MaxNumNodes →
      t0.Setup cfg displayWidth tanHalfFov = some t → TraverseReachable cfg t
  | traverse {t t1 : VisTree} (posX posY : Int) :
      TraverseReachable cfg t → (t.Traverse cfg posX posY).2 = some t1 →
      TraverseReachable cfg t1

/-- `LocatedFrom t r L B i l b`: following valid child links from node `r`,
taken at level `L` with bounds `B`, reaches node `i` at level `l` with bounds
`b`, where the child in slot `k` gets quadrant `k` of its parent one level
down. -/
inductive LocatedFrom (t : VisTree) (r : Int) (L : Nat) (B : VisBounds) :
    Int → Nat → VisBounds → Prop
  | root : LocatedFrom t r L B r L B
  | child {i : Int} {l : Nat} {b : VisBounds} {m : VisNode} (k : Nat) :
      LocatedFrom t r L B i (l + 1) b → t.slot i = some m → k < 4 →
      m.childs k ≠ InvalidIndex → LocatedFrom t r L B (m.childs k) l (quadrant b k)

/-- Precondition of a traversal of the stored shape `S`: the pool has
`MaxNumNodes` slots, `S` and the free-list are disjoint and duplicate-free,
and every free index is in range. -/
def TravPre (cfg : Config) (t : VisTree) (S : QTree) : Prop :=
  t.nodes.length = cfg.MaxNumNodes ∧ Rep t S ∧ (S.indices ++ t.freeNodes).Nodup ∧
  (∀ i ∈ t.freeNodes, 0 ≤ i ∧ i < (cfg.MaxNumNodes : Int))

/-- `Stage cfg t S lvl b dem log t1 S1`: starting from state `t` storing `S`, a
(partial) traversal at level `lvl` with bounds `b` has reached state `t1`
storing `S1` at the same root; it popped `dem` indices from the free-list,
which joined the shape; slots outside `S` and the free-list, and the inner
nodes of `S`, are unchanged; if `dem = 0` the state is unchanged; every
logged invocation visited a node of `S1` at its level with its quadrant
bounds; and if no node of `S` held geometry, no node of `S1` does. -/
def Stage (cfg : Config) (t : VisTree) (S : QTree) (lvl : Nat) (b : VisBounds) (dem : Nat)
    (log : List Visit) (t1 : VisTree) (S1 : QTree) : Prop :=
  (∃ popped : List Int, t.freeNodes = t1.freeNodes ++ popped ∧ popped.length = dem) ∧
  Rep t1 S1 ∧ S1.idx = S.idx ∧
  List.Perm (S1.indices ++ t1.freeNodes) (S.indices ++ t.freeNodes) ∧
  (∀ j, j ∉ S.indices ++ t.freeNodes → t1.slot j = t.slot j) ∧
  t1.nodes.length = cfg.MaxNumNodes ∧ t1.K = t.K ∧ t1.rootNode = t.rootNode ∧
  S1.height ≤ max S.height lvl ∧
  (∀ j ∈ S.indices, ∀ m, t.slot j = some m → m.IsLeaf = false → t1.slot j = some m) ∧
  (dem = 0 → t1 = t) ∧
  (∀ v ∈ log, LocatedFrom t1 S.idx lvl b v.nodeIndex v.lvl v.bounds) ∧
  ((∀ j ∈ S.indices, ∀ m, t.slot j = some m → m.geoms0 = InvalidIndex) →
    ∀ j ∈ S1.indices, ∀ m, t1.slot j = some m → m.geoms0 = InvalidIndex)

/-- Effect of a completed traversal of the stored shape `S` at level `lvl`
with bounds `b` that allocates `dem` indices: it ends in a `Stage` whose shape
needs no further allocation. -/
def TravPost (cfg : Config) (K : ℚ) (posX posY : Int) (lvl : Nat) (b : VisBounds)
    (t : VisTree) (S : QTree) (dem : Nat) (r : List Visit × Option VisTree) : Prop :=
  ∃ (t1 : VisTree) (S1 : QTree),
    r.2 = some t1 ∧ Stage cfg t S lvl b dem r.1 t1 S1 ∧ demand cfg K posX posY lvl b S1 = 0

/-- Outcome of a traversal of the stored shape `S`: every logged invocation
has an index in range, and the call either completes with `TravPost` or stops
with a fatal error because fewer than `dem` indices are free. -/
def TravOutcome (cfg : Config) (K : ℚ) (posX posY : Int) (lvl : Nat) (b : VisBounds)
    (t : VisTree) (S : QTree) (dem : Nat) (r : List Visit × Option VisTree) : Prop :=
  (∀ v ∈ r.1, 0 ≤ v.nodeIndex ∧ v.nodeIndex < (cfg.MaxNumNodes : Int)) ∧
  (TravPost cfg K posX posY lvl b t S dem r ∨ (r.2 = none ∧ t.freeNodes.length < dem))

/-- The world footprint `(0,0)-(2^NumLevels*ChunkSize, 2^NumLevels*ChunkSize)`. -/
def rootBounds (cfg : Config) : VisBounds :=
  ⟨0, ((2 ^ cfg.NumLevels * cfg.ChunkSizeXY : Nat) : Int), 0,
    ((2 ^ cfg.NumLevels * cfg.ChunkSizeXY : Nat) : Int)⟩

/-- The square of side `2^lvl * ChunkSize` whose origin is `(X, Y)` times its
side. -/
def square (cfg : Config) (lvl : Nat) (X Y : Int) : VisBounds :=
  ⟨X * ((2 ^ lvl * cfg.ChunkSizeXY : Nat) : Int),
    X * ((2 ^ lvl * cfg.ChunkSizeXY : Nat) : Int) + ((2 ^ lvl * cfg.ChunkSizeXY : Nat) : Int),
    Y * ((2 ^ lvl * cfg.ChunkSizeXY : Nat) : Int),
    Y * ((2 ^ lvl * cfg.ChunkSizeXY : Nat) : Int) + ((2 ^ lvl * cfg.ChunkSizeXY : Nat) : Int)⟩

/-- The subtree in child slot `p` of an inner node. -/
def QTree.kid (a b c d : QTree) (p : Nat) : QTree :=
  match p with
  | 0 => a
  | 1 => b
  | 2 => c
  | _ => d

/-- States produced by `Setup` on a fresh object followed by any sequence of
successful `Split` calls on live leaves, successful `Merge` calls on live nodes
and completed `Traverse` calls. -/
inductive ReachableAll (cfg : Config) : VisTree → Prop
  | setup {t0 t : VisTree} (displayWidth : Int) (tanHalfFov : ℚ) :
      t0.freeNodes = [] → t0.nodes.length = cfg.MaxNumNodes →
      t0.Setup cfg displayWidth tanHalfFov = some t → ReachableAll cfg t
  | split {t t1 : VisTree} {n : Int} {nd : VisNode} :
      ReachableAll cfg t → Live t n → t.slot n = some nd → nd.IsLeaf = true →
      t.Split cfg n = some t1 → ReachableAll cfg t1
  | merge {t t1 : VisTree} {n : Int} (fuel : Nat) :
      ReachableAll cfg t → Live t n → t.Merge cfg fuel n = some t1 → ReachableAll cfg t1
  | traverse {t t1 : VisTree} (posX posY : Int) :
      ReachableAll cfg t → (t.Traverse cfg posX posY).2 = some t1 → ReachableAll cfg t1

/-! ## Concrete configurations and states used in examples -/

/-- A pool of six slots, one level, chunk size 16; the viewer distance is 0. -/
def cfgW : Config := ⟨6, 1, 16, fun _ _ _ => 0⟩

/-- A state as `Setup` leaves it for `cfgW`: the root leaf 0 is live, indices
1..5 are free (their slots hold stale content). -/
def tW : VisTree :=
  ⟨5, ⟨-1, -1, -1, -1, -1⟩ :: List.replicate 5 ⟨7, 7, 7, 7, 7⟩, [5, 4, 3, 2, 1], 0⟩

/-- A freshly constructed object for `cfgW`: arbitrary slot contents, empty
free-list. -/
def tW0 : VisTree := ⟨0, List.replicate 6 ⟨7, 7, 7, 7, 7⟩, [], 9⟩

/-- A state like `tW` with a large projection constant `K = 1000`, so that the
root of `cfgW` is too coarse for every viewer. -/
def tK : VisTree :=
  ⟨1000, ⟨-1, -1, -1, -1, -1⟩ :: List.replicate 5 ⟨7, 7, 7, 7, 7⟩, [5, 4, 3, 2, 1], 0⟩

/-- The state `Traverse` leaves from `tK`: the root is split into the children
1, 2, 3, 4. -/
def tK1 : VisTree :=
  ⟨1000, [⟨-1, 1, 2, 3, 4⟩, ⟨-1, -1, -1, -1, -1⟩, ⟨-1, -1, -1, -1, -1⟩,
    ⟨-1, -1, -1, -1, -1⟩, ⟨-1, -1, -1, -1, -1⟩, ⟨7, 7, 7, 7, 7⟩], [5], 0⟩

/-- The state `Merge` of the root leaves from `tK1`: the root is a leaf again
and the former children 1, 2, 3, 4 are back on the free-list. -/
def tK2 : VisTree :=
  ⟨1000, List.replicate 5 ⟨-1, -1, -1, -1, -1⟩ ++ [⟨7, 7, 7, 7, 7⟩], [5, 1, 2, 3, 4], 0⟩

/-- The state `Split` of the root leaves from `tW`: children 1, 2, 3, 4. -/
def tW1 : VisTree :=
  ⟨5, [⟨-1, 1, 2, 3, 4⟩, ⟨-1, -1, -1, -1, -1⟩, ⟨-1, -1, -1, -1, -1⟩,
    ⟨-1, -1, -1, -1, -1⟩, ⟨-1, -1, -1, -1, -1⟩, ⟨7, 7, 7, 7, 7⟩], [5], 0⟩

/-- The state `Merge` of the root leaves from `tW1`. -/
def tW2 : VisTree :=
  ⟨5, List.replicate 5 ⟨-1, -1, -1, -1, -1⟩ ++ [⟨7, 7, 7, 7, 7⟩], [5, 1, 2, 3, 4], 0⟩

/-- The state a second `Split` of the root leaves from `tW2`: the children are
now 4, 3, 2, 1. -/
def tW3 : VisTree :=
  ⟨5, [⟨-1, 4, 3, 2, 1⟩, ⟨-1, -1, -1, -1, -1⟩, ⟨-1, -1, -1, -1, -1⟩,
    ⟨-1, -1, -1, -1, -1⟩, ⟨-1, -1, -1, -1, -1⟩, ⟨7, 7, 7, 7, 7⟩], [5], 0⟩

/-- The scenario of the spec: two levels, chunk size 16, 21 pool slots; the
viewer distance is 0. -/
def cfgS : Config := ⟨21, 2, 16, fun _ _ _ => 0⟩

/-- A state as `Setup` leaves it for `cfgS`, with `K = 5`. -/
def tS : VisTree :=
  ⟨5, ⟨-1, -1, -1, -1, -1⟩ :: List.replicate 20 ⟨7, 7, 7, 7, 7⟩,
    [20, 19, 18, 17, 16, 15, 14, 13, 12, 11, 10, 9, 8, 7, 6, 5, 4, 3, 2, 1], 0⟩

end VoxelTest

/-! ## Properties -/

namespace VoxelTest

open VisTree

/-! ### Pool access -/

theorem slot_some_iff {t : VisTree} {i : Int} {n : VisNode} :
    t.slot i = some n ↔ 0 ≤ i ∧ t.nodes[i.toNat]? = some n := by
  unfold VisTree.slot
  by_cases h : 0 ≤ i <;> simp [h]

theorem slot_lt {t : VisTree} {i : Int} {n : VisNode} (h : t.slot i = some n) :
    0 ≤ i ∧ i < t.nodes.length := by
  obtain ⟨h0, h1⟩ := slot_some_iff.1 h
  have := (List.getElem?_eq_some_iff.1 h1).1
  omega

theorem slot_isSome {t : VisTree} {j : Int} :
    (∃ m, t.slot j = some m) ↔ 0 ≤ j ∧ j.toNat < t.nodes.length := by
  constructor
  · rintro ⟨m, hm⟩
    have := slot_lt hm
    omega
  · rintro ⟨h0, h1⟩
    exact ⟨t.nodes[j.toNat], slot_some_iff.2 ⟨h0, List.getElem?_eq_getElem h1⟩⟩

theorem At_eq_slot {cfg : Config} {t : VisTree} (hlen : t.nodes.length = cfg.MaxNumNodes)
    (i : Int) : t.At cfg i = t.slot i := by
  unfold VisTree.At
  split
  · rfl
  · next h =>
    unfold VisTree.slot
    split
    · next h0 =>
      have : t.nodes.length ≤ i.toNat := by omega
      simp [List.getElem?_eq_none this]
    · rfl

theorem slot_store_same {t : VisTree} {i : Int} {n m : VisNode} (h : t.slot i = some n) :
    (t.store i m).slot i = some m := by
  have hl := slot_lt h
  unfold VisTree.slot VisTree.store
  simp only [hl.1, if_true]
  rw [List.getElem?_set]
  simp
  omega

theorem slot_store_ne {t : VisTree} {i j : Int} {m : VisNode} (h0 : 0 ≤ i) (hij : i ≠ j) :
    (t.store i m).slot j = t.slot j := by
  unfold VisTree.slot VisTree.store
  split
  · next hj =>
    have : i.toNat ≠ j.toNat := by omega
    simp [List.getElem?_set, this]
  · rfl

@[simp] theorem store_freeNodes (t : VisTree) (i : Int) (m : VisNode) :
    (t.store i m).freeNodes = t.freeNodes := rfl

@[simp] theorem store_K (t : VisTree) (i : Int) (m : VisNode) : (t.store i m).K = t.K := rfl

@[simp] theorem store_rootNode (t : VisTree) (i : Int) (m : VisNode) :
    (t.store i m).rootNode = t.rootNode := rfl

@[simp] theorem store_length (t : VisTree) (i : Int) (m : VisNode) :
    (t.store i m).nodes.length = t.nodes.length := by
  simp [VisTree.store]

/-! ### AllocNode and Split -/

/-- Every `Reset` yields the same blank leaf. -/
theorem Reset_isLeaf (n : VisNode) : n.Reset.IsLeaf = true := by
  simp [VisNode.Reset, VisNode.IsLeaf]

theorem AllocNode_spec {t : VisTree} {rest : List Int} {i : Int} {ni : VisNode}
    (hfree : t.freeNodes = rest ++ [i]) (hi : t.slot i = some ni) :
    ∃ t1, t.AllocNode = some (t1, i) ∧ t1.freeNodes = rest ∧ t1.slot i = some ni.Reset ∧
      (∀ j, j ≠ i → t1.slot j = t.slot j) ∧ t1.nodes.length = t.nodes.length ∧
      t1.K = t.K ∧ t1.rootNode = t.rootNode := by
  have hl := slot_lt hi
  refine ⟨({ t with freeNodes := rest }).store i ni.Reset, ?_, rfl, ?_, ?_, by simp, rfl, rfl⟩
  · simp [VisTree.AllocNode, hfree, hi]
  · exact slot_store_same (t := { t with freeNodes := rest }) (n := ni) hi
  · intro j hj
    exact slot_store_ne (t := { t with freeNodes := rest }) hl.1 (Ne.symm hj)

theorem splitChild_spec {t : VisTree} {rest : List Int} {n i : Int} {ni nd : VisNode} (k : Nat)
    (hfree : t.freeNodes = rest ++ [i]) (hi : t.slot i = some ni) (hn : t.slot n = some nd)
    (hne : n ≠ i) :
    ∃ t1, splitChild n t k = some t1 ∧ t1.freeNodes = rest ∧
      t1.slot n = some (nd.setChild k i) ∧ t1.slot i = some ni.Reset ∧
      (∀ j, j ≠ n → j ≠ i → t1.slot j = t.slot j) ∧ t1.nodes.length = t.nodes.length ∧
      t1.K = t.K ∧ t1.rootNode = t.rootNode := by
  obtain ⟨t1, h1, hf1, hs1, hfr1, hl1, hK1, hr1⟩ := AllocNode_spec hfree hi
  have hn1 : t1.slot n = some nd := by rw [hfr1 n hne]; exact hn
  have hl := slot_lt hn
  refine ⟨t1.store n (nd.setChild k i), ?_, by simpa using hf1, slot_store_same hn1, ?_, ?_,
    by simpa using hl1, by simpa using hK1, by simpa using hr1⟩
  · simp [VisTree.splitChild, h1, hn1]
  · rw [slot_store_ne hl.1 hne]; exact hs1
  · intro j hjn hji
    rw [slot_store_ne hl.1 (Ne.symm hjn)]; exact hfr1 j hji

/-- Effect of `Split` on a leaf when the four topmost free indices are distinct
pool slots other than the node itself. -/
theorem Split_spec {cfg : Config} {t : VisTree} {n : Int} {nd : VisNode} {rest : List Int}
    {i0 i1 i2 i3 : Int} (hat : t.At cfg n = some nd) (hleaf : nd.IsLeaf = true)
    (hfree : t.freeNodes = rest ++ [i3, i2, i1, i0])
    (hs : ∀ i ∈ [i0, i1, i2, i3], ∃ m, t.slot i = some m)
    (hnd : (n :: [i0, i1, i2, i3]).Nodup) :
    ∃ t1, t.Split cfg n = some t1 ∧ t1.freeNodes = rest ∧
      t1.slot n = some ⟨nd.geoms0, i0, i1, i2, i3⟩ ∧
      (∀ i ∈ [i0, i1, i2, i3], t1.slot i = some nd.Reset) ∧
      (∀ j, j ∉ n :: [i0, i1, i2, i3] → t1.slot j = t.slot j) ∧
      t1.nodes.length = t.nodes.length ∧ t1.K = t.K ∧ t1.rootNode = t.rootNode := by
  have hn : t.slot n = some nd := by
    unfold VisTree.At at hat
    split at hat
    · exact hat
    · exact absurd hat (by simp)
  simp only [List.nodup_cons, List.mem_cons, List.mem_singleton, not_or, List.not_mem_nil,
    not_false_eq_true, List.nodup_nil, and_true] at hnd
  obtain ⟨⟨hn0, hn1, hn2, hn3⟩, ⟨h01, h02, h03⟩, ⟨h12, h13⟩, h23⟩ := hnd
  obtain ⟨m0, hm0⟩ := hs i0 (by simp)
  obtain ⟨m1, hm1⟩ := hs i1 (by simp)
  obtain ⟨m2, hm2⟩ := hs i2 (by simp)
  obtain ⟨m3, hm3⟩ := hs i3 (by simp)
  have hf0 : t.freeNodes = (rest ++ [i3, i2, i1]) ++ [i0] := by simp [hfree]
  obtain ⟨t1, e1, f1, sn1, si1, fr1, l1, K1, r1⟩ := splitChild_spec 0 hf0 hm0 hn hn0
  have hf1 : t1.freeNodes = (rest ++ [i3, i2]) ++ [i1] := by simp [f1]
  obtain ⟨t2, e2, f2, sn2, si2, fr2, l2, K2, r2⟩ :=
    splitChild_spec 1 hf1 (by rw [fr1 i1 (Ne.symm hn1) (Ne.symm h01)]; exact hm1) sn1 hn1
  have hf2 : t2.freeNodes = (rest ++ [i3]) ++ [i2] := by simp [f2]
  obtain ⟨t3, e3, f3, sn3, si3, fr3, l3, K3, r3⟩ :=
    splitChild_spec 2 hf2 (by
      rw [fr2 i2 (Ne.symm hn2) (Ne.symm h12), fr1 i2 (Ne.symm hn2) (Ne.symm h02)]; exact hm2)
      sn2 hn2
  obtain ⟨t4, e4, f4, sn4, si4, fr4, l4, K4, r4⟩ :=
    splitChild_spec 3 f3 (by
      rw [fr3 i3 (Ne.symm hn3) (Ne.symm h23), fr2 i3 (Ne.symm hn3) (Ne.symm h13),
        fr1 i3 (Ne.symm hn3) (Ne.symm h03)]; exact hm3)
      sn3 hn3
  refine ⟨t4, ?_, f4, ?_, ?_, ?_, by omega, by simp [K4, K3, K2, K1],
    by simp [r4, r3, r2, r1]⟩
  · simp [VisTree.Split, hat, hleaf, List.foldlM, e1, e2, e3, e4]
  · rw [sn4]; rfl
  · intro i hi
    simp only [List.mem_cons, List.mem_singleton, List.not_mem_nil, or_false] at hi
    rcases hi with rfl | rfl | rfl | rfl
    · rw [fr4 _ (Ne.symm hn0) h03, fr3 _ (Ne.symm hn0) h02, fr2 _ (Ne.symm hn0) h01, si1]; rfl
    · rw [fr4 _ (Ne.symm hn1) h13, fr3 _ (Ne.symm hn1) h12, si2]; rfl
    · rw [fr4 _ (Ne.symm hn2) h23, si3]; rfl
    · rw [si4]; rfl
  · intro j hj
    simp only [List.mem_cons, List.mem_singleton, List.not_mem_nil, or_false, not_or] at hj
    obtain ⟨hjn, hj0, hj1, hj2, hj3⟩ := hj
    rw [fr4 j hjn hj3, fr3 j hjn hj2, fr2 j hjn hj1, fr1 j hjn hj0]

/-! ### Shapes stored in the pool -/

theorem idx_mem_indices (T : QTree) : T.idx ∈ T.indices := by
  cases T <;> simp [QTree.idx, QTree.indices]

theorem Rep_frame {t t1 : VisTree} {T : QTree} (h : ∀ j ∈ T.indices, t1.slot j = t.slot j)
    (hr : Rep t T) : Rep t1 T := by
  induction T with
  | leaf i =>
    simp only [Rep] at hr ⊢
    rw [h i (by simp [QTree.indices])]; exact hr
  | node i a b c d iha ihb ihc ihd =>
    simp only [Rep] at hr ⊢
    obtain ⟨hn, ha, hb, hc, hd⟩ := hr
    refine ⟨?_, iha ?_ ha, ihb ?_ hb, ihc ?_ hc, ihd ?_ hd⟩
    · rw [h i (by simp [QTree.indices])]; exact hn
    all_goals
      intro j hj
      exact h j (by simp [QTree.indices, hj])

theorem Rep_slot {t : VisTree} {T : QTree} (hr : Rep t T) :
    ∀ i ∈ T.indices, ∃ n, t.slot i = some n := by
  induction T with
  | leaf i =>
    simp only [Rep] at hr
    obtain ⟨n, hn, _⟩ := hr
    intro j hj
    simp only [QTree.indices, List.mem_singleton] at hj
    exact ⟨n, hj ▸ hn⟩
  | node i a b c d iha ihb ihc ihd =>
    simp only [Rep] at hr
    obtain ⟨⟨n, hn, _⟩, ha, hb, hc, hd⟩ := hr
    intro j hj
    simp only [QTree.indices, List.mem_cons, List.mem_append] at hj
    rcases hj with rfl | ((hj | hj) | hj) | hj
    · exact ⟨n, hn⟩
    · exact iha ha j hj
    · exact ihb hb j hj
    · exact ihc hc j hj
    · exact ihd hd j hj

theorem Rep_idx_ne_invalid {t : VisTree} {T : QTree} (hr : Rep t T) : T.idx ≠ InvalidIndex := by
  obtain ⟨n, hn⟩ := Rep_slot hr T.idx (idx_mem_indices T)
  have := (slot_lt hn).1
  unfold InvalidIndex
  omega

theorem childs_of_leaf {n : VisNode} (h : n.IsLeaf = true) {k : Nat} (hk : k < 4) :
    n.childs k = InvalidIndex := by
  simp only [VisNode.IsLeaf, Bool.and_eq_true, beq_iff_eq] at h
  obtain ⟨⟨⟨h0, h1⟩, h2⟩, h3⟩ := h
  match k, hk with
  | 0, _ => exact h0
  | 1, _ => exact h1
  | 2, _ => exact h2
  | 3, _ => exact h3

theorem ReachFrom_trans {t : VisTree} {r m i : Int} (h1 : ReachFrom t r m)
    (h2 : ReachFrom t m i) : ReachFrom t r i := by
  induction h2 with
  | refl => exact h1
  | step k _ hs hk hv ih => exact ReachFrom.step k ih hs hk hv

/-- Following a valid child link from a node of a stored shape stays inside it. -/
theorem Rep_child_mem {t : VisTree} {T : QTree} (hr : Rep t T) {i : Int} {n : VisNode}
    (hi : i ∈ T.indices) (hs : t.slot i = some n) {k : Nat} (hk : k < 4)
    (hv : n.childs k ≠ InvalidIndex) : n.childs k ∈ T.indices := by
  induction T with
  | leaf j =>
    simp only [Rep] at hr
    obtain ⟨m, hm, hleaf⟩ := hr
    simp only [QTree.indices, List.mem_singleton] at hi
    subst hi
    rw [hs] at hm
    cases hm
    exact absurd (childs_of_leaf hleaf hk) hv
  | node j a b c d iha ihb ihc ihd =>
    simp only [Rep] at hr
    obtain ⟨⟨m, hm, h0, h1, h2, h3⟩, ha, hb, hc, hd⟩ := hr
    simp only [QTree.indices, List.mem_cons, List.mem_append] at hi ⊢
    rcases hi with rfl | ((hi | hi) | hi) | hi
    · rw [hs] at hm
      cases hm
      right
      match k, hk with
      | 0, _ => exact Or.inl (Or.inl (Or.inl (h0 ▸ idx_mem_indices a)))
      | 1, _ => exact Or.inl (Or.inl (Or.inr (h1 ▸ idx_mem_indices b)))
      | 2, _ => exact Or.inl (Or.inr (h2 ▸ idx_mem_indices c))
      | 3, _ => exact Or.inr (h3 ▸ idx_mem_indices d)
    · exact Or.inr (Or.inl (Or.inl (Or.inl (iha ha hi))))
    · exact Or.inr (Or.inl (Or.inl (Or.inr (ihb hb hi))))
    · exact Or.inr (Or.inl (Or.inr (ihc hc hi)))
    · exact Or.inr (Or.inr (ihd hd hi))

/-- The indices of a stored shape are exactly the indices reachable from its
root through valid child links. -/
theorem Rep_reach {t : VisTree} {T : QTree} (hr : Rep t T) (i : Int) :
    ReachFrom t T.idx i ↔ i ∈ T.indices := by
  constructor
  · intro h
    induction h with
    | refl => exact idx_mem_indices T
    | step k _ hs hk hv ih => exact Rep_child_mem hr ih hs hk hv
  · intro hi
    induction T with
    | leaf j =>
      simp only [QTree.indices, List.mem_singleton] at hi
      subst hi
      exact ReachFrom.refl
    | node j a b c d iha ihb ihc ihd =>
      have hr0 := hr
      simp only [Rep] at hr
      obtain ⟨⟨m, hm, h0, h1, h2, h3⟩, ha, hb, hc, hd⟩ := hr
      simp only [QTree.indices, List.mem_cons, List.mem_append] at hi
      have step : ∀ (k : Nat) (C : QTree), k < 4 → m.childs k = C.idx → Rep t C →
          ReachFrom t C.idx i → ReachFrom t j i := by
        intro k C hk hc hC hreach
        have h1 : ReachFrom t j (m.childs k) :=
          ReachFrom.step k ReachFrom.refl hm hk (hc ▸ Rep_idx_ne_invalid hC)
        rw [hc] at h1
        exact ReachFrom_trans h1 hreach
      rcases hi with rfl | ((hi | hi) | hi) | hi
      · exact ReachFrom.refl
      · exact step 0 a (by omega) h0 ha (iha ha hi)
      · exact step 1 b (by omega) h1 hb (ihb hb hi)
      · exact step 2 c (by omega) h2 hc (ihc hc hi)
      · exact step 3 d (by omega) h3 hd (ihd hd hi)

/-! ### Merge -/

theorem nodup_node {i : Int} {a b c d : List Int} (h : (i :: (a ++ b ++ c ++ d)).Nodup) :
    (i ∉ a ∧ i ∉ b ∧ i ∉ c ∧ i ∉ d) ∧ (a.Nodup ∧ b.Nodup ∧ c.Nodup ∧ d.Nodup) ∧
    (∀ x ∈ a, x ∉ b) ∧ (∀ x ∈ a, x ∉ c) ∧ (∀ x ∈ a, x ∉ d) ∧
    (∀ x ∈ b, x ∉ c) ∧ (∀ x ∈ b, x ∉ d) ∧ (∀ x ∈ c, x ∉ d) := by
  simp only [List.nodup_cons, List.nodup_append, List.mem_append, not_or, List.Disjoint,
    or_imp, forall_and] at h
  obtain ⟨⟨⟨⟨h1, h2⟩, h3⟩, h4⟩, ⟨⟨na, nb, hab⟩, nc, hac, hbc⟩, nd, ⟨had, hbd⟩, hcd⟩ := h
  exact ⟨⟨h1, h2, h3, h4⟩, ⟨na, nb, nc, nd⟩, fun x hx hy => hab hx hy, hac, had, hbc, hbd, hcd⟩

theorem mergeChild_spec {cfg : Config} {f : Nat} {C : QTree}
    (ih : ∀ t0, MergePre cfg t0 C → ∃ t1, Merge cfg f t0 C.idx = some t1 ∧ MergePost t0 C t1)
    {t : VisTree} {i : Int} {n : VisNode} (k : Nat) (hs : t.slot i = some n)
    (hc : n.childs k = C.idx) (hi : i ∉ C.indices) (hpre : MergePre cfg t C) :
    ∃ t1, mergeChild (Merge cfg f) i t k = some t1 ∧
      t1.freeNodes = t.freeNodes ++ (C.freed ++ [C.idx]) ∧
      t1.slot i = some (n.setChild k InvalidIndex) ∧
      (∀ j ∈ C.indices, ∃ m, t.slot j = some m ∧ t1.slot j = some m.Reset) ∧
      (∀ j, j ≠ i → j ∉ C.indices → t1.slot j = t.slot j) ∧
      t1.nodes.length = t.nodes.length ∧ t1.K = t.K ∧ t1.rootNode = t.rootNode := by
  obtain ⟨t1, hm, hf, hin, hout, hl, hK, hr⟩ := ih t hpre
  have hne : InvalidIndex ≠ C.idx := Ne.symm (Rep_idx_ne_invalid hpre.2.1)
  have hs1 : t1.slot i = some n := by rw [hout i hi]; exact hs
  have h0 := (slot_lt hs).1
  have hs2 : ({ t1 with freeNodes := t1.freeNodes ++ [n.childs k] } : VisTree).slot i = some n :=
    hs1
  refine ⟨({ t1 with freeNodes := t1.freeNodes ++ [n.childs k] }).store i
    (n.setChild k InvalidIndex), ?_, ?_, slot_store_same hs2, ?_, ?_, ?_, hK, hr⟩
  · simp [VisTree.mergeChild, hs, hne, hc, hm, hs1]
  · simp [hf, hc]
  · intro j hj
    obtain ⟨m, hm0, hm1⟩ := hin j hj
    refine ⟨m, hm0, ?_⟩
    rw [slot_store_ne h0 (fun e => hi (e ▸ hj))]
    exact hm1
  · intro j hji hj
    rw [slot_store_ne h0 (Ne.symm hji)]
    exact hout j hj
  · simpa using hl

theorem MergePre_frame {cfg : Config} {t t1 : VisTree} {C : QTree}
    (hlen : t1.nodes.length = t.nodes.length) (h : ∀ j ∈ C.indices, t1.slot j = t.slot j)
    (hnd : C.indices.Nodup) (hpre : MergePre cfg t C) : MergePre cfg t1 C := by
  obtain ⟨h1, h2, _, h4⟩ := hpre
  refine ⟨by omega, Rep_frame h h2, hnd, ?_⟩
  intro j hj m hm
  rw [h j hj] at hm
  exact h4 j hj m hm

/-- `Merge` returns on every stored shape once the depth bound exceeds its
height, with the effect `MergePost`. -/
theorem Merge_spec (cfg : Config) (T : QTree) :
    ∀ (fuel : Nat) (t : VisTree), T.height < fuel → MergePre cfg t T →
      ∃ t1, Merge cfg fuel t T.idx = some t1 ∧ MergePost t T t1 := by
  induction T with
  | leaf i =>
    intro fuel t hf hpre
    obtain ⟨hlen, hrep, _, hg⟩ := hpre
    simp only [Rep] at hrep
    obtain ⟨n, hn, hleaf⟩ := hrep
    obtain ⟨f, rfl⟩ : ∃ f, fuel = f + 1 := ⟨fuel - 1, by omega⟩
    have hg0 := hg i (by simp [QTree.indices]) n hn
    have c0 := childs_of_leaf hleaf (k := 0) (by omega)
    have c1 := childs_of_leaf hleaf (k := 1) (by omega)
    have c2 := childs_of_leaf hleaf (k := 2) (by omega)
    have c3 := childs_of_leaf hleaf (k := 3) (by omega)
    refine ⟨t, ?_, by simp [QTree.freed], ?_, fun _ _ => rfl, rfl, rfl, rfl⟩
    · simp [QTree.idx, VisTree.Merge, At_eq_slot hlen, hn, hg0, List.foldlM, VisTree.mergeChild,
        c0, c1, c2, c3]
    · intro j hj
      simp only [QTree.indices, List.mem_singleton] at hj
      subst hj
      refine ⟨n, hn, ?_⟩
      rw [hn]
      congr 1
      cases n
      simp only [VisNode.childs] at c0 c1 c2 c3
      simp only at hg0
      simp [VisNode.Reset, c0, c1, c2, c3, hg0]
  | node i a b c d iha ihb ihc ihd =>
    intro fuel t hf hpre
    obtain ⟨hlen, hrep, hnd, hg⟩ := hpre
    have hrep0 := hrep
    simp only [Rep] at hrep
    obtain ⟨⟨n, hn, h0, h1, h2, h3⟩, ha, hb, hc, hd⟩ := hrep
    obtain ⟨f, rfl⟩ : ∃ f, fuel = f + 1 := ⟨fuel - 1, by omega⟩
    simp only [QTree.height] at hf
    simp only [QTree.indices] at hnd hg
    obtain ⟨⟨ia, ib, ic, id⟩, ⟨na, nb, nc, nd⟩, ab, ac, ad, bc, bd, cd⟩ := nodup_node hnd
    have hg0 := hg i (by simp) n hn
    have pa : MergePre cfg t a := ⟨hlen, ha, na, fun j hj => hg j (by simp [hj])⟩
    have pb : MergePre cfg t b := ⟨hlen, hb, nb, fun j hj => hg j (by simp [hj])⟩
    have pc : MergePre cfg t c := ⟨hlen, hc, nc, fun j hj => hg j (by simp [hj])⟩
    have pd : MergePre cfg t d := ⟨hlen, hd, nd, fun j hj => hg j (by simp [hj])⟩
    obtain ⟨t1, e1, f1, s1, in1, out1, l1, K1, r1⟩ :=
      mergeChild_spec (fun t0 h => iha f t0 (by omega) h) 0 hn h0 ia pa
    obtain ⟨t2, e2, f2, s2, in2, out2, l2, K2, r2⟩ :=
      mergeChild_spec (fun t0 h => ihb f t0 (by omega) h) 1 s1 (by simpa [VisNode.setChild,
        VisNode.childs] using h1) ib
        (MergePre_frame l1 (fun j hj => out1 j (fun e => ib (e ▸ hj)) (fun h => ab j h hj)) nb pb)
    obtain ⟨t3, e3, f3, s3, in3, out3, l3, K3, r3⟩ :=
      mergeChild_spec (fun t0 h => ihc f t0 (by omega) h) 2 s2 (by simpa [VisNode.setChild,
        VisNode.childs] using h2) ic
        (MergePre_frame (by omega) (fun j hj => by
          rw [out2 j (fun e => ic (e ▸ hj)) (fun h => bc j h hj),
            out1 j (fun e => ic (e ▸ hj)) (fun h => ac j h hj)]) nc pc)
    obtain ⟨t4, e4, f4, s4, in4, out4, l4, K4, r4⟩ :=
      mergeChild_spec (fun t0 h => ihd f t0 (by omega) h) 3 s3 (by simpa [VisNode.setChild,
        VisNode.childs] using h3) id
        (MergePre_frame (by omega) (fun j hj => by
          rw [out3 j (fun e => id (e ▸ hj)) (fun h => cd j h hj),
            out2 j (fun e => id (e ▸ hj)) (fun h => bd j h hj),
            out1 j (fun e => id (e ▸ hj)) (fun h => ad j h hj)]) nd pd)
    refine ⟨t4, ?_, ?_, ?_, ?_, by omega, by simp [K4, K3, K2, K1], by simp [r4, r3, r2, r1]⟩
    · simp [QTree.idx, VisTree.Merge, At_eq_slot hlen, hn, hg0, List.foldlM, e1, e2, e3, e4]
    · simp [f4, f3, f2, f1, QTree.freed]
    · intro j hj
      simp only [QTree.indices, List.mem_cons, List.mem_append] at hj
      rcases hj with rfl | ((hj | hj) | hj) | hj
      · refine ⟨n, hn, ?_⟩
        rw [s4]
        congr 1
        cases n
        simp only at hg0
        simp [VisNode.setChild, VisNode.Reset, hg0]
      · obtain ⟨m, hm0, hm1⟩ := in1 j hj
        refine ⟨m, hm0, ?_⟩
        rw [out4 j (fun e => ia (e ▸ hj)) (ad j hj), out3 j (fun e => ia (e ▸ hj)) (ac j hj),
          out2 j (fun e => ia (e ▸ hj)) (ab j hj)]
        exact hm1
      · obtain ⟨m, hm0, hm1⟩ := in2 j hj
        refine ⟨m, ?_, ?_⟩
        · rw [← out1 j (fun e => ib (e ▸ hj)) (fun h => ab j h hj)]; exact hm0
        · rw [out4 j (fun e => ib (e ▸ hj)) (bd j hj), out3 j (fun e => ib (e ▸ hj)) (bc j hj)]
          exact hm1
      · obtain ⟨m, hm0, hm1⟩ := in3 j hj
        refine ⟨m, ?_, ?_⟩
        · rw [← out1 j (fun e => ic (e ▸ hj)) (fun h => ac j h hj),
            ← out2 j (fun e => ic (e ▸ hj)) (fun h => bc j h hj)]
          exact hm0
        · rw [out4 j (fun e => ic (e ▸ hj)) (cd j hj)]
          exact hm1
      · obtain ⟨m, hm0, hm1⟩ := in4 j hj
        refine ⟨m, ?_, hm1⟩
        rw [← out1 j (fun e => id (e ▸ hj)) (fun h => ad j h hj),
          ← out2 j (fun e => id (e ▸ hj)) (fun h => bd j h hj),
          ← out3 j (fun e => id (e ▸ hj)) (fun h => cd j h hj)]
        exact hm0
    · intro j hj
      simp only [QTree.indices, List.mem_cons, List.mem_append, not_or] at hj
      obtain ⟨hji, ⟨⟨hja, hjb⟩, hjc⟩, hjd⟩ := hj
      rw [out4 j hji hjd, out3 j hji hjc, out2 j hji hjb, out1 j hji hja]

/-! ### Replacing a subtree of a stored shape -/

theorem perm_replace {i : Int} {l r x y u v : List Int} (h : List.Perm (x ++ u) (y ++ v)) :
    List.Perm ((i :: (l ++ x ++ r)) ++ u) ((i :: (l ++ y ++ r)) ++ v) := by
  rw [← Multiset.coe_eq_coe] at h ⊢
  simp only [← Multiset.coe_add, ← Multiset.cons_coe, ← Multiset.singleton_add,
    List.cons_append] at h ⊢
  calc _ = ((x : Multiset Int) + u) + ({i} + l + r) := by abel
    _ = _ := by rw [h]; abel

/-- Every index `n` of a stored shape `T` with distinct indices is the root of
a stored subshape `S`; replacing `S` by any stored shape `S1` with the same
root that avoids the rest of `T`, in a pool that agrees on the rest of `T`,
yields a stored shape again. -/
theorem Rep_focus {t : VisTree} (T : QTree) (hr : Rep t T) (hnd : T.indices.Nodup) (n : Int)
    (hn : n ∈ T.indices) :
    ∃ S : QTree, S.idx = n ∧ Rep t S ∧ S.indices.Nodup ∧ (∀ j ∈ S.indices, j ∈ T.indices) ∧
      ∀ (t1 : VisTree) (S1 : QTree), S1.idx = n → Rep t1 S1 →
        (∀ j ∈ T.indices, j ∉ S.indices → j ∉ S1.indices) →
        (∀ j ∈ T.indices, j ∉ S.indices → t1.slot j = t.slot j) →
        ∃ T1 : QTree, T1.idx = T.idx ∧ Rep t1 T1 ∧
          List.Perm (T1.indices ++ S.indices) (T.indices ++ S1.indices) := by
  induction T with
  | leaf i =>
    simp only [QTree.indices, List.mem_singleton] at hn
    subst hn
    refine ⟨QTree.leaf n, rfl, hr, hnd, fun j hj => hj, ?_⟩
    intro t1 S1 h1 hr1 _ _
    exact ⟨S1, h1, hr1, List.perm_append_comm⟩
  | node i a b c d iha ihb ihc ihd =>
    by_cases hin : n = i
    · subst hin
      refine ⟨QTree.node n a b c d, rfl, hr, hnd, fun j hj => hj, ?_⟩
      intro t1 S1 h1 hr1 _ _
      exact ⟨S1, h1, hr1, List.perm_append_comm⟩
    · have hr0 := hr
      simp only [Rep] at hr
      obtain ⟨⟨m, hm, h0, h1, h2, h3⟩, ha, hb, hc, hd⟩ := hr
      simp only [QTree.indices] at hnd
      obtain ⟨⟨ia, ib, ic, id⟩, ⟨na, nb, nc, nd⟩, ab, ac, ad, bc, bd, cd⟩ := nodup_node hnd
      simp only [QTree.indices, List.mem_cons, List.mem_append] at hn
      rcases hn with hn | ((hn | hn) | hn) | hn
      · exact absurd hn hin
      · obtain ⟨S, hS, hrS, hndS, hsub, hk⟩ := iha ha na hn
        refine ⟨S, hS, hrS, hndS, fun j hj => by simp [QTree.indices, hsub j hj], ?_⟩
        intro t1 S1 e1 r1 av fr
        simp only [QTree.indices, List.mem_cons, List.mem_append] at av fr
        obtain ⟨A, eA, rA, pA⟩ := hk t1 S1 e1 r1 (fun j hj => av j (by simp [hj]))
          (fun j hj => fr j (by simp [hj]))
        refine ⟨QTree.node i A b c d, rfl, ?_, ?_⟩
        · simp only [Rep]
          refine ⟨⟨m, ?_, by rw [eA]; exact h0, h1, h2, h3⟩, rA, ?_, ?_, ?_⟩
          · rw [fr i (by simp) (fun h => ia (hsub i h))]; exact hm
          · exact Rep_frame (fun j hj => fr j (by simp [hj]) (fun h => ab j (hsub j h) hj)) hb
          · exact Rep_frame (fun j hj => fr j (by simp [hj]) (fun h => ac j (hsub j h) hj)) hc
          · exact Rep_frame (fun j hj => fr j (by simp [hj]) (fun h => ad j (hsub j h) hj)) hd
        · have := perm_replace (i := i) (l := []) (r := b.indices ++ c.indices ++ d.indices) pA
          simpa [QTree.indices, List.append_assoc] using this
      · obtain ⟨S, hS, hrS, hndS, hsub, hk⟩ := ihb hb nb hn
        refine ⟨S, hS, hrS, hndS, fun j hj => by simp [QTree.indices, hsub j hj], ?_⟩
        intro t1 S1 e1 r1 av fr
        simp only [QTree.indices, List.mem_cons, List.mem_append] at av fr
        obtain ⟨B, eB, rB, pB⟩ := hk t1 S1 e1 r1 (fun j hj => av j (by simp [hj]))
          (fun j hj => fr j (by simp [hj]))
        refine ⟨QTree.node i a B c d, rfl, ?_, ?_⟩
        · simp only [Rep]
          refine ⟨⟨m, ?_, h0, by rw [eB]; exact h1, h2, h3⟩, ?_, rB, ?_, ?_⟩
          · rw [fr i (by simp) (fun h => ib (hsub i h))]; exact hm
          · exact Rep_frame (fun j hj => fr j (by simp [hj]) (fun h => ab j hj (hsub j h))) ha
          · exact Rep_frame (fun j hj => fr j (by simp [hj]) (fun h => bc j (hsub j h) hj)) hc
          · exact Rep_frame (fun j hj => fr j (by simp [hj]) (fun h => bd j (hsub j h) hj)) hd
        · have := perm_replace (i := i) (l := a.indices) (r := c.indices ++ d.indices) pB
          simpa [QTree.indices, List.append_assoc] using this
      · obtain ⟨S, hS, hrS, hndS, hsub, hk⟩ := ihc hc nc hn
        refine ⟨S, hS, hrS, hndS, fun j hj => by simp [QTree.indices, hsub j hj], ?_⟩
        intro t1 S1 e1 r1 av fr
        simp only [QTree.indices, List.mem_cons, List.mem_append] at av fr
        obtain ⟨C, eC, rC, pC⟩ := hk t1 S1 e1 r1 (fun j hj => av j (by simp [hj]))
          (fun j hj => fr j (by simp [hj]))
        refine ⟨QTree.node i a b C d, rfl, ?_, ?_⟩
        · simp only [Rep]
          refine ⟨⟨m, ?_, h0, h1, by rw [eC]; exact h2, h3⟩, ?_, ?_, rC, ?_⟩
          · rw [fr i (by simp) (fun h => ic (hsub i h))]; exact hm
          · exact Rep_frame (fun j hj => fr j (by simp [hj]) (fun h => ac j hj (hsub j h))) ha
          · exact Rep_frame (fun j hj => fr j (by simp [hj]) (fun h => bc j hj (hsub j h))) hb
          · exact Rep_frame (fun j hj => fr j (by simp [hj]) (fun h => cd j (hsub j h) hj)) hd
        · have := perm_replace (i := i) (l := a.indices ++ b.indices) (r := d.indices) pC
          simpa [QTree.indices, List.append_assoc] using this
      · obtain ⟨S, hS, hrS, hndS, hsub, hk⟩ := ihd hd nd hn
        refine ⟨S, hS, hrS, hndS, fun j hj => by simp [QTree.indices, hsub j hj], ?_⟩
        intro t1 S1 e1 r1 av fr
        simp only [QTree.indices, List.mem_cons, List.mem_append] at av fr
        obtain ⟨D, eD, rD, pD⟩ := hk t1 S1 e1 r1 (fun j hj => av j (by simp [hj]))
          (fun j hj => fr j (by simp [hj]))
        refine ⟨QTree.node i a b c D, rfl, ?_, ?_⟩
        · simp only [Rep]
          refine ⟨⟨m, ?_, h0, h1, h2, by rw [eD]; exact h3⟩, ?_, ?_, ?_, rD⟩
          · rw [fr i (by simp) (fun h => id (hsub i h))]; exact hm
          · exact Rep_frame (fun j hj => fr j (by simp [hj]) (fun h => ad j hj (hsub j h))) ha
          · exact Rep_frame (fun j hj => fr j (by simp [hj]) (fun h => bd j hj (hsub j h))) hb
          · exact Rep_frame (fun j hj => fr j (by simp [hj]) (fun h => cd j hj (hsub j h))) hc
        · have := perm_replace (i := i) (l := a.indices ++ b.indices ++ c.indices) (r := [])
            pD
          simpa [QTree.indices, List.append_assoc] using this

/-! ### The pool invariant -/

theorem toInt16_of_lt {i : Nat} (h : i < 32768) : toInt16 (i : Int) = (i : Int) := by
  unfold toInt16
  omega

theorem nodup_range_cast (n : Nat) : ((List.range n).map (fun (i : Nat) => (i : Int))).Nodup :=
  (List.nodup_range n).map (fun a b h => by simpa using h)

theorem mem_range_cast {n : Nat} {i : Int} :
    i ∈ (List.range n).map (fun (i : Nat) => (i : Int)) ↔ 0 ≤ i ∧ i < n := by
  simp only [List.mem_map, List.mem_range]
  constructor
  · rintro ⟨a, ha, rfl⟩
    omega
  · intro h
    exact ⟨i.toNat, by omega, by omega⟩

theorem InvT.nodup {cfg : Config} {t : VisTree} {T : QTree} (h : InvT cfg t T) :
    (T.indices ++ t.freeNodes).Nodup :=
  (List.Perm.nodup_iff h.2.2.2).2 (nodup_range_cast _)

theorem InvT.slot {cfg : Config} {t : VisTree} {T : QTree} (h : InvT cfg t T) {i : Int}
    (hi : i ∈ T.indices ++ t.freeNodes) : ∃ m, t.slot i = some m := by
  have h1 := mem_range_cast.1 ((List.Perm.mem_iff h.2.2.2).1 hi)
  have h2 : i.toNat < t.nodes.length := by rw [h.1]; omega
  exact ⟨t.nodes[i.toNat], slot_some_iff.2 ⟨h1.1, List.getElem?_eq_getElem h2⟩⟩

theorem InvT.live_iff {cfg : Config} {t : VisTree} {T : QTree} (h : InvT cfg t T) (i : Int) :
    Live t i ↔ i ∈ T.indices := by
  unfold Live
  rw [← h.2.1]
  exact Rep_reach h.2.2.1 i

theorem exists_four_suffix {l : List Int} (h : 4 ≤ l.length) :
    ∃ rest i3 i2 i1 i0, l = rest ++ [i3, i2, i1, i0] := by
  have hl : l.reverse.length = l.length := List.length_reverse l
  match hr : l.reverse with
  | [] => rw [hr] at hl; simp at hl; omega
  | [_] => rw [hr] at hl; simp at hl; omega
  | [_, _] => rw [hr] at hl; simp at hl; omega
  | [_, _, _] => rw [hr] at hl; simp at hl; omega
  | a :: b :: c :: d :: r =>
    refine ⟨r.reverse, d, c, b, a, ?_⟩
    have := congrArg List.reverse hr
    simpa using this

theorem range_rev_split (M : Nat) (f : Nat → Int) :
    (List.range (M + 1)).reverse.map f = ((List.range' 1 M).reverse.map f) ++ [f 0] := by
  rw [List.range_eq_range', List.range'_succ]
  simp

theorem Setup_spec {cfg : Config} {t0 : VisTree} (w : Int) (th : ℚ)
    (h16 : cfg.MaxNumNodes ≤ 32768) (hfree : t0.freeNodes = [])
    (hlen : t0.nodes.length = cfg.MaxNumNodes) (hpos : 0 < cfg.MaxNumNodes) :
    ∃ t, t0.Setup cfg w th = some t ∧ InvT cfg t (QTree.leaf 0) ∧ NoGeoms t ∧
      t.K = (w : ℚ) / (2 * th) ∧ t.freeNodes.length + 1 = cfg.MaxNumNodes := by
  obtain ⟨M, hM⟩ : ∃ M, cfg.MaxNumNodes = M + 1 := ⟨cfg.MaxNumNodes - 1, by omega⟩
  obtain ⟨nd0, h0⟩ : ∃ nd, t0.slot 0 = some nd :=
    slot_isSome.2 ⟨le_refl 0, by simp only [Int.toNat_zero]; omega⟩
  have hrest : ∀ i ∈ List.range' 1 M, toInt16 ((i : Nat) : Int) = (i : Int) := by
    intro i hi
    simp only [List.mem_range'_1] at hi
    exact toInt16_of_lt (by omega)
  have e0 : toInt16 ((0 : Nat) : Int) = 0 := by
    unfold toInt16
    omega
  have hf : ({ t0 with K := (w : ℚ) / (2 * th), freeNodes := t0.freeNodes ++
      (List.range cfg.MaxNumNodes).reverse.map (fun (i : Nat) => toInt16 (i : Int)) }
        : VisTree).freeNodes =
      (List.range' 1 M).reverse.map (fun (i : Nat) => (i : Int)) ++ [0] := by
    simp only [hfree, List.nil_append, hM, range_rev_split, e0]
    rw [List.map_congr_left (fun i hi => hrest i (List.mem_reverse.1 hi))]
  obtain ⟨t1, e1, f1, s1, fr1, l1, K1, r1⟩ := AllocNode_spec hf h0
  have hI : InvT cfg { t1 with rootNode := 0 } (QTree.leaf 0) := by
    refine ⟨?_, rfl, ⟨_, s1, Reset_isLeaf _⟩, ?_⟩
    · show t1.nodes.length = _
      rw [l1]; exact hlen
    · show List.Perm ([0] ++ t1.freeNodes) _
      rw [f1, hM, List.range_eq_range', List.range'_succ]
      simp only [List.map_cons, Nat.cast_zero, List.singleton_append, List.perm_cons]
      exact (List.reverse_perm _).map _
  refine ⟨{ t1 with rootNode := 0 }, ?_, hI, ?_, K1, ?_⟩
  · simp only [VisTree.Setup]
    rw [e1]
  · intro i hi m hm
    have := (hI.live_iff i).1 hi
    simp only [QTree.indices, List.mem_singleton] at this
    subst this
    have hm1 : t1.slot 0 = some m := hm
    rw [s1] at hm1
    cases hm1
    rfl
  · show t1.freeNodes.length + 1 = _
    rw [f1, hM]; simp

theorem perm_cancel_mid {n : Int} {x y z : List Int} (h : List.Perm (x ++ [n]) (y ++ n :: z)) :
    List.Perm x (y ++ z) := by
  rw [← Multiset.coe_eq_coe] at h ⊢
  simp only [← Multiset.coe_add, ← Multiset.cons_coe, ← Multiset.singleton_add,
    Multiset.coe_nil, add_zero] at h ⊢
  apply add_right_cancel (b := ({n} : Multiset Int))
  rw [h]
  abel

theorem freed_perm (T : QTree) : List.Perm (T.freed ++ [T.idx]) T.indices := by
  induction T with
  | leaf i => simp [QTree.freed, QTree.idx, QTree.indices]
  | node i a b c d iha ihb ihc ihd =>
    rw [← Multiset.coe_eq_coe] at iha ihb ihc ihd ⊢
    simp only [QTree.freed, QTree.idx, QTree.indices, ← Multiset.coe_add, ← Multiset.cons_coe,
      ← Multiset.singleton_add] at iha ihb ihc ihd ⊢
    rw [← iha, ← ihb, ← ihc, ← ihd]
    simp only [← Multiset.coe_add, ← Multiset.cons_coe, ← Multiset.singleton_add,
      Multiset.coe_nil, add_zero]
    abel

/-- `Split` on a live leaf of a well-formed state. -/
theorem Split_InvT {cfg : Config} {t : VisTree} {T : QTree} {n : Int} {nd : VisNode}
    (hI : InvT cfg t T) (hn : n ∈ T.indices) (hs : t.slot n = some nd)
    (hleaf : nd.IsLeaf = true) {rest : List Int} {i0 i1 i2 i3 : Int}
    (hf : t.freeNodes = rest ++ [i3, i2, i1, i0]) :
    ∃ t1 T1, t.Split cfg n = some t1 ∧ InvT cfg t1 T1 ∧ t1.freeNodes = rest ∧
      t1.slot n = some ⟨nd.geoms0, i0, i1, i2, i3⟩ ∧
      (∀ i ∈ [i0, i1, i2, i3], t1.slot i = some nd.Reset) ∧
      (∀ j, j ∉ n :: [i0, i1, i2, i3] → t1.slot j = t.slot j) ∧ t1.K = t.K ∧
      (n :: [i0, i1, i2, i3]).Nodup ∧ List.Perm T1.indices (T.indices ++ [i0, i1, i2, i3]) := by
  have hnd := hI.nodup
  rw [hf] at hnd
  have hmemf : ∀ i ∈ [i0, i1, i2, i3], i ∈ t.freeNodes := by
    intro i hi
    rw [hf]
    simp only [List.mem_cons, List.mem_singleton, List.not_mem_nil, or_false] at hi
    simp only [List.mem_append, List.mem_cons, List.mem_singleton, List.not_mem_nil, or_false]
    tauto
  have hdisj : ∀ j ∈ T.indices, j ∉ [i0, i1, i2, i3] := by
    intro j hj hi
    have := (List.nodup_append.1 hI.nodup).2.2
    exact this hj (hmemf j hi)
  have hnd4 : (n :: [i0, i1, i2, i3]).Nodup := by
    have h1 : ([n] ++ [i3, i2, i1, i0]).Nodup :=
      hnd.sublist ((List.singleton_sublist.2 hn).append (List.sublist_append_right _ _))
    exact (List.Perm.nodup_iff ((List.reverse_perm [i0, i1, i2, i3]).cons n)).1 h1
  have hat : t.At cfg n = some nd := by rw [At_eq_slot hI.1]; exact hs
  obtain ⟨t1, e1, f1, sn1, si1, fr1, l1, K1, r1⟩ := Split_spec hat hleaf hf
    (fun i hi => hI.slot (List.mem_append_right _ (hmemf i hi))) hnd4
  obtain ⟨S, hS, hrS, -, -, hk⟩ :=
    Rep_focus T hI.2.2.1 (List.nodup_append.1 hI.nodup).1 n hn
  have hSleaf : S = QTree.leaf n := by
    cases S with
    | leaf i => simp only [QTree.idx] at hS; rw [hS]
    | node i a b c d =>
      simp only [QTree.idx] at hS
      subst hS
      simp only [Rep] at hrS
      obtain ⟨⟨m, hm, h0, -⟩, ha, -⟩ := hrS
      rw [hs] at hm
      cases hm
      exact absurd (h0 ▸ childs_of_leaf hleaf (k := 0) (by omega)) (Ne.symm (Rep_idx_ne_invalid ha)).symm
  subst hSleaf
  have hrep1 : Rep t1 (QTree.node n (QTree.leaf i0) (QTree.leaf i1) (QTree.leaf i2)
      (QTree.leaf i3)) := by
    simp only [Rep]
    exact ⟨⟨_, sn1, rfl, rfl, rfl, rfl⟩, ⟨_, si1 i0 (by simp), Reset_isLeaf _⟩,
      ⟨_, si1 i1 (by simp), Reset_isLeaf _⟩, ⟨_, si1 i2 (by simp), Reset_isLeaf _⟩,
      ⟨_, si1 i3 (by simp), Reset_isLeaf _⟩⟩
  have hnotin : ∀ j ∈ T.indices, j ∉ (QTree.leaf n).indices → j ∉ n :: [i0, i1, i2, i3] := by
    intro j hj hjn hmem
    simp only [QTree.indices, List.mem_singleton] at hjn
    rcases List.mem_cons.1 hmem with h | h
    · exact hjn h
    · exact hdisj j hj h
  obtain ⟨T1, eT1, rT1, pT1⟩ := hk t1 (QTree.node n (QTree.leaf i0) (QTree.leaf i1)
    (QTree.leaf i2) (QTree.leaf i3)) rfl hrep1
    (fun j hj hjn => by simpa [QTree.indices] using hnotin j hj hjn)
    (fun j hj hjn => fr1 j (hnotin j hj hjn))
  have pT : List.Perm T1.indices (T.indices ++ [i0, i1, i2, i3]) := by
    apply perm_cancel_mid (n := n)
    simpa [QTree.indices] using pT1
  refine ⟨t1, T1, e1, ⟨by rw [l1]; exact hI.1, by rw [eT1, r1]; exact hI.2.1, rT1, ?_⟩, f1, sn1,
    si1, fr1, K1, hnd4, pT⟩
  rw [f1]
  refine List.Perm.trans ?_ hI.2.2.2
  rw [hf]
  refine (pT.append_right rest).trans ?_
  rw [List.append_assoc]
  refine List.Perm.append_left _ ?_
  exact List.perm_append_comm.trans ((List.reverse_perm [i0, i1, i2, i3]).symm.append_left rest)

/-! ### Depth bound of `Merge` -/

theorem mergeChild_mono {m1 m2 : VisTree → Int → Option VisTree}
    (h : ∀ t n r, m1 t n = some r → m2 t n = some r) (i : Int) (t : VisTree) (k : Nat)
    (r : VisTree) (hr : mergeChild m1 i t k = some r) : mergeChild m2 i t k = some r := by
  unfold VisTree.mergeChild at hr ⊢
  cases hs : t.slot i with
  | none => simp [hs] at hr
  | some node =>
    simp only [hs] at hr ⊢
    by_cases hc : InvalidIndex ≠ node.childs k
    · rw [if_pos hc] at hr ⊢
      cases hm : m1 t (node.childs k) with
      | none => simp [hm] at hr
      | some t1 =>
        rw [h _ _ _ hm]
        simpa [hm] using hr
    · rw [if_neg hc] at hr ⊢
      exact hr

theorem foldlM_mono {f1 f2 : VisTree → Nat → Option VisTree}
    (h : ∀ t k r, f1 t k = some r → f2 t k = some r) (l : List Nat) :
    ∀ (t r : VisTree), l.foldlM f1 t = some r → l.foldlM f2 t = some r := by
  induction l with
  | nil => intro t r hr; simpa using hr
  | cons k l ih =>
    intro t r hr
    simp only [List.foldlM_cons, Option.bind_eq_bind, Option.bind_eq_some] at hr ⊢
    obtain ⟨t1, h1, h2⟩ := hr
    exact ⟨t1, h _ _ _ h1, ih _ _ h2⟩

/-- Raising the depth bound of `Merge` does not change a result. -/
theorem Merge_mono (cfg : Config) : ∀ (f : Nat) (t : VisTree) (n : Int) (r : VisTree),
    Merge cfg f t n = some r → Merge cfg (f + 1) t n = some r := by
  intro f
  induction f with
  | zero => intro t n r h; simp [VisTree.Merge] at h
  | succ f ih =>
    intro t n r h
    rw [VisTree.Merge] at h ⊢
    cases ha : t.At cfg n with
    | none => simp [ha] at h
    | some node =>
      simp only [ha] at h ⊢
      by_cases hg : InvalidIndex = node.geoms0
      · simp only [hg, if_true] at h ⊢
        exact foldlM_mono (fun t k r => mergeChild_mono (ih) n t k r) _ _ _ h
      · simp [hg] at h

theorem Merge_mono_le (cfg : Config) {f g : Nat} (hfg : f ≤ g) {t : VisTree} {n : Int}
    {r : VisTree} (h : Merge cfg f t n = some r) : Merge cfg g t n = some r := by
  induction hfg with
  | refl => exact h
  | step _ ih => exact Merge_mono cfg _ _ _ _ ih

/-- `Merge` on a live node of a well-formed state whose subtree holds no
geometry. -/
theorem Merge_InvT {cfg : Config} {t : VisTree} {T : QTree} {n : Int} (hI : InvT cfg t T)
    (hn : n ∈ T.indices)
    (hg : ∀ j, ReachFrom t n j → ∀ m, t.slot j = some m → m.geoms0 = InvalidIndex) :
    ∃ (S : QTree) (t1 : VisTree) (T1 : QTree), S.idx = n ∧ Rep t S ∧ S.indices.Nodup ∧
      (∀ j ∈ S.indices, j ∈ T.indices) ∧
      (∀ fuel, S.height < fuel → Merge cfg fuel t n = some t1) ∧ MergePost t S t1 ∧
      InvT cfg t1 T1 ∧ List.Perm (T1.indices ++ S.freed) T.indices := by
  obtain ⟨S, hS, hrS, hndS, hsub, hk⟩ :=
    Rep_focus T hI.2.2.1 (List.nodup_append.1 hI.nodup).1 n hn
  have hpre : MergePre cfg t S :=
    ⟨hI.1, hrS, hndS, fun j hj => hg j (by rw [← hS]; exact (Rep_reach hrS j).2 hj)⟩
  obtain ⟨t1, e1, hpost⟩ := Merge_spec cfg S (S.height + 1) t (by omega) hpre
  rw [hS] at e1
  obtain ⟨f1, in1, out1, l1, K1, r1⟩ := hpost
  have hnS : n ∈ S.indices := hS ▸ idx_mem_indices S
  obtain ⟨m, -, hm1⟩ := in1 n hnS
  obtain ⟨T1, eT1, rT1, pT1⟩ := hk t1 (QTree.leaf n) rfl ⟨_, hm1, Reset_isLeaf _⟩
    (fun j _ hjS => by
      simp only [QTree.indices, List.mem_singleton]
      exact fun e => hjS (e ▸ hnS))
    (fun j _ hjS => out1 j hjS)
  have pF : List.Perm (T1.indices ++ S.freed) T.indices := by
    have h2 := freed_perm S
    rw [hS] at h2
    have h3 : List.Perm ((T1.indices ++ S.freed) ++ [n]) (T.indices ++ n :: []) := by
      rw [List.append_assoc]
      exact (List.Perm.append_left _ h2).trans (by simpa [QTree.indices] using pT1)
    simpa using perm_cancel_mid h3
  refine ⟨S, t1, T1, hS, hrS, hndS, hsub, fun fuel hf => Merge_mono_le cfg (by omega) e1,
    ⟨f1, in1, out1, l1, K1, r1⟩, ⟨by rw [l1]; exact hI.1, by rw [eT1, r1]; exact hI.2.1, rT1, ?_⟩,
    pF⟩
  rw [f1]
  refine List.Perm.trans ?_ hI.2.2.2
  have h4 : List.Perm (T1.indices ++ (t.freeNodes ++ S.freed))
      ((T1.indices ++ S.freed) ++ t.freeNodes) := by
    rw [List.append_assoc]
    exact List.Perm.append_left _ List.perm_append_comm
  exact h4.trans (pF.append_right _)


theorem AllocNode_some {t t1 : VisTree} {i : Int} (h : t.AllocNode = some (t1, i)) :
    t.freeNodes = t1.freeNodes ++ [i] ∧ t1.nodes.length = t.nodes.length := by
  unfold VisTree.AllocNode at h
  cases hg : t.freeNodes.getLast? with
  | none => simp [hg] at h
  | some a =>
    simp only [hg] at h
    cases hs : t.slot a with
    | none => simp [hs] at h
    | some nd =>
      simp only [hs, Option.some.injEq, Prod.mk.injEq] at h
      obtain ⟨h1, h2⟩ := h
      subst h1 h2
      have := List.dropLast_append_getLast? (l := t.freeNodes) a (by simp [hg])
      simp [this]

theorem splitChild_some {n : Int} {t t1 : VisTree} {k : Nat} (h : splitChild n t k = some t1) :
    t.freeNodes.length = t1.freeNodes.length + 1 ∧ t1.nodes.length = t.nodes.length := by
  unfold VisTree.splitChild at h
  cases ha : t.AllocNode with
  | none => simp [ha] at h
  | some p =>
    obtain ⟨t0, i⟩ := p
    simp only [ha] at h
    obtain ⟨hf, hl⟩ := AllocNode_some ha
    cases hs : t0.slot n with
    | none => simp [hs] at h
    | some nd =>
      simp only [hs, Option.some.injEq] at h
      subst h
      simp [hf, hl]

theorem splitChild_exists {n i : Int} {t : VisTree} {rest : List Int} (k : Nat)
    (hf : t.freeNodes = rest ++ [i]) (hi : ∃ m, t.slot i = some m)
    (hn : ∃ nd, t.slot n = some nd) :
    ∃ t1, splitChild n t k = some t1 ∧ t1.freeNodes = rest ∧
      t1.nodes.length = t.nodes.length := by
  obtain ⟨m, hm⟩ := hi
  obtain ⟨t0, e0, f0, -, -, l0, -, -⟩ := AllocNode_spec hf hm
  obtain ⟨nd, hnd⟩ : ∃ nd, t0.slot n = some nd := by
    rw [slot_isSome, l0, ← slot_isSome]; exact hn
  exact ⟨t0.store n (nd.setChild k i), by simp [VisTree.splitChild, e0, hnd], by simpa using f0,
    by simpa using l0⟩
/-! ### C9 -/

/-- C9 (AllocNode contract).  In a state whose free indices all address pool
slots, `AllocNode` fails exactly when the free-list is empty; otherwise it pops
the last free index `i` and nothing else, resets slot `i` to a leaf with all
children `Invalid`, leaves every other slot unchanged and returns `i`.
Consequently `Split` on a leaf succeeds iff at least four indices are free. -/
theorem AllocNode_contract (cfg : Config) (t : VisTree)
    (hfree : ∀ i ∈ t.freeNodes, ∃ m, t.slot i = some m) :
    (t.AllocNode = none ↔ t.freeNodes = []) ∧
    (∀ rest i, t.freeNodes = rest ++ [i] →
      ∃ t1 m, t.AllocNode = some (t1, i) ∧ t1.freeNodes = rest ∧ t1.slot i = some m ∧
        m.IsLeaf = true ∧ (∀ k, k < 4 → m.childs k = InvalidIndex) ∧
        (∀ j, j ≠ i → t1.slot j = t.slot j) ∧ t1.nodes.length = t.nodes.length ∧
        t1.K = t.K ∧ t1.rootNode = t.rootNode) ∧
    (∀ n nd, t.At cfg n = some nd → nd.IsLeaf = true →
      ((∃ t1, t.Split cfg n = some t1) ↔ 4 ≤ t.freeNodes.length)) := by
  refine ⟨?_, ?_, ?_⟩
  · constructor
    · intro h
      rcases List.eq_nil_or_concat t.freeNodes with hnil | ⟨rest, i, hc⟩
      · exact hnil
      · have hc1 : t.freeNodes = rest ++ [i] := by simpa using hc
        obtain ⟨m, hm⟩ := hfree i (by simp [hc1])
        obtain ⟨t1, e1, -⟩ := AllocNode_spec hc1 hm
        rw [h] at e1
        cases e1
    · intro h
      simp [VisTree.AllocNode, h]
  · intro rest i hf
    obtain ⟨m, hm⟩ := hfree i (by simp [hf])
    obtain ⟨t1, e1, f1, s1, fr1, l1, K1, r1⟩ := AllocNode_spec hf hm
    exact ⟨t1, m.Reset, e1, f1, s1, Reset_isLeaf _,
      fun k hk => childs_of_leaf (Reset_isLeaf _) hk, fr1, l1, K1, r1⟩
  · intro n nd hat hleaf
    have hn : ∃ nd, t.slot n = some nd := by
      unfold VisTree.At at hat
      split at hat
      · exact ⟨nd, hat⟩
      · cases hat
    constructor
    · rintro ⟨t4, h⟩
      simp only [VisTree.Split, hat, hleaf, if_true, List.foldlM_cons, List.foldlM_nil,
        Option.bind_eq_bind, Option.bind_eq_some] at h
      obtain ⟨t1, e1, t2, e2, t3, e3, t5, e4, -⟩ := h
      have h1 := (splitChild_some e1).1
      have h2 := (splitChild_some e2).1
      have h3 := (splitChild_some e3).1
      have h4 := (splitChild_some e4).1
      omega
    · intro h4
      obtain ⟨rest, i3, i2, i1, i0, hf⟩ := exists_four_suffix h4
      have hv : ∀ i ∈ [i0, i1, i2, i3], 0 ≤ i ∧ i.toNat < t.nodes.length := by
        intro i hi
        refine slot_isSome.1 (hfree i ?_)
        rw [hf]
        simp only [List.mem_cons, List.mem_singleton, List.not_mem_nil, or_false] at hi
        simp only [List.mem_append, List.mem_cons, List.mem_singleton, List.not_mem_nil,
          or_false]
        tauto
      have hn0 := slot_isSome.1 hn
      have hf0 : t.freeNodes = (rest ++ [i3, i2, i1]) ++ [i0] := by simp [hf]
      obtain ⟨t1, e1, f1, l1⟩ := splitChild_exists 0 hf0 (slot_isSome.2 (hv i0 (by simp))) hn
      have hf1 : t1.freeNodes = (rest ++ [i3, i2]) ++ [i1] := by simp [f1]
      obtain ⟨t2, e2, f2, l2⟩ := splitChild_exists 1 hf1
        (slot_isSome.2 (by rw [l1]; exact hv i1 (by simp))) (slot_isSome.2 (by rw [l1]; exact hn0))
      have hf2 : t2.freeNodes = (rest ++ [i3]) ++ [i2] := by simp [f2]
      obtain ⟨t3, e3, f3, l3⟩ := splitChild_exists 2 hf2
        (slot_isSome.2 (by rw [l2, l1]; exact hv i2 (by simp)))
        (slot_isSome.2 (by rw [l2, l1]; exact hn0))
      obtain ⟨t4, e4, f4, l4⟩ := splitChild_exists 3 f3
        (slot_isSome.2 (by rw [l3, l2, l1]; exact hv i3 (by simp)))
        (slot_isSome.2 (by rw [l3, l2, l1]; exact hn0))
      exact ⟨t4, by simp [VisTree.Split, hat, hleaf, List.foldlM, e1, e2, e3, e4]⟩

theorem AllocNode_contract_witness :
    (∀ i ∈ tW.freeNodes, ∃ m, tW.slot i = some m) ∧ ¬ (tW.AllocNode = none) := by
  have h : ∀ i ∈ tW.freeNodes, ∃ m, tW.slot i = some m := by
    intro i hi
    simp only [tW, List.mem_cons, List.mem_singleton, List.not_mem_nil, or_false] at hi
    rcases hi with rfl | rfl | rfl | rfl | rfl <;> exact ⟨_, rfl⟩
  refine ⟨h, ?_⟩
  rw [(AllocNode_contract cfgW tW h).1]
  decide

theorem tW_InvT : InvT cfgW tW (QTree.leaf 0) :=
  ⟨rfl, rfl, ⟨_, rfl, rfl⟩, by decide⟩

/-! ### C4 -/

/-- C4 (Split postcondition).  In a well-formed state, `Split` on a live leaf
`n` with at least four free indices succeeds; it pops exactly the four topmost
free indices, installs them as the children 0..3 of `n` (so `n` has four valid
children and is no leaf), the four are pairwise distinct and differ from `n`,
each is a reset leaf, and every other slot is unchanged. -/
theorem Split_postcondition (cfg : Config) (t : VisTree) (n : Int) (nd : VisNode)
    (hI : Inv cfg t) (hlive : Live t n) (hs : t.slot n = some nd) (hleaf : nd.IsLeaf = true)
    (h4 : 4 ≤ t.freeNodes.length) :
    ∃ t1 rest i0 i1 i2 i3, t.Split cfg n = some t1 ∧
      t.freeNodes = rest ++ [i3, i2, i1, i0] ∧ t1.freeNodes = rest ∧
      t1.freeNodes.length + 4 = t.freeNodes.length ∧
      (∃ m, t1.slot n = some m ∧ m.childs 0 = i0 ∧ m.childs 1 = i1 ∧ m.childs 2 = i2 ∧
        m.childs 3 = i3 ∧ m.IsLeaf = false ∧ m.geoms0 = nd.geoms0) ∧
      (∀ i ∈ [i0, i1, i2, i3], i ≠ InvalidIndex ∧ ∃ m, t1.slot i = some m ∧ m.IsLeaf = true) ∧
      (n :: [i0, i1, i2, i3]).Nodup ∧
      (∀ j, j ∉ n :: [i0, i1, i2, i3] → t1.slot j = t.slot j) ∧
      Inv cfg t1 := by
  obtain ⟨T, hT⟩ := hI
  obtain ⟨rest, i3, i2, i1, i0, hf⟩ := exists_four_suffix h4
  obtain ⟨t1, T1, e1, hI1, f1, sn1, si1, fr1, -, hnd, -⟩ :=
    Split_InvT hT ((hT.live_iff n).1 hlive) hs hleaf hf
  have hvalid : ∀ i ∈ [i0, i1, i2, i3], i ≠ InvalidIndex := by
    intro i hi
    have := (slot_lt (si1 i hi)).1
    unfold InvalidIndex
    omega
  refine ⟨t1, rest, i0, i1, i2, i3, e1, hf, f1, by simp [f1, hf], ⟨_, sn1, rfl, rfl, rfl, rfl, ?_,
    rfl⟩, fun i hi => ⟨hvalid i hi, _, si1 i hi, Reset_isLeaf _⟩, hnd, fr1, ⟨T1, hI1⟩⟩
  have := hvalid i0 (by simp)
  simp [VisNode.IsLeaf, this]

theorem Split_postcondition_witness :
    Inv cfgW tW ∧ Live tW 0 ∧ 4 ≤ tW.freeNodes.length ∧ ∃ t1, tW.Split cfgW 0 = some t1 := by
  refine ⟨⟨_, tW_InvT⟩, ReachFrom.refl, by decide, ?_⟩
  obtain ⟨t1, _, _, _, _, _, h, -⟩ :=
    Split_postcondition cfgW tW 0 ⟨-1, -1, -1, -1, -1⟩ ⟨_, tW_InvT⟩ ReachFrom.refl rfl rfl
      (by decide)
  exact ⟨t1, h⟩

/-! ### C5 -/

theorem freed_nodup {S : QTree} (h : S.indices.Nodup) :
    S.freed.Nodup ∧ ∀ j, j ∈ S.freed ↔ j ∈ S.indices ∧ j ≠ S.idx := by
  have hp := freed_perm S
  have hn : (S.freed ++ [S.idx]).Nodup := (List.Perm.nodup_iff hp).2 h
  have hd := List.nodup_append.1 hn
  refine ⟨hd.1, fun j => ?_⟩
  have hm := List.Perm.mem_iff hp (a := j)
  simp only [List.mem_append, List.mem_singleton] at hm
  constructor
  · intro hj
    exact ⟨hm.1 (Or.inl hj), fun e => hd.2.2 hj (by simp [e])⟩
  · rintro ⟨hj, hne⟩
    rcases hm.2 hj with h1 | h1
    · exact h1
    · exact absurd h1 hne

/-- C5 (Merge postcondition).  In a well-formed state, `Merge` on a live node
`n` whose subtree holds no geometry returns (for every sufficiently large depth
bound); afterwards `n` is a leaf with four `Invalid` children, every former
descendant has all children `Invalid`, the free-list is the old one extended by
the former proper descendants of `n`, each exactly once, slots outside the
subtree of `n` are unchanged, and the state is well-formed. -/
theorem Merge_postcondition (cfg : Config) (t : VisTree) (n : Int) (hI : Inv cfg t)
    (hlive : Live t n)
    (hg : ∀ j, ReachFrom t n j → ∀ m, t.slot j = some m → m.geoms0 = InvalidIndex) :
    ∃ (t1 : VisTree) (added : List Int) (fuel0 : Nat),
      (∀ fuel, fuel0 ≤ fuel → Merge cfg fuel t n = some t1) ∧
      (∃ m, t1.slot n = some m ∧ m.IsLeaf = true ∧ ∀ k, k < 4 → m.childs k = InvalidIndex) ∧
      (∀ j, ReachFrom t n j → ∃ m, t1.slot j = some m ∧ m.IsLeaf = true ∧
        ∀ k, k < 4 → m.childs k = InvalidIndex) ∧
      t1.freeNodes = t.freeNodes ++ added ∧ added.Nodup ∧
      (∀ j, j ∈ added ↔ ReachFrom t n j ∧ j ≠ n) ∧
      (∀ j, ¬ ReachFrom t n j → t1.slot j = t.slot j) ∧
      Inv cfg t1 := by
  obtain ⟨T, hT⟩ := hI
  obtain ⟨S, t1, T1, hS, hrS, hndS, -, hm, ⟨f1, in1, out1, -, -, -⟩, hI1, -⟩ :=
    Merge_InvT hT ((hT.live_iff n).1 hlive) hg
  have hreach : ∀ j, ReachFrom t n j ↔ j ∈ S.indices := by
    intro j
    rw [← hS]
    exact Rep_reach hrS j
  have hin : ∀ j, ReachFrom t n j → ∃ m, t1.slot j = some m ∧ m.IsLeaf = true ∧
      ∀ k, k < 4 → m.childs k = InvalidIndex := by
    intro j hj
    obtain ⟨m, -, hm1⟩ := in1 j ((hreach j).1 hj)
    exact ⟨_, hm1, Reset_isLeaf _, fun k hk => childs_of_leaf (Reset_isLeaf _) hk⟩
  obtain ⟨hfn, hfm⟩ := freed_nodup hndS
  refine ⟨t1, S.freed, S.height + 1, fun fuel hf => hm fuel (by omega), hin n ReachFrom.refl,
    hin, f1, hfn, ?_, fun j hj => out1 j (fun h => hj ((hreach j).2 h)), ⟨T1, hI1⟩⟩
  intro j
  rw [hfm j, hreach j, hS]

theorem Merge_postcondition_witness :
    Inv cfgW tK1 ∧ Live tK1 0 ∧ Merge cfgW 2 tK1 0 = some tK2 ∧
      ∃ (t1 : VisTree) (added : List Int) (fuel0 : Nat),
        (∀ fuel, fuel0 ≤ fuel → Merge cfgW fuel tK1 0 = some t1) ∧
        (∃ m, t1.slot 0 = some m ∧ m.IsLeaf = true ∧ ∀ k, k < 4 → m.childs k = InvalidIndex) ∧
        (∀ j, ReachFrom tK1 0 j → ∃ m, t1.slot j = some m ∧ m.IsLeaf = true ∧
          ∀ k, k < 4 → m.childs k = InvalidIndex) ∧
        t1.freeNodes = tK1.freeNodes ++ added ∧ added.Nodup ∧
        (∀ j, j ∈ added ↔ ReachFrom tK1 0 j ∧ j ≠ 0) ∧
        (∀ j, ¬ ReachFrom tK1 0 j → t1.slot j = tK1.slot j) ∧
        Inv cfgW t1 := by
  have hT : InvT cfgW tK1
      (QTree.node 0 (QTree.leaf 1) (QTree.leaf 2) (QTree.leaf 3) (QTree.leaf 4)) :=
    ⟨rfl, rfl, ⟨⟨_, rfl, rfl, rfl, rfl, rfl⟩, ⟨_, rfl, rfl⟩, ⟨_, rfl, rfl⟩, ⟨_, rfl, rfl⟩,
      ⟨_, rfl, rfl⟩⟩, by decide⟩
  have hg : ∀ j, ReachFrom tK1 0 j → ∀ m, tK1.slot j = some m → m.geoms0 = InvalidIndex := by
    intro j hj m hm
    have hmem := (Rep_reach hT.2.2.1 j).1 hj
    simp only [QTree.indices, List.mem_cons, List.mem_singleton, List.cons_append,
      List.nil_append, List.mem_nil_iff, or_false] at hmem
    rcases hmem with h | h | h | h | h <;> subst h <;> cases hm <;> rfl
  exact ⟨⟨_, hT⟩, ReachFrom.refl, by decide!,
    Merge_postcondition cfgW tK1 0 ⟨_, hT⟩ ReachFrom.refl hg⟩

/-! ### C1 -/

/-- `Setup` on a fresh object produces a well-formed state without geometry. -/
theorem Setup_keeps {cfg : Config} (h16 : cfg.MaxNumNodes ≤ 32768) {t0 t : VisTree}
    (w : Int) (th : ℚ) (hfree : t0.freeNodes = []) (hlen : t0.nodes.length = cfg.MaxNumNodes)
    (hset : t0.Setup cfg w th = some t) : Inv cfg t ∧ NoGeoms t := by
  by_cases hpos : 0 < cfg.MaxNumNodes
  · obtain ⟨t1, e1, hI, hG, -, -⟩ := Setup_spec w th h16 hfree hlen hpos
    rw [hset] at e1
    cases e1
    exact ⟨⟨_, hI⟩, hG⟩
  · have h0 : cfg.MaxNumNodes = 0 := by omega
    simp [VisTree.Setup, VisTree.AllocNode, hfree, h0] at hset

/-- `Split` of a live leaf with four free indices keeps the state well-formed
and without geometry. -/
theorem Split_keeps {cfg : Config} {t t1 : VisTree} {n : Int} {nd : VisNode}
    (ih : Inv cfg t ∧ NoGeoms t) (hlive : Live t n) (hs : t.slot n = some nd)
    (hleaf : nd.IsLeaf = true) (h4 : 4 ≤ t.freeNodes.length) (hsp : t.Split cfg n = some t1) :
    Inv cfg t1 ∧ NoGeoms t1 := by
  obtain ⟨⟨T, hT⟩, hG⟩ := ih
  obtain ⟨rest, i3, i2, i1, i0, hf⟩ := exists_four_suffix h4
  have hnT := (hT.live_iff n).1 hlive
  obtain ⟨t2, T1, e1, hI1, f1, sn1, si1, fr1, -, hnd, pT⟩ := Split_InvT hT hnT hs hleaf hf
  rw [hsp] at e1
  cases e1
  refine ⟨⟨T1, hI1⟩, ?_⟩
  intro i hi m hm
  have hiT := (List.Perm.mem_iff pT).1 ((hI1.live_iff i).1 hi)
  by_cases hmem : i ∈ n :: [i0, i1, i2, i3]
  · rcases List.mem_cons.1 hmem with h | h
    · subst h
      rw [sn1] at hm
      cases hm
      exact hG i hlive nd hs
    · rw [si1 i h] at hm
      cases hm
      rfl
  · rw [fr1 i hmem] at hm
    rcases List.mem_append.1 hiT with h | h
    · exact hG i ((hT.live_iff i).2 h) m hm
    · exact absurd (List.mem_cons_of_mem _ h) hmem

/-- `Merge` of a live node keeps the state well-formed and without geometry. -/
theorem Merge_keeps {cfg : Config} {t t1 : VisTree} {n : Int} (fuel : Nat)
    (ih : Inv cfg t ∧ NoGeoms t) (hlive : Live t n) (hmg : t.Merge cfg fuel n = some t1) :
    Inv cfg t1 ∧ NoGeoms t1 := by
  obtain ⟨⟨T, hT⟩, hG⟩ := ih
  have hg : ∀ j, ReachFrom t n j → ∀ m, t.slot j = some m → m.geoms0 = InvalidIndex :=
    fun j hj => hG j (ReachFrom_trans hlive hj)
  obtain ⟨S, t2, T1, hS, hrS, hndS, hsub, hm, ⟨f1, in1, out1, -, -, -⟩, hI1, pT⟩ :=
    Merge_InvT hT ((hT.live_iff n).1 hlive) hg
  have e1 := hm (max fuel (S.height + 1)) (by omega)
  rw [Merge_mono_le cfg (le_max_left _ _) hmg] at e1
  cases e1
  refine ⟨⟨T1, hI1⟩, ?_⟩
  intro i hi m hm1
  have hiT : i ∈ T.indices :=
    (List.Perm.mem_iff pT).1 (List.mem_append_left _ ((hI1.live_iff i).1 hi))
  by_cases hiS : i ∈ S.indices
  · obtain ⟨m0, -, h1⟩ := in1 i hiS
    rw [h1] at hm1
    cases hm1
    rfl
  · rw [out1 i hiS] at hm1
    exact hG i ((hT.live_iff i).2 hiT) m hm1

/-- Every state reached from `Setup` by `Split` and `Merge` calls is well-formed
and holds no geometry. -/
theorem Reachable_inv {cfg : Config} (h16 : cfg.MaxNumNodes ≤ 32768) {t : VisTree}
    (hr : Reachable cfg t) : Inv cfg t ∧ NoGeoms t := by
  induction hr with
  | @setup t0 t w th hfree hlen hset => exact Setup_keeps h16 w th hfree hlen hset
  | @split t t1 n nd _ hlive hs hleaf h4 hsp ih => exact Split_keeps ih hlive hs hleaf h4 hsp
  | @merge t t1 n fuel _ hlive hmg ih => exact Merge_keeps fuel ih hlive hmg

/-- C1 (pool conservation).  In every state reached from `Setup` by `Split`
calls (on a live leaf, with at least four free indices) and `Merge` calls (on
a live node), the number of indices reachable from the root plus the length
of the free-list equals `MaxNumNodes`, no index is both free and reachable,
and no index occurs twice on the free-list. -/
theorem pool_conservation (cfg : Config) (h16 : cfg.MaxNumNodes ≤ 32768) (t : VisTree)
    (hr : Reachable cfg t) :
    Set.ncard {i | Live t i} + t.freeNodes.length = cfg.MaxNumNodes ∧
    (∀ i, i ∈ t.freeNodes → ¬ Live t i) ∧ t.freeNodes.Nodup := by
  obtain ⟨⟨T, hT⟩, -⟩ := Reachable_inv h16 hr
  have hnd := List.nodup_append.1 hT.nodup
  have hset : {i | Live t i} = ((T.indices.toFinset : Finset Int) : Set Int) := by
    ext i
    simp [hT.live_iff i]
  have hlen : (T.indices ++ t.freeNodes).length = cfg.MaxNumNodes := by
    rw [List.Perm.length_eq hT.2.2.2]
    simp
  refine ⟨?_, ?_, hnd.2.1⟩
  · rw [hset, Set.ncard_coe_Finset, List.toFinset_card_of_nodup hnd.1]
    simpa using hlen
  · intro i hi hl
    exact hnd.2.2 ((hT.live_iff i).1 hl) hi

theorem pool_conservation_witness :
    cfgW.MaxNumNodes ≤ 32768 ∧ Reachable cfgW tW3 ∧
      Set.ncard {i | Live tW3 i} + tW3.freeNodes.length = cfgW.MaxNumNodes ∧
      (∀ i, i ∈ tW3.freeNodes → ¬ Live tW3 i) ∧ tW3.freeNodes.Nodup :=
  have h0 : Reachable cfgW tW :=
    @Reachable.setup cfgW tW0 tW 10 1 rfl rfl (by decide!)
  have h1 : Reachable cfgW tW1 :=
    @Reachable.split cfgW tW tW1 0 ⟨-1, -1, -1, -1, -1⟩ h0 ReachFrom.refl rfl rfl (by decide)
      (by decide!)
  have h2 : Reachable cfgW tW2 :=
    @Reachable.merge cfgW tW1 tW2 0 2 h1 ReachFrom.refl (by decide!)
  have h3 : Reachable cfgW tW3 :=
    @Reachable.split cfgW tW2 tW3 0 ⟨-1, -1, -1, -1, -1⟩ h2 ReachFrom.refl rfl rfl (by decide)
      (by decide!)
  ⟨by decide, h3, pool_conservation cfgW (by decide) tW3 h3⟩

/-! ### C6 -/

theorem tdiv_two_of_even {w h : Int} (hw : w = 2 * h) : w.tdiv 2 = h := by
  subst hw
  exact Int.mul_tdiv_cancel_left h (by decide)

theorem childBounds_eq {b : VisBounds} {hx hy : Int} (hX : b.x1 - b.x0 = 2 * hx)
    (hY : b.y1 - b.y0 = 2 * hy) (x y : Nat) :
    childBounds b x y = ⟨b.x0 + x * hx, b.x0 + x * hx + hx, b.y0 + y * hy, b.y0 + y * hy + hy⟩ := by
  simp only [childBounds, tdiv_two_of_even hX, tdiv_two_of_even hY]

theorem halves {R : Type} [LinearOrderedRing R] (a h u : R) :
    ((a ≤ u ∧ u < a + h) ∨ (a + h ≤ u ∧ u < a + h + h) ↔ (a ≤ u ∧ u < a + 2 * h)) ∧
    ¬ ((a ≤ u ∧ u < a + h) ∧ (a + h ≤ u ∧ u < a + h + h)) := by
  rw [two_mul, ← add_assoc]
  refine ⟨⟨?_, ?_⟩, ?_⟩
  · rintro (⟨h1, h2⟩ | ⟨h1, h2⟩)
    · have hpos : 0 < h := (lt_add_iff_pos_right a).1 (lt_of_le_of_lt h1 h2)
      exact ⟨h1, lt_trans h2 (lt_add_of_pos_right _ hpos)⟩
    · have hpos : 0 < h := (lt_add_iff_pos_right (a + h)).1 (lt_of_le_of_lt h1 h2)
      exact ⟨le_trans (le_add_of_nonneg_right (le_of_lt hpos)) h1, h2⟩
  · rintro ⟨h1, h2⟩
    by_cases hc : u < a + h
    · exact Or.inl ⟨h1, hc⟩
    · exact Or.inr ⟨not_lt.1 hc, h2⟩
  · rintro ⟨⟨_, h2⟩, ⟨h3, _⟩⟩
    exact lt_irrefl _ (lt_of_lt_of_le h2 h3)

theorem cover_quarters {b : VisBounds} {hx hy : Int} (hX : b.x1 - b.x0 = 2 * hx)
    (hY : b.y1 - b.y0 = 2 * hy) (R : Type) [LinearOrderedRing R] (u v : R) :
    cover (quarters b) u v = if b.contains u v then 1 else 0 := by
  have eX : (b.x1 : R) = (b.x0 : R) + 2 * (hx : R) := by
    have : b.x1 = b.x0 + 2 * hx := by omega
    rw [this]; push_cast; rfl
  have eY : (b.y1 : R) = (b.y0 : R) + 2 * (hy : R) := by
    have : b.y1 = b.y0 + 2 * hy := by omega
    rw [this]; push_cast; rfl
  obtain ⟨px, nx⟩ := halves (b.x0 : R) (hx : R) u
  obtain ⟨py, ny⟩ := halves (b.y0 : R) (hy : R) v
  simp only [cover, quarters, childBounds_eq hX hY, List.countP_cons, List.countP_nil,
    VisBounds.contains, decide_eq_true_eq, eX, eY]
  push_cast
  simp only [zero_mul, add_zero, one_mul, zero_add]
  simp only [← px, ← py]
  by_cases p0 : ((b.x0 : R) ≤ u ∧ u < b.x0 + hx) <;>
  by_cases p1 : ((b.x0 : R) + hx ≤ u ∧ u < b.x0 + hx + hx) <;>
  by_cases q0 : ((b.y0 : R) ≤ v ∧ v < b.y0 + hy) <;>
  by_cases q1 : ((b.y0 : R) + hy ≤ v ∧ v < b.y0 + hy + hy) <;>
  (try simp [p0, p1, q0, q1]) <;>
  first
    | exact nx ⟨p0, p1⟩
    | exact ny ⟨q0, q1⟩

theorem area_quarters {b : VisBounds} {hx hy : Int} (hX : b.x1 - b.x0 = 2 * hx)
    (hY : b.y1 - b.y0 = 2 * hy) : ((quarters b).map VisBounds.area).sum = b.area := by
  simp only [quarters, childBounds_eq hX hY, List.map_cons, List.map_nil, List.sum_cons,
    List.sum_nil, VisBounds.area, hX, hY]
  ring

theorem AllocNode_K {t t1 : VisTree} {i : Int} (h : t.AllocNode = some (t1, i)) :
    t1.K = t.K ∧ t1.rootNode = t.rootNode := by
  unfold VisTree.AllocNode at h
  cases hg : t.freeNodes.getLast? with
  | none => simp [hg] at h
  | some a =>
    simp only [hg] at h
    cases hs : t.slot a with
    | none => simp [hs] at h
    | some nd =>
      simp only [hs, Option.some.injEq, Prod.mk.injEq] at h
      obtain ⟨h1, -⟩ := h
      subst h1
      exact ⟨rfl, rfl⟩

theorem splitChild_K {n : Int} {t t1 : VisTree} {k : Nat} (h : splitChild n t k = some t1) :
    t1.K = t.K ∧ t1.rootNode = t.rootNode := by
  unfold VisTree.splitChild at h
  cases ha : t.AllocNode with
  | none => simp [ha] at h
  | some p =>
    obtain ⟨t0, i⟩ := p
    simp only [ha] at h
    obtain ⟨hK, hr⟩ := AllocNode_K ha
    cases hs : t0.slot n with
    | none => simp [hs] at h
    | some nd =>
      simp only [hs, Option.some.injEq] at h
      subst h
      exact ⟨hK, hr⟩

theorem Split_K {cfg : Config} {t t1 : VisTree} {n : Int} (h : t.Split cfg n = some t1) :
    t1.K = t.K ∧ t1.rootNode = t.rootNode ∧ t1.nodes.length = t.nodes.length := by
  unfold VisTree.Split at h
  cases ha : t.At cfg n with
  | none => simp [ha] at h
  | some nd =>
    simp only [ha] at h
    by_cases hl : nd.IsLeaf = true
    · simp only [hl, if_true, List.foldlM_cons, List.foldlM_nil, Option.bind_eq_bind,
        Option.bind_eq_some] at h
      obtain ⟨s1, e1, s2, e2, s3, e3, s4, e4, h5⟩ := h
      cases h5
      have k1 := splitChild_K e1
      have k2 := splitChild_K e2
      have k3 := splitChild_K e3
      have k4 := splitChild_K e4
      have l1 := (splitChild_some e1).2
      have l2 := (splitChild_some e2).2
      have l3 := (splitChild_some e3).2
      have l4 := (splitChild_some e4).2
      refine ⟨?_, ?_, ?_⟩
      · rw [k4.1, k3.1, k2.1, k1.1]
      · rw [k4.2, k3.2, k2.2, k1.2]
      · rw [l4, l3, l2, l1]
    · simp [hl] at h

theorem drawn_append (l1 l2 : List Visit) : drawn (l1 ++ l2) = drawn l1 ++ drawn l2 := by
  simp [drawn]

theorem visitChild_some {go : VisTree → Int → VisBounds → List Visit × Option VisTree}
    {n : Int} {b : VisBounds} {acc : List Visit × Option VisTree} {xy : Nat × Nat}
    {t1 : VisTree} (h : (visitChild go n b acc xy).2 = some t1) :
    ∃ t nd, acc.2 = some t ∧ t.slot n = some nd ∧
      visitChild go n b acc xy =
        (acc.1 ++ (go t (nd.childs (childIndex xy.1 xy.2)) (childBounds b xy.1 xy.2)).1,
          (go t (nd.childs (childIndex xy.1 xy.2)) (childBounds b xy.1 xy.2)).2) := by
  unfold VisTree.visitChild at h ⊢
  cases ha : acc.2 with
  | none => simp [ha] at h
  | some t =>
    simp only [ha] at h ⊢
    cases hs : t.slot n with
    | none => simp [hs] at h
    | some nd => exact ⟨t, nd, rfl, hs, rfl⟩

/-- What a successful `traverse` logs: the tree keeps its `K`, the drawn
records are those of the state-free recursion `emit`, and a visit is drawn
exactly when its error is at most `tau` or its level is 0. -/
theorem traverse_ok (cfg : Config) (posX posY : Int) :
    ∀ (lvl : Nat) (t : VisTree) (n : Int) (b : VisBounds) (t1 : VisTree),
      (t.traverse cfg lvl n b posX posY).2 = some t1 →
      t1.K = t.K ∧
      drawn (t.traverse cfg lvl n b posX posY).1 = emit cfg t.K posX posY lvl b ∧
      ∀ v ∈ (t.traverse cfg lvl n b posX posY).1,
        (v.draw = true ↔
          (ScreenSpaceError cfg t.K v.bounds v.lvl posX posY ≤ tau ∨ v.lvl = 0)) := by
  intro lvl
  induction lvl with
  | zero =>
    intro t n b t1 h
    simp only [VisTree.traverse] at h ⊢
    cases ha : t.At cfg n with
    | none => simp [ha] at h
    | some nd =>
      simp only [ha] at h ⊢
      cases h
      simp [drawn, emit]
  | succ l ih =>
    intro t n b t1 h
    simp only [VisTree.traverse] at h ⊢
    cases ha : t.At cfg n with
    | none => simp [ha] at h
    | some nd =>
      simp only [ha] at h ⊢
      by_cases hacc : ScreenSpaceError cfg t.K b (l + 1) posX posY ≤ tau
      · simp only [hacc, if_true] at h ⊢
        cases h
        simp [drawn, emit, hacc]
      · simp only [hacc, if_false, List.foldl_cons, List.foldl_nil] at h ⊢
        obtain ⟨s3, n3, a3, -, e4⟩ := visitChild_some h
        obtain ⟨s2, n2, a2, -, e3⟩ := visitChild_some a3
        obtain ⟨s1, n1, a1, -, e2⟩ := visitChild_some a2
        obtain ⟨s0, n0, a0, -, e1⟩ := visitChild_some a1
        rw [e4] at h
        rw [e3] at a3
        rw [e2] at a2
        rw [e1] at a1
        simp only at h a3 a2 a1 a0
        have K0 : s0.K = t.K := by
          by_cases hl : nd.IsLeaf = true
          · rw [if_pos hl] at a0
            exact (Split_K a0).1
          · rw [if_neg hl] at a0
            cases a0
            rfl
        obtain ⟨k1, d1, v1⟩ := ih _ _ _ _ a1
        obtain ⟨k2, d2, v2⟩ := ih _ _ _ _ a2
        obtain ⟨k3, d3, v3⟩ := ih _ _ _ _ a3
        obtain ⟨k4, d4, v4⟩ := ih _ _ _ _ h
        have K1 : s1.K = t.K := k1.trans K0
        have K2 : s2.K = t.K := k2.trans K1
        have K3 : s3.K = t.K := k3.trans K2
        rw [K0] at d1 v1
        rw [K1] at d2 v2
        rw [K2] at d3 v3
        rw [K3] at d4 v4
        rw [e4, e3, e2, e1]
        refine ⟨k4.trans K3, ?_, ?_⟩
        · simp only [drawn_append, d1, d2, d3, d4, emit, hacc, if_false]
          simp [drawn]
        · intro v hv
          simp only [List.mem_append, List.mem_singleton] at hv
          rcases hv with (((hv | hv) | hv) | hv) | hv
          · subst hv
            simp [hacc]
          · exact v1 v hv
          · exact v2 v hv
          · exact v3 v hv
          · exact v4 v hv

/-! ### Traversal: the log of every call -/

theorem visitChild_log (go : VisTree → Int → VisBounds → List Visit × Option VisTree)
    (n : Int) (b : VisBounds) (acc : List Visit × Option VisTree) (xy : Nat × Nat) :
    (visitChild go n b acc xy).1 = acc.1 ∨
    ∃ t c, (visitChild go n b acc xy).1 = acc.1 ++ (go t c (childBounds b xy.1 xy.2)).1 := by
  unfold VisTree.visitChild
  cases ha : acc.2 with
  | none => exact Or.inl rfl
  | some t =>
    simp only
    cases hs : t.slot n with
    | none => exact Or.inl rfl
    | some nd => exact Or.inr ⟨t, _, rfl⟩

/-- Every invocation logged by `traverse` carries a level and bounds obtained
from the initial ones by repeatedly stepping to a child quarter one level
down; this holds whether or not the call ends in a fatal error. -/
theorem traverse_log_ind (cfg : Config) (posX posY : Int) (P : Nat → VisBounds → Prop)
    (hP : ∀ l b x y, x < 2 → y < 2 → P (l + 1) b → P l (childBounds b x y)) :
    ∀ (lvl : Nat) (t : VisTree) (n : Int) (b : VisBounds), P lvl b →
      ∀ v ∈ (t.traverse cfg lvl n b posX posY).1, v.lvl ≤ lvl ∧ P v.lvl v.bounds := by
  intro lvl
  induction lvl with
  | zero =>
    intro t n b hb v hv
    simp only [VisTree.traverse] at hv
    cases ha : t.At cfg n with
    | none =>
      simp only [ha, List.mem_singleton] at hv
      subst hv
      exact ⟨le_refl _, hb⟩
    | some nd =>
      simp only [ha, List.mem_singleton] at hv
      subst hv
      exact ⟨le_refl _, hb⟩
  | succ l ih =>
    intro t n b hb v hv
    simp only [VisTree.traverse] at hv
    have hself : ∀ d, (⟨l + 1, n, b, d⟩ : Visit).lvl ≤ l + 1 ∧
        P (⟨l + 1, n, b, d⟩ : Visit).lvl (⟨l + 1, n, b, d⟩ : Visit).bounds :=
      fun d => ⟨le_refl _, hb⟩
    cases ha : t.At cfg n with
    | none =>
      simp only [ha, List.mem_singleton] at hv
      subst hv
      exact hself _
    | some nd =>
      simp only [ha] at hv
      by_cases hacc : ScreenSpaceError cfg t.K b (l + 1) posX posY ≤ tau
      · simp only [hacc, if_true, List.mem_singleton] at hv
        subst hv
        exact hself _
      · simp only [hacc, if_false, List.foldl_cons, List.foldl_nil] at hv
        have step : ∀ (acc : List Visit × Option VisTree) (xy : Nat × Nat), xy.1 < 2 → xy.2 < 2 →
            (∀ v ∈ acc.1, v.lvl ≤ l + 1 ∧ P v.lvl v.bounds) →
            ∀ v ∈ (visitChild (fun t1 n b => traverse cfg l t1 n b posX posY) n b acc xy).1,
              v.lvl ≤ l + 1 ∧ P v.lvl v.bounds := by
          intro acc xy hx hy hacc1 v hv
          rcases visitChild_log (fun t1 n b => traverse cfg l t1 n b posX posY) n b acc xy
            with h | ⟨t2, c, h⟩
          · rw [h] at hv
            exact hacc1 v hv
          · rw [h] at hv
            rcases List.mem_append.1 hv with h1 | h1
            · exact hacc1 v h1
            · have := ih t2 c _ (hP l b xy.1 xy.2 hx hy hb) v h1
              exact ⟨by omega, this.2⟩
        refine step _ (1, 1) (by decide) (by decide)
          (step _ (1, 0) (by decide) (by decide)
            (step _ (0, 1) (by decide) (by decide)
              (step _ (0, 0) (by decide) (by decide) ?_))) v hv
        intro w hw
        simp only [List.mem_singleton] at hw
        subst hw
        exact hself _

/-! ### C8 -/

theorem fullSize_eq (L : Nat) : 3 * fullSize L + 1 = 4 ^ (L + 1) := by
  unfold fullSize
  have h : ∀ n : Nat, 4 ^ n % 3 = 1 := by
    intro n
    induction n with
    | zero => rfl
    | succ n ih => rw [pow_succ]; omega
  have h1 := h (L + 1)
  have h2 : 0 < 4 ^ (L + 1) := Nat.pow_pos (by decide)
  omega

theorem fullSize_succ (L : Nat) : fullSize (L + 1) = 4 * fullSize L + 1 := by
  have h1 := fullSize_eq L
  have h2 := fullSize_eq (L + 1)
  rw [pow_succ] at h2
  omega

theorem CallTrace_bound {L : Nat} {log : List Visit} (h : CallTrace L log) :
    log.length ≤ fullSize L ∧ ∀ v ∈ log, v.lvl ≤ L := by
  induction h with
  | single v =>
    refine ⟨?_, ?_⟩
    · have := fullSize_eq v.lvl
      have h2 : 0 < 4 ^ (v.lvl + 1) := Nat.pow_pos (by decide)
      simp only [List.length_singleton]
      omega
    · intro w hw
      simp only [List.mem_singleton] at hw
      subst hw
      exact le_refl _
  | calls v l cs hv hlen _ ih =>
    have hsum : ∀ (ds : List (List Visit)), (∀ c ∈ ds, c.length ≤ fullSize l) →
        ds.flatten.length ≤ ds.length * fullSize l := by
      intro ds
      induction ds with
      | nil => intro _; simp
      | cons d ds ihd =>
        intro hd
        have h1 := hd d (by simp)
        have h2 := ihd (fun c hc => hd c (by simp [hc]))
        simp only [List.flatten_cons, List.length_append, List.length_cons]
        rw [Nat.add_mul]
        omega
    refine ⟨?_, ?_⟩
    · have h1 := hsum cs (fun c hc => (ih c hc).1)
      have h2 : cs.length * fullSize l ≤ 4 * fullSize l := Nat.mul_le_mul_right _ hlen
      rw [fullSize_succ]
      simp only [List.length_cons]
      omega
    · intro w hw
      rcases List.mem_cons.1 hw with h | h
      · subst h; omega
      · obtain ⟨c, hc, hwc⟩ := List.mem_flatten.1 h
        have := (ih c hc).2 w hwc
        omega

theorem CallTrace_of_children {l : Nat} (v : Visit) (hv : v.lvl = l + 1) (cs : List (List Visit))
    (hlen : cs.length ≤ 4) (h : ∀ c ∈ cs, c = [] ∨ CallTrace l c) :
    CallTrace (l + 1) (v :: cs.flatten) := by
  have hfl : ∀ (ds : List (List Visit)),
      (ds.filter (fun c => !c.isEmpty)).flatten = ds.flatten := by
    intro ds
    induction ds with
    | nil => rfl
    | cons d ds ih =>
      cases d with
      | nil => simpa using ih
      | cons a d => simp [List.filter_cons, ih]
  rw [← hfl cs]
  refine CallTrace.calls v l _ hv ?_ ?_
  · exact le_trans (List.length_filter_le _ _) hlen
  · intro c hc
    obtain ⟨hc1, hc2⟩ := List.mem_filter.1 hc
    rcases h c hc1 with h1 | h1
    · subst h1
      simp at hc2
    · exact h1

/-- The log of `traverse` at level `lvl` is a call trace of that level. -/
theorem traverse_trace (cfg : Config) (posX posY : Int) :
    ∀ (lvl : Nat) (t : VisTree) (n : Int) (b : VisBounds),
      CallTrace lvl (t.traverse cfg lvl n b posX posY).1 := by
  intro lvl
  induction lvl with
  | zero =>
    intro t n b
    simp only [VisTree.traverse]
    cases ha : t.At cfg n with
    | none => exact CallTrace.single ⟨0, n, b, false⟩
    | some nd => exact CallTrace.single ⟨0, n, b, true⟩
  | succ l ih =>
    intro t n b
    simp only [VisTree.traverse]
    cases ha : t.At cfg n with
    | none => exact CallTrace.single ⟨l + 1, n, b, false⟩
    | some nd =>
      simp only
      by_cases hacc : ScreenSpaceError cfg t.K b (l + 1) posX posY ≤ tau
      · simp only [hacc, if_true]
        exact CallTrace.single ⟨l + 1, n, b, true⟩
      · simp only [hacc, if_false, List.foldl_cons, List.foldl_nil]
        have step : ∀ (acc : List Visit × Option VisTree) (xy : Nat × Nat),
            ∃ c, (c = [] ∨ CallTrace l c) ∧
              (visitChild (fun t1 n b => traverse cfg l t1 n b posX posY) n b acc xy).1 =
                acc.1 ++ c := by
          intro acc xy
          rcases visitChild_log (fun t1 n b => traverse cfg l t1 n b posX posY) n b acc xy
            with h | ⟨t2, c, h⟩
          · exact ⟨[], Or.inl rfl, by simpa using h⟩
          · exact ⟨_, Or.inr (ih t2 c _), h⟩
        obtain ⟨c1, h1, e1⟩ := step ([⟨l + 1, n, b, false⟩],
          if nd.IsLeaf = true then t.Split cfg n else some t) (0, 0)
        obtain ⟨c2, h2, e2⟩ := step (visitChild (fun t1 n b => traverse cfg l t1 n b posX posY)
          n b ([⟨l + 1, n, b, false⟩], if nd.IsLeaf = true then t.Split cfg n else some t)
          (0, 0)) (0, 1)
        obtain ⟨c3, h3, e3⟩ := step (visitChild (fun t1 n b => traverse cfg l t1 n b posX posY)
          n b (visitChild (fun t1 n b => traverse cfg l t1 n b posX posY)
          n b ([⟨l + 1, n, b, false⟩], if nd.IsLeaf = true then t.Split cfg n else some t)
          (0, 0)) (0, 1)) (1, 0)
        obtain ⟨c4, h4, e4⟩ := step (visitChild (fun t1 n b => traverse cfg l t1 n b posX posY)
          n b (visitChild (fun t1 n b => traverse cfg l t1 n b posX posY)
          n b (visitChild (fun t1 n b => traverse cfg l t1 n b posX posY)
          n b ([⟨l + 1, n, b, false⟩], if nd.IsLeaf = true then t.Split cfg n else some t)
          (0, 0)) (0, 1)) (1, 0)) (1, 1)
        rw [e4, e3, e2, e1]
        have := CallTrace_of_children (l := l) ⟨l + 1, n, b, false⟩ rfl [c1, c2, c3, c4]
          (by simp) (by
            intro c hc
            simp only [List.mem_cons, List.mem_singleton, List.not_mem_nil, or_false] at hc
            rcases hc with rfl | rfl | rfl | rfl <;> assumption)
        simpa [List.flatten, List.append_assoc] using this

theorem Bounds_eq_square (cfg : Config) {lvl : Nat} (h : lvl ≤ cfg.NumLevels) (x y : Int) :
    Bounds cfg lvl x y = some (square cfg lvl (x / 2 ^ lvl) (y / 2 ^ lvl)) := by
  simp only [VisTree.Bounds, h, if_true, square, Nat.one_shiftLeft, Int.shiftRight_eq_div_pow]
  norm_cast

theorem Bounds_root (cfg : Config) : Bounds cfg cfg.NumLevels 0 0 = some (rootBounds cfg) := by
  rw [Bounds_eq_square cfg (le_refl _)]
  simp [square, rootBounds]

theorem rootBounds_eq_square (cfg : Config) : rootBounds cfg = square cfg cfg.NumLevels 0 0 := by
  simp [square, rootBounds]

theorem Traverse_eq (cfg : Config) (t : VisTree) (posX posY : Int) :
    t.Traverse cfg posX posY =
      t.traverse cfg cfg.NumLevels t.rootNode (rootBounds cfg) posX posY := by
  simp only [VisTree.Traverse, Bounds_root]

/-- C8 (traversal termination).  `traverse` is a total function; for every
state and viewer position the log of `Traverse` is a call trace of level
`NumLevels` (every recursive call is made one level below its caller, none
from level 0), so every invocation has a level between 0 and `NumLevels`
(recursion depth at most `NumLevels`) and at most `(4^(NumLevels+1)-1)/3`
invocations are made. -/
theorem traverse_terminates (cfg : Config) (t : VisTree) (posX posY : Int) :
    CallTrace cfg.NumLevels (t.Traverse cfg posX posY).1 ∧
    (∀ v ∈ (t.Traverse cfg posX posY).1, v.lvl ≤ cfg.NumLevels) ∧
    (t.Traverse cfg posX posY).1.length ≤ (4 ^ (cfg.NumLevels + 1) - 1) / 3 := by
  rw [Traverse_eq]
  have h := traverse_trace cfg posX posY cfg.NumLevels t t.rootNode (rootBounds cfg)
  exact ⟨h, (CallTrace_bound h).2, (CallTrace_bound h).1⟩

/-! ### C13 -/

/-- C13 (Bounds function).  For `0 ≤ level ≤ NumLevels` and non-negative
`x`, `y`, `Bounds level x y` is the square of side `dim = 2^level * ChunkSize`
with origin `(floor(x / 2^level) * dim, floor(y / 2^level) * dim)`; `Bounds 0 x y`
is the single chunk `(x*ChunkSize, y*ChunkSize)-((x+1)*ChunkSize, (y+1)*ChunkSize)`,
which `Bounds level x y` contains; and `Bounds NumLevels 0 0` is the root
rectangle. -/
theorem Bounds_spec (cfg : Config) (lvl : Nat) (x y : Int) (hl : lvl ≤ cfg.NumLevels)
    (hx : 0 ≤ x) (hy : 0 ≤ y) :
    ∃ B : VisBounds, Bounds cfg lvl x y = some B ∧
      B.x0 = (x / 2 ^ lvl) * ((2 ^ lvl * cfg.ChunkSizeXY : Nat) : Int) ∧
      B.x1 = B.x0 + ((2 ^ lvl * cfg.ChunkSizeXY : Nat) : Int) ∧
      B.y0 = (y / 2 ^ lvl) * ((2 ^ lvl * cfg.ChunkSizeXY : Nat) : Int) ∧
      B.y1 = B.y0 + ((2 ^ lvl * cfg.ChunkSizeXY : Nat) : Int) ∧
      Bounds cfg 0 x y = some ⟨x * cfg.ChunkSizeXY, (x + 1) * cfg.ChunkSizeXY,
        y * cfg.ChunkSizeXY, (y + 1) * cfg.ChunkSizeXY⟩ ∧
      (B.x0 ≤ x * cfg.ChunkSizeXY ∧ (x + 1) * cfg.ChunkSizeXY ≤ B.x1 ∧
        B.y0 ≤ y * cfg.ChunkSizeXY ∧ (y + 1) * cfg.ChunkSizeXY ≤ B.y1) ∧
      Bounds cfg cfg.NumLevels 0 0 = some ⟨0, ((2 ^ cfg.NumLevels * cfg.ChunkSizeXY : Nat) : Int),
        0, ((2 ^ cfg.NumLevels * cfg.ChunkSizeXY : Nat) : Int)⟩ := by
  have hcs : (0 : Int) ≤ cfg.ChunkSizeXY := Int.ofNat_nonneg _
  have hp : (0 : Int) < 2 ^ lvl := by positivity
  have key : ∀ z : Int, 0 ≤ z →
      (z / 2 ^ lvl) * ((2 ^ lvl * cfg.ChunkSizeXY : Nat) : Int) ≤ z * cfg.ChunkSizeXY ∧
      (z + 1) * cfg.ChunkSizeXY ≤
        (z / 2 ^ lvl) * ((2 ^ lvl * cfg.ChunkSizeXY : Nat) : Int) +
          ((2 ^ lvl * cfg.ChunkSizeXY : Nat) : Int) := by
    intro z _
    have h1 : (z / 2 ^ lvl) * 2 ^ lvl ≤ z := Int.ediv_mul_le z (ne_of_gt hp)
    have h2 : z < (z / 2 ^ lvl) * 2 ^ lvl + 2 ^ lvl := by
      have := Int.lt_ediv_add_one_mul_self z hp
      linarith
    push_cast
    constructor
    · calc (z / 2 ^ lvl) * (2 ^ lvl * (cfg.ChunkSizeXY : Int))
          = ((z / 2 ^ lvl) * 2 ^ lvl) * cfg.ChunkSizeXY := by ring
        _ ≤ z * cfg.ChunkSizeXY := mul_le_mul_of_nonneg_right h1 hcs
    · calc (z + 1) * (cfg.ChunkSizeXY : Int)
          ≤ ((z / 2 ^ lvl) * 2 ^ lvl + 2 ^ lvl) * cfg.ChunkSizeXY :=
            mul_le_mul_of_nonneg_right (by omega) hcs
        _ = _ := by ring
  refine ⟨_, Bounds_eq_square cfg hl x y, rfl, rfl, rfl, rfl, ?_, ?_, Bounds_root cfg⟩
  · rw [Bounds_eq_square cfg (Nat.zero_le _)]
    simp [square, add_mul]
  · simp only [square]
    exact ⟨(key x hx).1, (key x hx).2, (key y hy).1, (key y hy).2⟩

theorem Bounds_spec_witness :
    (1 : Nat) ≤ cfgW.NumLevels ∧ (0 : Int) ≤ 3 ∧
      ∃ B : VisBounds, Bounds cfgW 1 3 0 = some B ∧ B.x0 = 32 := by
  obtain ⟨B, h, h0, -⟩ := Bounds_spec cfgW 1 3 0 (by decide) (by decide) (by decide)
  exact ⟨by decide, by decide, B, h, by rw [h0]; decide⟩

/-! ### C19 -/

theorem childBounds_square (cfg : Config) (l : Nat) (X Y : Int) (x y : Nat) :
    childBounds (square cfg (l + 1) X Y) x y = square cfg l (2 * X + x) (2 * Y + y) := by
  have hd : ((2 ^ (l + 1) * cfg.ChunkSizeXY : Nat) : Int) =
      2 * ((2 ^ l * cfg.ChunkSizeXY : Nat) : Int) := by
    push_cast; ring
  have hX : (square cfg (l + 1) X Y).x1 - (square cfg (l + 1) X Y).x0 =
      2 * ((2 ^ l * cfg.ChunkSizeXY : Nat) : Int) := by
    simp only [square]; omega
  have hY : (square cfg (l + 1) X Y).y1 - (square cfg (l + 1) X Y).y0 =
      2 * ((2 ^ l * cfg.ChunkSizeXY : Nat) : Int) := by
    simp only [square]; omega
  rw [childBounds_eq hX hY]
  simp only [square, hd, VisBounds.mk.injEq]
  refine ⟨by ring, by ring, by ring, by ring⟩

/-- Every invocation logged by `Traverse` is at a level `l ≤ NumLevels` with
bounds a square of side `2^l * ChunkSize` aligned to a multiple of its side. -/
theorem Traverse_squares (cfg : Config) (t : VisTree) (posX posY : Int) :
    ∀ v ∈ (t.Traverse cfg posX posY).1,
      v.lvl ≤ cfg.NumLevels ∧ ∃ X Y : Int, 0 ≤ X ∧ 0 ≤ Y ∧ v.bounds = square cfg v.lvl X Y := by
  rw [Traverse_eq]
  intro v hv
  have := traverse_log_ind cfg posX posY
    (fun l b => ∃ X Y : Int, 0 ≤ X ∧ 0 ≤ Y ∧ b = square cfg l X Y)
    (by
      rintro l b x y - - ⟨X, Y, hX, hY, rfl⟩
      exact ⟨2 * X + x, 2 * Y + y, by omega, by omega, childBounds_square cfg l X Y x y⟩)
    cfg.NumLevels t t.rootNode (rootBounds cfg)
    ⟨0, 0, le_refl _, le_refl _, rootBounds_eq_square cfg⟩ v hv
  exact this

/-- C19 (traversal bounds agree with `Bounds`).  For `ChunkSize > 0`, every
rectangle `b` that `traverse` visits at a level `L` during `Traverse` (drawn
or not) has `0 ≤ L ≤ NumLevels`, is a square of side `2^L * ChunkSize` aligned
to a multiple of its side, and equals `Bounds L (b.x0 / ChunkSize) (b.y0 / ChunkSize)`. -/
theorem traverse_bounds_agree (cfg : Config) (t : VisTree) (posX posY : Int)
    (hcs : 0 < cfg.ChunkSizeXY) :
    ∀ v ∈ (t.Traverse cfg posX posY).1,
      v.lvl ≤ cfg.NumLevels ∧
      v.bounds.x1 - v.bounds.x0 = ((2 ^ v.lvl * cfg.ChunkSizeXY : Nat) : Int) ∧
      v.bounds.y1 - v.bounds.y0 = ((2 ^ v.lvl * cfg.ChunkSizeXY : Nat) : Int) ∧
      ((2 ^ v.lvl * cfg.ChunkSizeXY : Nat) : Int) ∣ v.bounds.x0 ∧
      ((2 ^ v.lvl * cfg.ChunkSizeXY : Nat) : Int) ∣ v.bounds.y0 ∧
      Bounds cfg v.lvl (v.bounds.x0 / cfg.ChunkSizeXY) (v.bounds.y0 / cfg.ChunkSizeXY) =
        some v.bounds := by
  intro v hv
  obtain ⟨hl, X, Y, hX, hY, hb⟩ := Traverse_squares cfg t posX posY v hv
  have hc : (cfg.ChunkSizeXY : Int) ≠ 0 := by omega
  have hp : ((2 : Int) ^ v.lvl) ≠ 0 := by positivity
  have e : ∀ Z : Int, Z * ((2 ^ v.lvl * cfg.ChunkSizeXY : Nat) : Int) / cfg.ChunkSizeXY / 2 ^ v.lvl
      = Z := by
    intro Z
    push_cast
    rw [← mul_assoc, Int.mul_ediv_cancel _ hc, Int.mul_ediv_cancel _ hp]
  refine ⟨hl, ?_, ?_, ?_, ?_, ?_⟩
  · rw [hb]; simp only [square]; omega
  · rw [hb]; simp only [square]; omega
  · rw [hb]; exact Dvd.intro_left X rfl
  · rw [hb]; exact Dvd.intro_left Y rfl
  · rw [Bounds_eq_square cfg hl]
    have h1 : v.bounds.x0 = X * ((2 ^ v.lvl * cfg.ChunkSizeXY : Nat) : Int) := by rw [hb]; rfl
    have h2 : v.bounds.y0 = Y * ((2 ^ v.lvl * cfg.ChunkSizeXY : Nat) : Int) := by rw [hb]; rfl
    rw [h1, h2, e X, e Y, ← hb]

theorem traverse_bounds_agree_witness :
    0 < cfgW.ChunkSizeXY ∧
      (tK.Traverse cfgW 3 4).1.map (fun v => (v.lvl, v.nodeIndex, v.bounds)) =
        [(1, 0, ⟨0, 32, 0, 32⟩), (0, 1, ⟨0, 16, 0, 16⟩), (0, 3, ⟨0, 16, 16, 32⟩),
          (0, 2, ⟨16, 32, 0, 16⟩), (0, 4, ⟨16, 32, 16, 32⟩)] ∧
      ∀ v ∈ (tK.Traverse cfgW 3 4).1,
        v.lvl ≤ cfgW.NumLevels ∧
        v.bounds.x1 - v.bounds.x0 = ((2 ^ v.lvl * cfgW.ChunkSizeXY : Nat) : Int) ∧
        v.bounds.y1 - v.bounds.y0 = ((2 ^ v.lvl * cfgW.ChunkSizeXY : Nat) : Int) ∧
        ((2 ^ v.lvl * cfgW.ChunkSizeXY : Nat) : Int) ∣ v.bounds.x0 ∧
        ((2 ^ v.lvl * cfgW.ChunkSizeXY : Nat) : Int) ∣ v.bounds.y0 ∧
        Bounds cfgW v.lvl (v.bounds.x0 / cfgW.ChunkSizeXY) (v.bounds.y0 / cfgW.ChunkSizeXY) =
          some v.bounds :=
  ⟨by decide, by decide!, traverse_bounds_agree cfgW tK 3 4 (by decide)⟩

/-! ### C2 -/

theorem cover_append {R : Type} [LinearOrderedRing R] (l1 l2 : List VisBounds) (u v : R) :
    cover (l1 ++ l2) u v = cover l1 u v + cover l2 u v := by
  simp [cover, List.countP_append]

theorem Tiles_single (b : VisBounds) : Tiles [b] b := by
  refine ⟨?_, by simp⟩
  intro R _ u v
  simp only [cover, List.countP_cons, List.countP_nil, zero_add, decide_eq_true_eq]

theorem Tiles_quarters {b : VisBounds} {hx hy : Int} (hX : b.x1 - b.x0 = 2 * hx)
    (hY : b.y1 - b.y0 = 2 * hy) {e0 e1 e2 e3 : List VisBounds}
    (h0 : Tiles e0 (childBounds b 0 0)) (h1 : Tiles e1 (childBounds b 0 1))
    (h2 : Tiles e2 (childBounds b 1 0)) (h3 : Tiles e3 (childBounds b 1 1)) :
    Tiles (e0 ++ e1 ++ e2 ++ e3) b := by
  refine ⟨?_, ?_⟩
  · intro R _ u v
    rw [cover_append, cover_append, cover_append, h0.1 R u v, h1.1 R u v, h2.1 R u v,
      h3.1 R u v, ← cover_quarters hX hY R u v]
    simp only [cover, quarters, List.countP_cons, List.countP_nil, decide_eq_true_eq]
    omega
  · rw [List.map_append, List.map_append, List.map_append, List.sum_append, List.sum_append,
      List.sum_append, h0.2, h1.2, h2.2, h3.2, ← area_quarters hX hY]
    simp only [quarters, List.map_cons, List.map_nil, List.sum_cons, List.sum_nil]
    ring

/-- The records of the state-free recursion tile the square they start from. -/
theorem emit_tiles (cfg : Config) (K : ℚ) (posX posY : Int) :
    ∀ (l : Nat) (X Y : Int), Tiles (emit cfg K posX posY l (square cfg l X Y))
      (square cfg l X Y) := by
  intro l
  induction l with
  | zero =>
    intro X Y
    simp only [emit]
    exact Tiles_single _
  | succ l ih =>
    intro X Y
    simp only [emit]
    split
    · exact Tiles_single _
    · have hd : ((2 ^ (l + 1) * cfg.ChunkSizeXY : Nat) : Int) =
          2 * ((2 ^ l * cfg.ChunkSizeXY : Nat) : Int) := by
        push_cast; ring
      have hX : (square cfg (l + 1) X Y).x1 - (square cfg (l + 1) X Y).x0 =
          2 * ((2 ^ l * cfg.ChunkSizeXY : Nat) : Int) := by
        simp only [square]; omega
      have hY : (square cfg (l + 1) X Y).y1 - (square cfg (l + 1) X Y).y0 =
          2 * ((2 ^ l * cfg.ChunkSizeXY : Nat) : Int) := by
        simp only [square]; omega
      refine Tiles_quarters hX hY ?_ ?_ ?_ ?_ <;>
        (rw [childBounds_square]; exact ih _ _)

/-- C2 (traversal coverage).  For every state, viewer position and `K`,
whenever `Traverse` completes (no assertion fails and the pool is not
exhausted), the drawn rectangles exactly tile the world footprint
`(0,0)-(2^NumLevels*ChunkSize, 2^NumLevels*ChunkSize)`: every point of the
footprint lies in exactly one drawn rectangle, no drawn rectangle reaches
outside it, and the drawn areas sum to the footprint area. -/
theorem Traverse_tiles (cfg : Config) (t t1 : VisTree) (posX posY : Int)
    (h : (t.Traverse cfg posX posY).2 = some t1) :
    Tiles (drawn (t.Traverse cfg posX posY).1)
      ⟨0, ((2 ^ cfg.NumLevels * cfg.ChunkSizeXY : Nat) : Int), 0,
        ((2 ^ cfg.NumLevels * cfg.ChunkSizeXY : Nat) : Int)⟩ := by
  rw [Traverse_eq] at h ⊢
  rw [(traverse_ok cfg posX posY _ _ _ _ _ h).2.1]
  have := emit_tiles cfg t.K posX posY cfg.NumLevels 0 0
  rw [← rootBounds_eq_square] at this
  exact this

theorem Traverse_tiles_witness :
    (tK.Traverse cfgW 3 4).2 = some tK1 ∧
    Tiles (drawn (tK.Traverse cfgW 3 4).1) ⟨0, 32, 0, 32⟩ :=
  ⟨by decide!, Traverse_tiles cfgW tK tK1 3 4 (by decide!)⟩

/-! ### C7 -/

/-- C7, amended (emission order).  Whenever `traverse` descends into a node
(its error exceeds `tau` at a level `l + 1`) and completes, it visits the four
children in the order of its loops (`x` outer, `y` inner), that is in
child-index order 0, 2, 1, 3: the log is the node's own record followed by the
logs of the traversals of child slot 0 with quadrant 0, slot 2 with quadrant 2,
slot 1 with quadrant 1 and slot 3 with quadrant 3, each at level `l`, and the
drawn records follow in the same order.  In particular, when all four children
are accepted their records appear in quadrant order 0, 2, 1, 3. -/
theorem traverse_child_order (cfg : Config) (posX posY : Int) (l : Nat) (t t1 : VisTree)
    (n : Int) (b : VisBounds) (nd : VisNode) (hat : t.At cfg n = some nd)
    (hrho : ¬ ScreenSpaceError cfg t.K b (l + 1) posX posY ≤ tau)
    (hok : (t.traverse cfg (l + 1) n b posX posY).2 = some t1) :
    ∃ (s0 s1 s2 s3 : VisTree) (m0 m1 m2 m3 : VisNode),
      s0.slot n = some m0 ∧ s1.slot n = some m1 ∧ s2.slot n = some m2 ∧ s3.slot n = some m3 ∧
      (s0.traverse cfg l (m0.childs 0) (quadrant b 0) posX posY).2 = some s1 ∧
      (s1.traverse cfg l (m1.childs 2) (quadrant b 2) posX posY).2 = some s2 ∧
      (s2.traverse cfg l (m2.childs 1) (quadrant b 1) posX posY).2 = some s3 ∧
      (s3.traverse cfg l (m3.childs 3) (quadrant b 3) posX posY).2 = some t1 ∧
      (t.traverse cfg (l + 1) n b posX posY).1 =
        ⟨l + 1, n, b, false⟩ ::
          ((s0.traverse cfg l (m0.childs 0) (quadrant b 0) posX posY).1 ++
           (s1.traverse cfg l (m1.childs 2) (quadrant b 2) posX posY).1 ++
           (s2.traverse cfg l (m2.childs 1) (quadrant b 1) posX posY).1 ++
           (s3.traverse cfg l (m3.childs 3) (quadrant b 3) posX posY).1) ∧
      drawn (t.traverse cfg (l + 1) n b posX posY).1 =
        emit cfg t.K posX posY l (quadrant b 0) ++ emit cfg t.K posX posY l (quadrant b 2) ++
        emit cfg t.K posX posY l (quadrant b 1) ++ emit cfg t.K posX posY l (quadrant b 3) ∧
      ((∀ k, k < 4 → emit cfg t.K posX posY l (quadrant b k) = [quadrant b k]) →
        drawn (t.traverse cfg (l + 1) n b posX posY).1 =
          [quadrant b 0, quadrant b 2, quadrant b 1, quadrant b 3]) := by
  have hd := (traverse_ok cfg posX posY _ _ _ _ _ hok).2.1
  simp only [emit, hrho, if_false] at hd
  simp only [VisTree.traverse, hat, hrho, if_false, List.foldl_cons, List.foldl_nil] at hok hd ⊢
  obtain ⟨s3, n3, a3, h3, e4⟩ := visitChild_some hok
  obtain ⟨s2, n2, a2, h2, e3⟩ := visitChild_some a3
  obtain ⟨s1, n1, a1, h1, e2⟩ := visitChild_some a2
  obtain ⟨s0, n0, a0, h0, e1⟩ := visitChild_some a1
  rw [e4] at hok
  rw [e3] at a3
  rw [e2] at a2
  rw [e1] at a1
  refine ⟨s0, s1, s2, s3, n0, n1, n2, n3, h0, h1, h2, h3, a1, a2, a3, hok, ?_, hd, ?_⟩
  · rw [e4, e3, e2, e1]
    simp [quadrant, childIndex]
  · intro hall
    rw [hd]
    have q0 := hall 0 (by decide)
    have q1 := hall 1 (by decide)
    have q2 := hall 2 (by decide)
    have q3 := hall 3 (by decide)
    simp only [quadrant] at q0 q1 q2 q3 ⊢
    rw [q0, q1, q2, q3]
    rfl

theorem traverse_child_order_witness :
    tK.At cfgW 0 = some ⟨-1, -1, -1, -1, -1⟩ ∧
    ¬ ScreenSpaceError cfgW tK.K (rootBounds cfgW) (0 + 1) 3 4 ≤ tau ∧
    (tK.traverse cfgW (0 + 1) 0 (rootBounds cfgW) 3 4).2 = some tK1 ∧
    drawn (tK.traverse cfgW (0 + 1) 0 (rootBounds cfgW) 3 4).1 =
      [quadrant (rootBounds cfgW) 0, quadrant (rootBounds cfgW) 2,
        quadrant (rootBounds cfgW) 1, quadrant (rootBounds cfgW) 3] := by
  obtain ⟨_, _, _, _, _, _, _, _, -, -, -, -, -, -, -, -, -, -, h⟩ :=
    traverse_child_order cfgW 3 4 0 tK tK1 0 (rootBounds cfgW) ⟨-1, -1, -1, -1, -1⟩
      (by decide!) (by decide!) (by decide!)
  exact ⟨by decide!, by decide!, by decide!, h (fun k _ => rfl)⟩

/-- C7 as stated fails: in the state `tK` the root is split and its four
children are all accepted at level 0; their records are drawn in quadrant
order 0, 2, 1, 3 and not 0, 1, 2, 3. -/
theorem emission_order_counterexample :
    drawn (tK.Traverse cfgW 3 4).1 =
      [quadrant (rootBounds cfgW) 0, quadrant (rootBounds cfgW) 2,
        quadrant (rootBounds cfgW) 1, quadrant (rootBounds cfgW) 3] ∧
    drawn (tK.Traverse cfgW 3 4).1 ≠
      [quadrant (rootBounds cfgW) 0, quadrant (rootBounds cfgW) 1,
        quadrant (rootBounds cfgW) 2, quadrant (rootBounds cfgW) 3] ∧
    (tK.Traverse cfgW 3 4).1.map (fun v => v.nodeIndex) = [0, 1, 3, 2, 4] := by
  refine ⟨by decide!, by decide!, by decide!⟩

/-! ### C11 -/

/-- C11 (far-viewer scenario).  Whenever the root index addresses a pool slot
and the screen-space error of the world footprint at level `NumLevels` is at
most `tau`, `Traverse` logs a single invocation, draws exactly one record, the
entire world footprint `(0,0)-(2^NumLevels*ChunkSize, 2^NumLevels*ChunkSize)`,
and leaves the tree and the free-list unchanged (no `Split`). -/
theorem far_viewer (cfg : Config) (t : VisTree) (posX posY : Int) (nd : VisNode)
    (hroot : t.At cfg t.rootNode = some nd)
    (hrho : ScreenSpaceError cfg t.K (rootBounds cfg) cfg.NumLevels posX posY ≤ tau) :
    t.Traverse cfg posX posY =
      ([⟨cfg.NumLevels, t.rootNode, rootBounds cfg, true⟩], some t) ∧
    drawn (t.Traverse cfg posX posY).1 =
      [⟨0, ((2 ^ cfg.NumLevels * cfg.ChunkSizeXY : Nat) : Int), 0,
        ((2 ^ cfg.NumLevels * cfg.ChunkSizeXY : Nat) : Int)⟩] := by
  have h : t.Traverse cfg posX posY =
      ([⟨cfg.NumLevels, t.rootNode, rootBounds cfg, true⟩], some t) := by
    rw [Traverse_eq]
    cases hN : cfg.NumLevels with
    | zero => simp only [VisTree.traverse, hroot]
    | succ l =>
      rw [hN] at hrho
      simp only [VisTree.traverse, hroot, hrho, if_true]
  refine ⟨h, ?_⟩
  rw [h]
  rfl

theorem far_viewer_witness :
    tS.At cfgS tS.rootNode = some ⟨-1, -1, -1, -1, -1⟩ ∧
    ScreenSpaceError cfgS tS.K (rootBounds cfgS) cfgS.NumLevels 1000 1000 ≤ tau ∧
    drawn (tS.Traverse cfgS 1000 1000).1 = [⟨0, 64, 0, 64⟩] ∧
    (tS.Traverse cfgS 1000 1000).2 = some tS := by
  have h := far_viewer cfgS tS 1000 1000 ⟨-1, -1, -1, -1, -1⟩ (by decide!) (by decide!)
  refine ⟨by decide!, by decide!, ?_, ?_⟩
  · rw [h.2]
    decide
  · rw [h.1]

/-! ### C12 -/

theorem Setup_K {cfg : Config} {t0 t : VisTree} {w : Int} {th : ℚ}
    (h : t0.Setup cfg w th = some t) : t.K = (w : ℚ) / (2 * th) := by
  simp only [VisTree.Setup] at h
  split at h
  · cases h
  · next t3 index ha =>
    cases h
    exact (AllocNode_K ha).1

/-- C12 (monotonic error).  With exact rational arithmetic,
`rho = (2^level / D) * K` with `D = MinDist + 1 ≥ 1` and `K > 0`: for a fixed
level the error strictly decreases as the viewer distance increases, and for a
fixed distance it strictly increases with the level.  The `K` computed by
`Setup` is positive for a positive display width and a positive tangent of
the half field of view. -/
theorem ScreenSpaceError_monotone (cfg : Config) (K : ℚ) (hK : 0 < K) :
    (∀ (b1 b2 : VisBounds) (x1 y1 x2 y2 : Int) (lvl : Nat),
      0 ≤ cfg.MinDist b1 x1 y1 → cfg.MinDist b1 x1 y1 < cfg.MinDist b2 x2 y2 →
      ScreenSpaceError cfg K b2 lvl x2 y2 < ScreenSpaceError cfg K b1 lvl x1 y1) ∧
    (∀ (b : VisBounds) (x y : Int) (l1 l2 : Nat),
      0 ≤ cfg.MinDist b x y → l1 < l2 →
      ScreenSpaceError cfg K b l1 x y < ScreenSpaceError cfg K b l2 x y) ∧
    (∀ (t0 t : VisTree) (w : Int) (th : ℚ), 0 < w → 0 < th →
      t0.Setup cfg w th = some t → 0 < t.K) := by
  refine ⟨?_, ?_, ?_⟩
  · intro b1 b2 x1 y1 x2 y2 lvl h0 hlt
    simp only [ScreenSpaceError, Nat.one_shiftLeft]
    have hd1 : (0 : ℚ) < ((cfg.MinDist b1 x1 y1 + 1 : Int) : ℚ) := by
      exact_mod_cast (by omega : (0 : Int) < cfg.MinDist b1 x1 y1 + 1)
    have hd12 : ((cfg.MinDist b1 x1 y1 + 1 : Int) : ℚ) < ((cfg.MinDist b2 x2 y2 + 1 : Int) : ℚ) := by
      exact_mod_cast (by omega : cfg.MinDist b1 x1 y1 + 1 < cfg.MinDist b2 x2 y2 + 1)
    have hp : (0 : ℚ) < ((2 ^ lvl : Nat) : ℚ) := by positivity
    exact mul_lt_mul_of_pos_right (div_lt_div_of_pos_left hp hd1 hd12) hK
  · intro b x y l1 l2 h0 hlt
    simp only [ScreenSpaceError, Nat.one_shiftLeft]
    have hd : (0 : ℚ) < ((cfg.MinDist b x y + 1 : Int) : ℚ) := by
      exact_mod_cast (by omega : (0 : Int) < cfg.MinDist b x y + 1)
    have hp : ((2 ^ l1 : Nat) : ℚ) < ((2 ^ l2 : Nat) : ℚ) := by
      exact_mod_cast Nat.pow_lt_pow_right (by decide) hlt
    exact mul_lt_mul_of_pos_right (div_lt_div_of_pos_right hp hd) hK
  · intro t0 t w th hw hth h
    rw [Setup_K h]
    have : (0 : ℚ) < (w : ℚ) := by exact_mod_cast hw
    positivity

theorem ScreenSpaceError_monotone_witness :
    (0 : ℚ) < 5 ∧
    ScreenSpaceError cfgW 5 (rootBounds cfgW) 0 0 0 < ScreenSpaceError cfgW 5 (rootBounds cfgW) 1 0 0 :=
  ⟨by decide!, (ScreenSpaceError_monotone cfgW 5 (by decide!)).2.1 (rootBounds cfgW) 0 0 0 1
    (by decide) (by decide)⟩

/-! ### C18 -/

/-- C18 (Split/Merge round trip).  In a well-formed state, for a live leaf `n`
with unset geometry and at least four free indices, `Split n` followed by
`Merge n` succeeds, gives `n` back its content as a leaf, leaves every other
live node unchanged, and restores the free-list up to order: the four popped
indices `[i3, i2, i1, i0]` are pushed back as `[i0, i1, i2, i3]`. -/
theorem Split_Merge_roundtrip (cfg : Config) (t : VisTree) (n : Int) (nd : VisNode)
    (hI : Inv cfg t) (hlive : Live t n) (hs : t.slot n = some nd) (hleaf : nd.IsLeaf = true)
    (hg : nd.geoms0 = InvalidIndex) (h4 : 4 ≤ t.freeNodes.length) :
    ∃ (t1 t2 : VisTree) (rest : List Int) (i0 i1 i2 i3 : Int) (fuel0 : Nat),
      t.Split cfg n = some t1 ∧ (∀ fuel, fuel0 ≤ fuel → Merge cfg fuel t1 n = some t2) ∧
      t.freeNodes = rest ++ [i3, i2, i1, i0] ∧ t2.freeNodes = rest ++ [i0, i1, i2, i3] ∧
      t2.freeNodes.length = t.freeNodes.length ∧ List.Perm t2.freeNodes t.freeNodes ∧
      t2.slot n = some nd ∧ (∀ j, Live t j → t2.slot j = t.slot j) := by
  obtain ⟨T, hT⟩ := hI
  obtain ⟨rest, i3, i2, i1, i0, hf⟩ := exists_four_suffix h4
  have hnT := (hT.live_iff n).1 hlive
  obtain ⟨t1, T1, e1, hI1, f1, sn1, si1, fr1, -, hnd, -⟩ := Split_InvT hT hnT hs hleaf hf
  have hrep : Rep t1 (QTree.node n (QTree.leaf i0) (QTree.leaf i1) (QTree.leaf i2)
      (QTree.leaf i3)) := by
    simp only [Rep]
    exact ⟨⟨_, sn1, rfl, rfl, rfl, rfl⟩, ⟨_, si1 i0 (by simp), Reset_isLeaf _⟩,
      ⟨_, si1 i1 (by simp), Reset_isLeaf _⟩, ⟨_, si1 i2 (by simp), Reset_isLeaf _⟩,
      ⟨_, si1 i3 (by simp), Reset_isLeaf _⟩⟩
  have hpre : MergePre cfg t1 (QTree.node n (QTree.leaf i0) (QTree.leaf i1) (QTree.leaf i2)
      (QTree.leaf i3)) := by
    refine ⟨hI1.1, hrep, by simpa [QTree.indices] using hnd, ?_⟩
    intro j hj m hm
    simp only [QTree.indices, List.mem_cons, List.mem_append, List.mem_singleton,
      List.not_mem_nil, or_false, List.nil_append, List.singleton_append] at hj
    rcases hj with rfl | hj
    · rw [sn1] at hm
      cases hm
      exact hg
    · rw [si1 j (by
        simp only [List.mem_cons, List.mem_singleton, List.not_mem_nil, or_false]
        tauto)] at hm
      cases hm
      rfl
  obtain ⟨t2, e2, f2, in2, out2, -, -, -⟩ := Merge_spec cfg _ 2 t1 (by simp [QTree.height]) hpre
  simp only [QTree.idx] at e2
  have hfree2 : t2.freeNodes = rest ++ [i0, i1, i2, i3] := by
    rw [f2, f1]
    simp [QTree.freed, QTree.idx]
  have hnode : t2.slot n = some nd := by
    obtain ⟨m, hm0, hm1⟩ := in2 n (by simp [QTree.indices])
    rw [hm1]
    congr 1
    have c0 := childs_of_leaf hleaf (k := 0) (by omega)
    have c1 := childs_of_leaf hleaf (k := 1) (by omega)
    have c2 := childs_of_leaf hleaf (k := 2) (by omega)
    have c3 := childs_of_leaf hleaf (k := 3) (by omega)
    cases nd
    simp only [VisNode.childs] at c0 c1 c2 c3
    simp only at hg
    simp [VisNode.Reset, c0, c1, c2, c3, hg]
  refine ⟨t1, t2, rest, i0, i1, i2, i3, 2, e1, fun fuel hfu => Merge_mono_le cfg hfu e2, hf,
    hfree2, by simp [hfree2, hf], ?_, hnode, ?_⟩
  · rw [hfree2, hf]
    exact List.Perm.append_left _ (List.reverse_perm [i0, i1, i2, i3]).symm
  · intro j hj
    by_cases hjn : j = n
    · rw [hjn, hnode, hs]
    · have hjT := (hT.live_iff j).1 hj
      have hjf : j ∉ [i0, i1, i2, i3] := by
        intro hmem
        have : j ∈ t.freeNodes := by
          rw [hf]
          simp only [List.mem_cons, List.mem_singleton, List.not_mem_nil, or_false] at hmem
          simp only [List.mem_append, List.mem_cons, List.mem_singleton, List.not_mem_nil,
            or_false]
          tauto
        exact (List.nodup_append.1 hT.nodup).2.2 hjT this
      rw [out2 j (by
        simp only [QTree.indices, List.mem_cons, List.mem_append, List.mem_singleton,
          List.not_mem_nil, or_false, List.nil_append, List.singleton_append, not_or]
        simp only [List.mem_cons, List.mem_singleton, List.not_mem_nil, or_false, not_or] at hjf
        tauto)]
      exact fr1 j (fun h => (List.mem_cons.1 h).elim hjn hjf)

theorem Split_Merge_roundtrip_witness :
    Inv cfgW tW ∧ Live tW 0 ∧ 4 ≤ tW.freeNodes.length ∧
      ∃ t1 t2 fuel0, tW.Split cfgW 0 = some t1 ∧
        (∀ fuel, fuel0 ≤ fuel → Merge cfgW fuel t1 0 = some t2) ∧
        List.Perm t2.freeNodes tW.freeNodes := by
  obtain ⟨t1, t2, _, _, _, _, _, fuel0, h1, h2, -, -, -, h3, -⟩ :=
    Split_Merge_roundtrip cfgW tW 0 ⟨-1, -1, -1, -1, -1⟩ ⟨_, tW_InvT⟩ ReachFrom.refl rfl rfl rfl
      (by decide)
  exact ⟨⟨_, tW_InvT⟩, ReachFrom.refl, by decide, t1, t2, fuel0, h1, h2, h3⟩

/-! ### Traversal of a stored shape -/

theorem not_leaf_of_child {m : VisNode} {k : Nat} (hk : k < 4) (h : m.childs k ≠ InvalidIndex) :
    m.IsLeaf = false := by
  cases hl : m.IsLeaf with
  | false => rfl
  | true => exact absurd (childs_of_leaf hl hk) h

theorem LocatedFrom_reach {t : VisTree} {r : Int} {L : Nat} {B : VisBounds} {i : Int} {l : Nat}
    {b : VisBounds} (h : LocatedFrom t r L B i l b) : ReachFrom t r i := by
  induction h with
  | root => exact ReachFrom.refl
  | child k _ hs hk hv ih => exact ReachFrom.step k ih hs hk hv

theorem LocatedFrom_mono {s s1 : VisTree} {S : QTree} (hr : Rep s S)
    (hg : ∀ j ∈ S.indices, ∀ m, s.slot j = some m → m.IsLeaf = false → s1.slot j = some m)
    {L : Nat} {B : VisBounds} {i : Int} {l : Nat} {b : VisBounds}
    (h : LocatedFrom s S.idx L B i l b) : LocatedFrom s1 S.idx L B i l b := by
  induction h with
  | root => exact LocatedFrom.root
  | child k hloc hs hk hv ih =>
    have hmem := (Rep_reach hr _).1 (LocatedFrom_reach hloc)
    exact LocatedFrom.child k ih (hg _ hmem _ hs (not_leaf_of_child hk hv)) hk hv

theorem LocatedFrom_under {s : VisTree} {n : Int} {nd : VisNode} {k : Nat} {l : Nat}
    {bnd : VisBounds} (hs : s.slot n = some nd) (hk : k < 4) (hv : nd.childs k ≠ InvalidIndex)
    {i : Int} {l1 : Nat} {b1 : VisBounds}
    (h : LocatedFrom s (nd.childs k) l (quadrant bnd k) i l1 b1) :
    LocatedFrom s n (l + 1) bnd i l1 b1 := by
  induction h with
  | root => exact LocatedFrom.child k LocatedFrom.root hs hk hv
  | child k1 _ hs1 hk1 hv1 ih => exact LocatedFrom.child k1 ih hs1 hk1 hv1

theorem Stage_sub {cfg : Config} {t t1 : VisTree} {S S1 : QTree} {lvl : Nat} {b : VisBounds}
    {dem : Nat} {log : List Visit} (hpre : TravPre cfg t S)
    (hst : Stage cfg t S lvl b dem log t1 S1) : ∀ j ∈ S.indices, j ∈ S1.indices := by
  obtain ⟨⟨popped, hpop, -⟩, -, -, hperm, -⟩ := hst
  intro j hj
  have h1 : j ∈ S1.indices ++ t1.freeNodes :=
    (List.Perm.mem_iff hperm).2 (List.mem_append_left _ hj)
  rcases List.mem_append.1 h1 with h | h
  · exact h
  · exfalso
    have : j ∈ t.freeNodes := by rw [hpop]; exact List.mem_append_left _ h
    exact (List.nodup_append.1 hpre.2.2.1).2.2 hj this

theorem TravPre_of_Stage {cfg : Config} {t t1 : VisTree} {S S1 : QTree} {lvl : Nat}
    {b : VisBounds} {dem : Nat} {log : List Visit} (hpre : TravPre cfg t S)
    (hst : Stage cfg t S lvl b dem log t1 S1) : TravPre cfg t1 S1 := by
  obtain ⟨⟨popped, hpop, -⟩, hrep, -, hperm, -, hlen, -⟩ := hst
  refine ⟨hlen, hrep, (List.Perm.nodup_iff hperm).2 hpre.2.2.1, ?_⟩
  intro i hi
  exact hpre.2.2.2 i (by rw [hpop]; exact List.mem_append_left _ hi)

theorem Stage_refl {cfg : Config} {t : VisTree} {S : QTree} (hpre : TravPre cfg t S) (lvl : Nat)
    (b : VisBounds) (d : Bool) :
    Stage cfg t S lvl b 0 [⟨lvl, S.idx, b, d⟩] t S := by
  refine ⟨⟨[], by simp, rfl⟩, hpre.2.1, rfl, List.Perm.refl _, fun _ _ => rfl, hpre.1, rfl, rfl,
    le_max_left _ _, fun _ _ _ h _ => h, fun _ => rfl, ?_, fun h => h⟩
  intro v hv
  simp only [List.mem_singleton] at hv
  subst hv
  exact LocatedFrom.root

theorem TravPre_range {cfg : Config} {t : VisTree} {S : QTree} (hpre : TravPre cfg t S) :
    0 ≤ S.idx ∧ S.idx < (cfg.MaxNumNodes : Int) := by
  obtain ⟨m, hm⟩ := Rep_slot hpre.2.1 S.idx (idx_mem_indices S)
  have := slot_lt hm
  rw [hpre.1] at this
  exact this

theorem visitChild_none (go : VisTree → Int → VisBounds → List Visit × Option VisTree)
    (n : Int) (b : VisBounds) (acc : List Visit × Option VisTree) (xy : Nat × Nat)
    (h : acc.2 = none) : visitChild go n b acc xy = acc := by
  unfold VisTree.visitChild
  rw [h]

theorem visitChild_eq (go : VisTree → Int → VisBounds → List Visit × Option VisTree)
    {n : Int} (b : VisBounds) (log : List Visit) {s : VisTree} {nd : VisNode} (x y : Nat)
    (hs : s.slot n = some nd) :
    visitChild go n b (log, some s) (x, y) =
      (log ++ (go s (nd.childs (childIndex x y)) (childBounds b x y)).1,
        (go s (nd.childs (childIndex x y)) (childBounds b x y)).2) := by
  simp only [VisTree.visitChild, hs]

theorem Split_some_length {cfg : Config} {t t1 : VisTree} {n : Int}
    (h : t.Split cfg n = some t1) : 4 ≤ t.freeNodes.length := by
  unfold VisTree.Split at h
  cases ha : t.At cfg n with
  | none => simp [ha] at h
  | some nd =>
    simp only [ha] at h
    by_cases hl : nd.IsLeaf = true
    · simp only [hl, if_true, List.foldlM_cons, List.foldlM_nil, Option.bind_eq_bind,
        Option.bind_eq_some] at h
      obtain ⟨s1, e1, s2, e2, s3, e3, s4, e4, -⟩ := h
      have h1 := (splitChild_some e1).1
      have h2 := (splitChild_some e2).1
      have h3 := (splitChild_some e3).1
      have h4 := (splitChild_some e4).1
      omega
    · simp [hl] at h

theorem demand_leaf (cfg : Config) (K : ℚ) (posX posY : Int) (l : Nat) (b : VisBounds) (i : Int) :
    demand cfg K posX posY l b (QTree.leaf i) = demandLeaf cfg K posX posY l b := by
  cases l <;> simp [demand, demandLeaf]

theorem perm_swap_right (a g f : List Int) : List.Perm ((a ++ g) ++ f) ((a ++ f) ++ g) := by
  rw [List.append_assoc, List.append_assoc]
  exact List.Perm.append_left a List.perm_append_comm

/-- One iteration of the child loop of `traverse`, for a child `X` sitting in
the context `ctx` of the node being traversed. -/
theorem loop_step {cfg : Config} {K : ℚ} {posX posY : Int} {l : Nat}
    (ih : ∀ (t : VisTree) (b : VisBounds) (S : QTree), t.K = K → TravPre cfg t S →
      TravOutcome cfg K posX posY l b t S (demand cfg K posX posY l b S)
        (t.traverse cfg l S.idx b posX posY))
    {t0 : VisTree} {S0 : QTree} (hK : t0.K = K) (pre0 : TravPre cfg t0 S0)
    {n : Int} {bnd : VisBounds} (x y : Nat)
    (hq : quadrant bnd (childIndex x y) = childBounds bnd x y) (hk : childIndex x y < 4)
    (ctx : QTree → QTree) (G : List Int)
    (c1 : ∀ X, (ctx X).idx = n)
    (c2 : ∀ X, List.Perm (ctx X).indices (X.indices ++ G))
    (c3 : ∀ s X, Rep s (ctx X) →
      Rep s X ∧ ∃ nd, s.slot n = some nd ∧ nd.childs (childIndex x y) = X.idx)
    (c4 : ∀ s s1 X X1, Rep s (ctx X) → Rep s1 X1 → X1.idx = X.idx →
      (∀ j ∈ G, s1.slot j = s.slot j) → Rep s1 (ctx X1))
    (c5 : n ∈ G)
    (c6 : ∀ X X1, X1.height ≤ max X.height l → (ctx X1).height ≤ max (ctx X).height (l + 1))
    {dem : Nat} {log : List Visit} {s : VisTree} (X : QTree)
    (hst : Stage cfg t0 S0 (l + 1) bnd dem log s (ctx X))
    (hrng : ∀ v ∈ log, 0 ≤ v.nodeIndex ∧ v.nodeIndex < (cfg.MaxNumNodes : Int)) :
    ∃ log1 : List Visit, (∀ v ∈ log1, 0 ≤ v.nodeIndex ∧ v.nodeIndex < (cfg.MaxNumNodes : Int)) ∧
      ((∃ (s1 : VisTree) (X1 : QTree),
          visitChild (fun t1 m b => traverse cfg l t1 m b posX posY) n bnd (log, some s) (x, y) =
            (log1, some s1) ∧
          Stage cfg t0 S0 (l + 1) bnd (dem + demand cfg K posX posY l (childBounds bnd x y) X)
            log1 s1 (ctx X1) ∧
          demand cfg K posX posY l (childBounds bnd x y) X1 = 0) ∨
       (visitChild (fun t1 m b => traverse cfg l t1 m b posX posY) n bnd (log, some s) (x, y) =
            (log1, none) ∧
          t0.freeNodes.length < dem + demand cfg K posX posY l (childBounds bnd x y) X)) := by
  have hpre_s : TravPre cfg s (ctx X) := TravPre_of_Stage pre0 hst
  have hsub0 := Stage_sub pre0 hst
  obtain ⟨⟨P, hP, hPlen⟩, hrep, hidx, hperm, hframe, hlen, hKs, hroot, hheight, hgrow, hnoop,
    hloc, hgeo⟩ := hst
  obtain ⟨hrepX, nd, hnd, hch⟩ := c3 s X hrep
  have hnd1 : (X.indices ++ G ++ s.freeNodes).Nodup :=
    (List.Perm.nodup_iff ((c2 X).append_right _)).1 hpre_s.2.2.1
  have hd1 := List.nodup_append.1 hnd1
  have hd2 := List.nodup_append.1 hd1.1
  have hXF : (X.indices ++ s.freeNodes).Nodup :=
    List.nodup_append.2 ⟨hd2.1, hd1.2.1, fun a ha hf => hd1.2.2 (List.mem_append_left _ ha) hf⟩
  have hGX : ∀ j ∈ G, j ∉ X.indices ++ s.freeNodes := by
    intro j hj hmem
    rcases List.mem_append.1 hmem with h | h
    · exact hd2.2.2 h hj
    · exact hd1.2.2 (List.mem_append_right _ hj) h
  have preX : TravPre cfg s X := ⟨hpre_s.1, hrepX, hXF, hpre_s.2.2.2⟩
  obtain ⟨rngc, out⟩ := ih s (childBounds bnd x y) X (hKs.trans hK) preX
  have heq := visitChild_eq (fun t1 m b => traverse cfg l t1 m b posX posY) bnd log x y hnd
  rw [hch] at heq
  simp only at heq
  refine ⟨log ++ (s.traverse cfg l X.idx (childBounds bnd x y) posX posY).1, ?_, ?_⟩
  · intro v hv
    rcases List.mem_append.1 hv with h | h
    · exact hrng v h
    · exact rngc v h
  rcases out with ⟨s1, X1, hres, hstc, hdem0⟩ | ⟨hnone, hlt⟩
  · left
    refine ⟨s1, X1, by rw [heq, hres], ?_, hdem0⟩
    obtain ⟨⟨P1, hP1, hP1len⟩, hrep1, hidx1, hperm1, hframe1, hlen1, hK1, hroot1, hheight1,
      hgrow1, hnoop1, hloc1, hgeo1⟩ := hstc
    have hGframe : ∀ j ∈ G, s1.slot j = s.slot j := fun j hj => hframe1 j (hGX j hj)
    have hgrowAll : ∀ j ∈ (ctx X).indices, ∀ m, s.slot j = some m → m.IsLeaf = false →
        s1.slot j = some m := by
      intro j hj m hm hl
      rcases List.mem_append.1 ((List.Perm.mem_iff (c2 X)).1 hj) with h | h
      · exact hgrow1 j h m hm hl
      · rw [hGframe j h]; exact hm
    have hn0 : S0.idx = n := hidx.symm.trans (c1 X)
    refine ⟨⟨P1 ++ P, by rw [hP, hP1, List.append_assoc], by simp [hPlen, hP1len]; omega⟩,
      c4 s s1 X X1 hrep hrep1 hidx1 hGframe, (c1 X1).trans hn0.symm, ?_, ?_, hlen1,
      hK1.trans hKs, hroot1.trans hroot,
      le_trans (c6 X X1 hheight1) (max_le hheight (le_max_right _ _)), ?_, ?_, ?_, ?_⟩
    · have p1 : List.Perm ((ctx X1).indices ++ s1.freeNodes) ((X1.indices ++ s1.freeNodes) ++ G) :=
        ((c2 X1).append_right _).trans (perm_swap_right _ _ _)
      have p2 : List.Perm ((X.indices ++ s.freeNodes) ++ G) ((ctx X).indices ++ s.freeNodes) :=
        ((perm_swap_right _ _ _).symm).trans ((c2 X).symm.append_right _)
      exact (p1.trans ((hperm1.append_right G).trans p2)).trans hperm
    · intro j hj
      rw [hframe1 j ?_, hframe j hj]
      intro hmem
      apply hj
      apply (List.Perm.mem_iff hperm).1
      rcases List.mem_append.1 hmem with h | h
      · exact List.mem_append_left _
          ((List.Perm.mem_iff (c2 X)).2 (List.mem_append_left _ h))
      · exact List.mem_append_right _ h
    · intro j hj m hm hl
      exact hgrowAll j (hsub0 j hj) m (hgrow j hj m hm hl) hl
    · intro h0
      have hs : s = t0 := hnoop (by omega)
      have hs1 : s1 = s := hnoop1 (by omega)
      rw [hs1, hs]
    · intro v hv
      rcases List.mem_append.1 hv with h | h
      · have h1 := hloc v h
        rw [← hidx] at h1 ⊢
        exact LocatedFrom_mono hrep hgrowAll h1
      · have h1 := hloc1 v h
        rw [hn0]
        have hs1n : s1.slot n = some nd := by rw [hGframe n c5]; exact hnd
        have hv0 : nd.childs (childIndex x y) ≠ InvalidIndex := by
          rw [hch]; exact Rep_idx_ne_invalid hrepX
        rw [← hch, ← hq] at h1
        exact LocatedFrom_under hs1n hk hv0 h1
    · intro h0 j hj m hm
      have hgs := hgeo h0
      rcases List.mem_append.1 ((List.Perm.mem_iff (c2 X1)).1 hj) with h | h
      · exact hgeo1 (fun i hi => hgs i
          ((List.Perm.mem_iff (c2 X)).2 (List.mem_append_left _ hi))) j h m hm
      · rw [hGframe j h] at hm
        exact hgs j ((List.Perm.mem_iff (c2 X)).2 (List.mem_append_right _ h)) m hm
  · right
    refine ⟨by rw [heq, hnone], ?_⟩
    have : t0.freeNodes.length = s.freeNodes.length + dem := by
      rw [hP, List.length_append, hPlen]
    omega

theorem ctx0_ok (n : Int) (l : Nat) (b c d : QTree) :
    (∀ X, ((QTree.node n X b c d) : QTree).idx = n) ∧
    (∀ X, List.Perm ((QTree.node n X b c d) : QTree).indices (X.indices ++ (n :: (b.indices ++ c.indices ++ d.indices)))) ∧
    (∀ (s : VisTree) X, Rep s (QTree.node n X b c d) →
      Rep s X ∧ ∃ nd, s.slot n = some nd ∧ nd.childs 0 = X.idx) ∧
    (∀ (s s1 : VisTree) (X X1 : QTree), Rep s (QTree.node n X b c d) → Rep s1 X1 → X1.idx = X.idx →
      (∀ j ∈ (n :: (b.indices ++ c.indices ++ d.indices)), s1.slot j = s.slot j) → Rep s1 (QTree.node n X1 b c d)) ∧
    n ∈ (n :: (b.indices ++ c.indices ++ d.indices)) ∧
    (∀ X X1 : QTree, X1.height ≤ max X.height l →
      ((QTree.node n X1 b c d) : QTree).height ≤ max ((QTree.node n X b c d) : QTree).height (l + 1)) := by
  refine ⟨fun _ => rfl, ?_, ?_, ?_, by simp, ?_⟩
  · intro X
    rw [← Multiset.coe_eq_coe]
    simp only [QTree.indices, ← Multiset.coe_add, ← Multiset.cons_coe, ← Multiset.singleton_add]
    abel
  · intro s X hr
    simp only [Rep] at hr
    obtain ⟨⟨m, hm, h0, h1, h2, h3⟩, ha, hb, hc, hd⟩ := hr
    exact ⟨ha, m, hm, h0⟩
  · intro s s1 X X1 hr hr1 hidx hfr
    simp only [Rep] at hr ⊢
    obtain ⟨⟨m, hm, h0, h1, h2, h3⟩, ha, hb, hc, hd⟩ := hr
    have hn : s1.slot n = some m := by rw [hfr n (by simp)]; exact hm
    refine ⟨⟨m, hn, by rw [hidx]; exact h0, h1, h2, h3⟩, hr1, Rep_frame (fun j hj => hfr j (by simp [hj])) hb, Rep_frame (fun j hj => hfr j (by simp [hj])) hc, Rep_frame (fun j hj => hfr j (by simp [hj])) hd⟩
  · intro X X1 h
    simp only [QTree.height]
    omega

theorem ctx1_ok (n : Int) (l : Nat) (a c d : QTree) :
    (∀ X, ((QTree.node n a X c d) : QTree).idx = n) ∧
    (∀ X, List.Perm ((QTree.node n a X c d) : QTree).indices (X.indices ++ (n :: (a.indices ++ c.indices ++ d.indices)))) ∧
    (∀ (s : VisTree) X, Rep s (QTree.node n a X c d) →
      Rep s X ∧ ∃ nd, s.slot n = some nd ∧ nd.childs 1 = X.idx) ∧
    (∀ (s s1 : VisTree) (X X1 : QTree), Rep s (QTree.node n a X c d) → Rep s1 X1 → X1.idx = X.idx →
      (∀ j ∈ (n :: (a.indices ++ c.indices ++ d.indices)), s1.slot j = s.slot j) → Rep s1 (QTree.node n a X1 c d)) ∧
    n ∈ (n :: (a.indices ++ c.indices ++ d.indices)) ∧
    (∀ X X1 : QTree, X1.height ≤ max X.height l →
      ((QTree.node n a X1 c d) : QTree).height ≤ max ((QTree.node n a X c d) : QTree).height (l + 1)) := by
  refine ⟨fun _ => rfl, ?_, ?_, ?_, by simp, ?_⟩
  · intro X
    rw [← Multiset.coe_eq_coe]
    simp only [QTree.indices, ← Multiset.coe_add, ← Multiset.cons_coe, ← Multiset.singleton_add]
    abel
  · intro s X hr
    simp only [Rep] at hr
    obtain ⟨⟨m, hm, h0, h1, h2, h3⟩, ha, hb, hc, hd⟩ := hr
    exact ⟨hb, m, hm, h1⟩
  · intro s s1 X X1 hr hr1 hidx hfr
    simp only [Rep] at hr ⊢
    obtain ⟨⟨m, hm, h0, h1, h2, h3⟩, ha, hb, hc, hd⟩ := hr
    have hn : s1.slot n = some m := by rw [hfr n (by simp)]; exact hm
    refine ⟨⟨m, hn, h0, by rw [hidx]; exact h1, h2, h3⟩, Rep_frame (fun j hj => hfr j (by simp [hj])) ha, hr1, Rep_frame (fun j hj => hfr j (by simp [hj])) hc, Rep_frame (fun j hj => hfr j (by simp [hj])) hd⟩
  · intro X X1 h
    simp only [QTree.height]
    omega

theorem ctx2_ok (n : Int) (l : Nat) (a b d : QTree) :
    (∀ X, ((QTree.node n a b X d) : QTree).idx = n) ∧
    (∀ X, List.Perm ((QTree.node n a b X d) : QTree).indices (X.indices ++ (n :: (a.indices ++ b.indices ++ d.indices)))) ∧
    (∀ (s : VisTree) X, Rep s (QTree.node n a b X d) →
      Rep s X ∧ ∃ nd, s.slot n = some nd ∧ nd.childs 2 = X.idx) ∧
    (∀ (s s1 : VisTree) (X X1 : QTree), Rep s (QTree.node n a b X d) → Rep s1 X1 → X1.idx = X.idx →
      (∀ j ∈ (n :: (a.indices ++ b.indices ++ d.indices)), s1.slot j = s.slot j) → Rep s1 (QTree.node n a b X1 d)) ∧
    n ∈ (n :: (a.indices ++ b.indices ++ d.indices)) ∧
    (∀ X X1 : QTree, X1.height ≤ max X.height l →
      ((QTree.node n a b X1 d) : QTree).height ≤ max ((QTree.node n a b X d) : QTree).height (l + 1)) := by
  refine ⟨fun _ => rfl, ?_, ?_, ?_, by simp, ?_⟩
  · intro X
    rw [← Multiset.coe_eq_coe]
    simp only [QTree.indices, ← Multiset.coe_add, ← Multiset.cons_coe, ← Multiset.singleton_add]
    abel
  · intro s X hr
    simp only [Rep] at hr
    obtain ⟨⟨m, hm, h0, h1, h2, h3⟩, ha, hb, hc, hd⟩ := hr
    exact ⟨hc, m, hm, h2⟩
  · intro s s1 X X1 hr hr1 hidx hfr
    simp only [Rep] at hr ⊢
    obtain ⟨⟨m, hm, h0, h1, h2, h3⟩, ha, hb, hc, hd⟩ := hr
    have hn : s1.slot n = some m := by rw [hfr n (by simp)]; exact hm
    refine ⟨⟨m, hn, h0, h1, by rw [hidx]; exact h2, h3⟩, Rep_frame (fun j hj => hfr j (by simp [hj])) ha, Rep_frame (fun j hj => hfr j (by simp [hj])) hb, hr1, Rep_frame (fun j hj => hfr j (by simp [hj])) hd⟩
  · intro X X1 h
    simp only [QTree.height]
    omega

theorem ctx3_ok (n : Int) (l : Nat) (a b c : QTree) :
    (∀ X, ((QTree.node n a b c X) : QTree).idx = n) ∧
    (∀ X, List.Perm ((QTree.node n a b c X) : QTree).indices (X.indices ++ (n :: (a.indices ++ b.indices ++ c.indices)))) ∧
    (∀ (s : VisTree) X, Rep s (QTree.node n a b c X) →
      Rep s X ∧ ∃ nd, s.slot n = some nd ∧ nd.childs 3 = X.idx) ∧
    (∀ (s s1 : VisTree) (X X1 : QTree), Rep s (QTree.node n a b c X) → Rep s1 X1 → X1.idx = X.idx →
      (∀ j ∈ (n :: (a.indices ++ b.indices ++ c.indices)), s1.slot j = s.slot j) → Rep s1 (QTree.node n a b c X1)) ∧
    n ∈ (n :: (a.indices ++ b.indices ++ c.indices)) ∧
    (∀ X X1 : QTree, X1.height ≤ max X.height l →
      ((QTree.node n a b c X1) : QTree).height ≤ max ((QTree.node n a b c X) : QTree).height (l + 1)) := by
  refine ⟨fun _ => rfl, ?_, ?_, ?_, by simp, ?_⟩
  · intro X
    rw [← Multiset.coe_eq_coe]
    simp only [QTree.indices, ← Multiset.coe_add, ← Multiset.cons_coe, ← Multiset.singleton_add]
    abel
  · intro s X hr
    simp only [Rep] at hr
    obtain ⟨⟨m, hm, h0, h1, h2, h3⟩, ha, hb, hc, hd⟩ := hr
    exact ⟨hd, m, hm, h3⟩
  · intro s s1 X X1 hr hr1 hidx hfr
    simp only [Rep] at hr ⊢
    obtain ⟨⟨m, hm, h0, h1, h2, h3⟩, ha, hb, hc, hd⟩ := hr
    have hn : s1.slot n = some m := by rw [hfr n (by simp)]; exact hm
    refine ⟨⟨m, hn, h0, h1, h2, by rw [hidx]; exact h3⟩, Rep_frame (fun j hj => hfr j (by simp [hj])) ha, Rep_frame (fun j hj => hfr j (by simp [hj])) hb, Rep_frame (fun j hj => hfr j (by simp [hj])) hc, hr1⟩
  · intro X X1 h
    simp only [QTree.height]
    omega

/-- The child loop of `traverse` on a stored inner node. -/
theorem traverse_loop {cfg : Config} {K : ℚ} {posX posY : Int} {l : Nat}
    (ih : ∀ (t : VisTree) (b : VisBounds) (S : QTree), t.K = K → TravPre cfg t S →
      TravOutcome cfg K posX posY l b t S (demand cfg K posX posY l b S)
        (t.traverse cfg l S.idx b posX posY))
    {t0 : VisTree} (hK : t0.K = K) {n : Int} {a b c d : QTree}
    (pre0 : TravPre cfg t0 (QTree.node n a b c d)) (bnd : VisBounds) :
    TravOutcome cfg K posX posY (l + 1) bnd t0 (QTree.node n a b c d)
      (demand cfg K posX posY l (childBounds bnd 0 0) a +
        demand cfg K posX posY l (childBounds bnd 0 1) c +
        demand cfg K posX posY l (childBounds bnd 1 0) b +
        demand cfg K posX posY l (childBounds bnd 1 1) d)
      ([(0, 0), (0, 1), (1, 0), (1, 1)].foldl
        (visitChild (fun t1 m b1 => traverse cfg l t1 m b1 posX posY) n bnd)
        ([⟨l + 1, n, bnd, false⟩], some t0)) := by
  simp only [List.foldl_cons, List.foldl_nil]
  have st0 : Stage cfg t0 (QTree.node n a b c d) (l + 1) bnd 0 [⟨l + 1, n, bnd, false⟩] t0
      (QTree.node n a b c d) := Stage_refl pre0 (l + 1) bnd false
  have rng0 : ∀ v ∈ [(⟨l + 1, n, bnd, false⟩ : Visit)],
      0 ≤ v.nodeIndex ∧ v.nodeIndex < (cfg.MaxNumNodes : Int) := by
    intro v hv
    simp only [List.mem_singleton] at hv
    subst hv
    exact TravPre_range pre0
  -- child slot 0
  obtain ⟨p1, p2, p3, p4, p5, p6⟩ := ctx0_ok n l b c d
  obtain ⟨log1, rng1, out1⟩ := loop_step ih hK pre0 0 0 rfl (by decide)
    (fun X => QTree.node n X b c d) _ p1 p2 p3 p4 p5 p6 a st0 rng0
  rcases out1 with ⟨s1, a1, e1, st1, da1⟩ | ⟨e1, hlt⟩
  swap
  · rw [e1, visitChild_none _ _ _ _ _ rfl, visitChild_none _ _ _ _ _ rfl,
      visitChild_none _ _ _ _ _ rfl]
    exact ⟨rng1, Or.inr ⟨rfl, by omega⟩⟩
  rw [e1]
  -- child slot 2
  obtain ⟨p1, p2, p3, p4, p5, p6⟩ := ctx2_ok n l a1 b d
  obtain ⟨log2, rng2, out2⟩ := loop_step ih hK pre0 0 1 rfl (by decide)
    (fun X => QTree.node n a1 b X d) _ p1 p2 p3 p4 p5 p6 c st1 rng1
  rcases out2 with ⟨s2, c1, e2, st2, dc1⟩ | ⟨e2, hlt⟩
  swap
  · rw [e2, visitChild_none _ _ _ _ _ rfl, visitChild_none _ _ _ _ _ rfl]
    exact ⟨rng2, Or.inr ⟨rfl, by omega⟩⟩
  rw [e2]
  -- child slot 1
  obtain ⟨p1, p2, p3, p4, p5, p6⟩ := ctx1_ok n l a1 c1 d
  obtain ⟨log3, rng3, out3⟩ := loop_step ih hK pre0 1 0 rfl (by decide)
    (fun X => QTree.node n a1 X c1 d) _ p1 p2 p3 p4 p5 p6 b st2 rng2
  rcases out3 with ⟨s3, b1, e3, st3, db1⟩ | ⟨e3, hlt⟩
  swap
  · rw [e3, visitChild_none _ _ _ _ _ rfl]
    exact ⟨rng3, Or.inr ⟨rfl, by omega⟩⟩
  rw [e3]
  -- child slot 3
  obtain ⟨p1, p2, p3, p4, p5, p6⟩ := ctx3_ok n l a1 b1 c1
  obtain ⟨log4, rng4, out4⟩ := loop_step ih hK pre0 1 1 rfl (by decide)
    (fun X => QTree.node n a1 b1 c1 X) _ p1 p2 p3 p4 p5 p6 d st3 rng3
  rcases out4 with ⟨s4, d1, e4, st4, dd1⟩ | ⟨e4, hlt⟩
  swap
  · rw [e4]
    exact ⟨rng4, Or.inr ⟨rfl, by omega⟩⟩
  rw [e4]
  refine ⟨rng4, Or.inl ⟨s4, QTree.node n a1 b1 c1 d1, rfl, ?_, ?_⟩⟩
  · simpa only [Nat.zero_add] using st4
  · simp only [demand, da1, db1, dc1, dd1, ite_self]

/-- `traverse` on a stored shape: it either completes, allocating exactly
`demand` indices, with the effect `TravPost`, or it stops with a fatal error
because fewer than `demand` indices are free; in both cases every index passed
to `At` is in range. -/
theorem traverse_spec (cfg : Config) (K : ℚ) (posX posY : Int) :
    ∀ (lvl : Nat) (t : VisTree) (b : VisBounds) (S : QTree), t.K = K → TravPre cfg t S →
      TravOutcome cfg K posX posY lvl b t S (demand cfg K posX posY lvl b S)
        (t.traverse cfg lvl S.idx b posX posY) := by
  intro lvl
  induction lvl with
  | zero =>
    intro t b S hK hpre
    obtain ⟨m, hm⟩ := Rep_slot hpre.2.1 S.idx (idx_mem_indices S)
    have hat : t.At cfg S.idx = some m := by rw [At_eq_slot hpre.1]; exact hm
    simp only [VisTree.traverse, hat]
    refine ⟨?_, Or.inl ⟨t, S, rfl, ?_, by simp [demand]⟩⟩
    · intro v hv
      simp only [List.mem_singleton] at hv
      subst hv
      exact TravPre_range hpre
    · simpa [demand] using Stage_refl hpre 0 b true
  | succ l ih =>
    intro t b S hK hpre
    obtain ⟨m, hm⟩ := Rep_slot hpre.2.1 S.idx (idx_mem_indices S)
    have hat : t.At cfg S.idx = some m := by rw [At_eq_slot hpre.1]; exact hm
    simp only [VisTree.traverse, hat]
    by_cases hacc : ScreenSpaceError cfg K b (l + 1) posX posY ≤ tau
    · have hd : demand cfg K posX posY (l + 1) b S = 0 := by
        cases S <;> simp [demand, demandLeaf, hacc]
      rw [hK]
      simp only [hacc, if_true, hd]
      refine ⟨?_, Or.inl ⟨t, S, rfl, Stage_refl hpre (l + 1) b true, hd⟩⟩
      intro v hv
      simp only [List.mem_singleton] at hv
      subst hv
      exact TravPre_range hpre
    · rw [hK]
      simp only [hacc, if_false]
      cases S with
      | node n a0 b0 c0 d0 =>
        have hrep := hpre.2.1
        simp only [Rep] at hrep
        obtain ⟨⟨m1, hm1, h0, -⟩, ha, -⟩ := hrep
        simp only [QTree.idx] at hm hat ⊢
        rw [hm] at hm1
        cases hm1
        have hnl : m.IsLeaf = false :=
          not_leaf_of_child (k := 0) (by decide) (by rw [h0]; exact Rep_idx_ne_invalid ha)
        simp only [hnl, Bool.false_eq_true, if_false]
        have := traverse_loop ih hK hpre b
        simpa only [demand, hacc, if_false] using this
      | leaf n =>
        have hrep := hpre.2.1
        simp only [Rep] at hrep
        obtain ⟨m1, hm1, hleaf⟩ := hrep
        simp only [QTree.idx] at hm hat ⊢
        rw [hm] at hm1
        cases hm1
        simp only [hleaf, if_true, demand]
        have hv0 : ∀ v ∈ [(⟨l + 1, n, b, false⟩ : Visit)],
            0 ≤ v.nodeIndex ∧ v.nodeIndex < (cfg.MaxNumNodes : Int) := by
          intro v hv
          simp only [List.mem_singleton] at hv
          subst hv
          exact TravPre_range hpre
        have hdl : demandLeaf cfg K posX posY (l + 1) b =
            4 + demandLeaf cfg K posX posY l (childBounds b 0 0) +
              demandLeaf cfg K posX posY l (childBounds b 0 1) +
              demandLeaf cfg K posX posY l (childBounds b 1 0) +
              demandLeaf cfg K posX posY l (childBounds b 1 1) := by
          simp only [demandLeaf, hacc, if_false]
        by_cases h4 : 4 ≤ t.freeNodes.length
        swap
        · have hsp : t.Split cfg n = none := by
            cases hs : t.Split cfg n with
            | none => rfl
            | some t1 => exact absurd (Split_some_length hs) h4
          rw [hsp]
          simp only [List.foldl_cons, List.foldl_nil]
          rw [visitChild_none _ _ _ _ _ rfl]
          refine ⟨hv0, Or.inr ⟨rfl, ?_⟩⟩
          rw [hdl]
          omega
        obtain ⟨rest, i3, i2, i1, i0, hf⟩ := exists_four_suffix h4
        have hndt : ([n] ++ (rest ++ [i3, i2, i1, i0])).Nodup := by
          have := hpre.2.2.1
          rw [hf] at this
          simpa [QTree.indices] using this
        have hnd4 : (n :: [i0, i1, i2, i3]).Nodup := by
          have h1 : ([n] ++ [i3, i2, i1, i0]).Nodup :=
            hndt.sublist ((List.Sublist.refl [n]).append (List.sublist_append_right _ _))
          exact (List.Perm.nodup_iff ((List.reverse_perm [i0, i1, i2, i3]).cons n)).1 h1
        have hmemf : ∀ i ∈ [i0, i1, i2, i3], i ∈ t.freeNodes := by
          intro i hi
          rw [hf]
          simp only [List.mem_cons, List.mem_singleton, List.not_mem_nil, or_false] at hi
          simp only [List.mem_append, List.mem_cons, List.mem_singleton, List.not_mem_nil,
            or_false]
          tauto
        have hslots : ∀ i ∈ [i0, i1, i2, i3], ∃ m0, t.slot i = some m0 := by
          intro i hi
          have := hpre.2.2.2 i (hmemf i hi)
          exact slot_isSome.2 ⟨this.1, by rw [hpre.1]; omega⟩
        obtain ⟨t0, e0, f0, sn0, si0, fr0, l0, K0, r0⟩ := Split_spec hat hleaf hf hslots hnd4
        rw [e0]
        have hrep0 : Rep t0 (QTree.node n (QTree.leaf i0) (QTree.leaf i1) (QTree.leaf i2)
            (QTree.leaf i3)) := by
          simp only [Rep]
          exact ⟨⟨_, sn0, rfl, rfl, rfl, rfl⟩, ⟨_, si0 i0 (by simp), Reset_isLeaf _⟩,
            ⟨_, si0 i1 (by simp), Reset_isLeaf _⟩, ⟨_, si0 i2 (by simp), Reset_isLeaf _⟩,
            ⟨_, si0 i3 (by simp), Reset_isLeaf _⟩⟩
        have hperm0 : List.Perm ((QTree.node n (QTree.leaf i0) (QTree.leaf i1) (QTree.leaf i2)
            (QTree.leaf i3)).indices ++ t0.freeNodes) ((QTree.leaf n).indices ++ t.freeNodes) := by
          rw [f0, hf]
          simp only [QTree.indices, List.singleton_append, List.cons_append, List.nil_append,
            List.perm_cons]
          exact List.perm_append_comm.trans
            ((List.reverse_perm [i0, i1, i2, i3]).symm.append_left rest)
        have pre0 : TravPre cfg t0 (QTree.node n (QTree.leaf i0) (QTree.leaf i1) (QTree.leaf i2)
            (QTree.leaf i3)) := by
          refine ⟨by rw [l0]; exact hpre.1, hrep0, (List.Perm.nodup_iff hperm0).2 hpre.2.2.1, ?_⟩
          intro i hi
          exact hpre.2.2.2 i (by rw [hf]; rw [f0] at hi; exact List.mem_append_left _ hi)
        obtain ⟨rng, out⟩ := traverse_loop ih (K0.trans hK) pre0 b
        simp only [demand_leaf] at out
        refine ⟨rng, ?_⟩
        rcases out with ⟨t1, S1, hres, hst, hd⟩ | ⟨hnone, hlt⟩
        · left
          refine ⟨t1, S1, hres, ?_, hd⟩
          obtain ⟨⟨P, hP, hPlen⟩, hrep1, hidx1, hperm1, hframe1, hlen1, hK1, hroot1, hheight1,
            -, -, hloc1, hgeo1⟩ := hst
          refine ⟨⟨P ++ [i3, i2, i1, i0], ?_, ?_⟩, hrep1, hidx1, hperm1.trans hperm0, ?_, hlen1,
            hK1.trans K0, hroot1.trans r0, ?_, ?_, ?_, hloc1, ?_⟩
          · rw [hf, ← f0, hP, List.append_assoc]
          · rw [hdl]
            simp only [List.length_append, hPlen, List.length_cons, List.length_nil]
            omega
          · intro j hj
            have hj0 : j ∉ n :: [i0, i1, i2, i3] := by
              intro hmem
              apply hj
              rcases List.mem_cons.1 hmem with h | h
              · exact List.mem_append_left _ (by simp [QTree.indices, h])
              · exact List.mem_append_right _ (hmemf j h)
            rw [hframe1 j ?_, fr0 j hj0]
            intro hmem
            exact hj ((List.Perm.mem_iff hperm0).1 hmem)
          · simp only [QTree.height] at hheight1 ⊢
            omega
          · intro j hj m0 hm0 hl0
            simp only [QTree.indices, List.mem_singleton] at hj
            subst hj
            rw [hm] at hm0
            cases hm0
            rw [hleaf] at hl0
            cases hl0
          · intro h0
            rw [hdl] at h0
            omega
          · intro h0
            apply hgeo1
            intro j hj m0 hm0
            simp only [QTree.indices, List.mem_cons, List.mem_append, List.mem_singleton,
              List.not_mem_nil, or_false, List.nil_append, List.singleton_append] at hj
            rcases hj with rfl | hj
            · rw [sn0] at hm0
              cases hm0
              exact h0 j (by simp [QTree.indices]) m hm
            · rw [si0 j (by
                simp only [List.mem_cons, List.mem_singleton, List.not_mem_nil, or_false]
                tauto)] at hm0
              cases hm0
              rfl
        · right
          refine ⟨hnone, ?_⟩
          rw [hdl, hf, List.length_append]
          rw [f0] at hlt
          simp only [List.length_cons, List.length_nil]
          omega

/-! ### Traverse on well-formed states -/

theorem InvT.travPre {cfg : Config} {t : VisTree} {T : QTree} (h : InvT cfg t T) :
    TravPre cfg t T := by
  refine ⟨h.1, h.2.2.1, h.nodup, ?_⟩
  intro i hi
  exact mem_range_cast.1 ((List.Perm.mem_iff h.2.2.2).1 (List.mem_append_right _ hi))

theorem InvT_of_Stage {cfg : Config} {t t1 : VisTree} {T T1 : QTree} {lvl : Nat} {b : VisBounds}
    {dem : Nat} {log : List Visit} (h : InvT cfg t T) (hst : Stage cfg t T lvl b dem log t1 T1) :
    InvT cfg t1 T1 := by
  obtain ⟨-, hrep, hidx, hperm, -, hlen, -, hroot, -⟩ := hst
  exact ⟨hlen, by rw [hidx, hroot]; exact h.2.1, hrep, hperm.trans h.2.2.2⟩

/-- `Traverse` on a well-formed state. -/
theorem Traverse_spec {cfg : Config} {t : VisTree} {T : QTree} (h : InvT cfg t T)
    (posX posY : Int) :
    TravOutcome cfg t.K posX posY cfg.NumLevels (rootBounds cfg) t T
      (demand cfg t.K posX posY cfg.NumLevels (rootBounds cfg) T) (t.Traverse cfg posX posY) := by
  rw [Traverse_eq, ← h.2.1]
  exact traverse_spec cfg t.K posX posY cfg.NumLevels t (rootBounds cfg) T rfl h.travPre

/-- A completed `Traverse` on a well-formed state has the effect `TravPost`. -/
theorem Traverse_post {cfg : Config} {t t1 : VisTree} {T : QTree} (h : InvT cfg t T)
    {posX posY : Int} (hok : (t.Traverse cfg posX posY).2 = some t1) :
    ∃ T1, Stage cfg t T cfg.NumLevels (rootBounds cfg)
        (demand cfg t.K posX posY cfg.NumLevels (rootBounds cfg) T) (t.Traverse cfg posX posY).1
        t1 T1 ∧
      demand cfg t.K posX posY cfg.NumLevels (rootBounds cfg) T1 = 0 ∧ InvT cfg t1 T1 := by
  rcases (Traverse_spec h posX posY).2 with ⟨t2, T1, hres, hst, hd⟩ | ⟨hnone, -⟩
  · rw [hok] at hres
    cases hres
    exact ⟨T1, hst, hd, InvT_of_Stage h hst⟩
  · rw [hok] at hnone
    cases hnone

/-- `Traverse` on a well-formed state with enough free indices completes. -/
theorem Traverse_succeeds {cfg : Config} {t : VisTree} {T : QTree} (h : InvT cfg t T)
    {posX posY : Int}
    (hfree : demand cfg t.K posX posY cfg.NumLevels (rootBounds cfg) T ≤ t.freeNodes.length) :
    ∃ t1, (t.Traverse cfg posX posY).2 = some t1 := by
  rcases (Traverse_spec h posX posY).2 with ⟨t2, T1, hres, -, -⟩ | ⟨-, hlt⟩
  · exact ⟨t2, hres⟩
  · omega

/-! ### C3 -/

/-- C3 (acceptance rule).  For every viewer position and every well-formed
state with enough free indices (at least the `demand` of the traversal),
`Traverse` completes and the sequence of drawn records equals the state-free
recursion `emit` started at the world footprint at level `NumLevels`; a visit
is drawn exactly when its error is at most `tau = 100` or its level is 0; and
the drawn sequence is the same from every state with the same `K`, whatever
nodes are already split. -/
theorem traverse_acceptance (cfg : Config) (t : VisTree) (T : QTree) (posX posY : Int)
    (hI : InvT cfg t T)
    (hfree : demand cfg t.K posX posY cfg.NumLevels (rootBounds cfg) T ≤ t.freeNodes.length) :
    ∃ t1, (t.Traverse cfg posX posY).2 = some t1 ∧
      drawn (t.Traverse cfg posX posY).1 =
        emit cfg t.K posX posY cfg.NumLevels (rootBounds cfg) ∧
      (∀ v ∈ (t.Traverse cfg posX posY).1,
        (v.draw = true ↔
          (ScreenSpaceError cfg t.K v.bounds v.lvl posX posY ≤ 100 ∨ v.lvl = 0))) ∧
      (∀ t2 t3 : VisTree, t2.K = t.K → (t2.Traverse cfg posX posY).2 = some t3 →
        drawn (t2.Traverse cfg posX posY).1 = drawn (t.Traverse cfg posX posY).1) := by
  obtain ⟨t1, hok⟩ := Traverse_succeeds hI hfree
  have hok1 := hok
  rw [Traverse_eq] at hok1
  obtain ⟨-, hd, hv⟩ := traverse_ok cfg posX posY _ _ _ _ _ hok1
  refine ⟨t1, hok, by rw [Traverse_eq]; exact hd, by rw [Traverse_eq]; exact hv, ?_⟩
  intro t2 t3 hK h2
  simp only [Traverse_eq] at h2 ⊢
  rw [(traverse_ok cfg posX posY _ _ _ _ _ h2).2.1, hd, hK]

theorem traverse_acceptance_witness :
    InvT cfgW tK (QTree.leaf 0) ∧
    demand cfgW tK.K 3 4 cfgW.NumLevels (rootBounds cfgW) (QTree.leaf 0) ≤ tK.freeNodes.length ∧
    ∃ t1, (tK.Traverse cfgW 3 4).2 = some t1 ∧
      drawn (tK.Traverse cfgW 3 4).1 = emit cfgW tK.K 3 4 cfgW.NumLevels (rootBounds cfgW) := by
  have hI : InvT cfgW tK (QTree.leaf 0) := ⟨rfl, rfl, ⟨_, rfl, rfl⟩, by decide⟩
  have hd : demand cfgW tK.K 3 4 cfgW.NumLevels (rootBounds cfgW) (QTree.leaf 0) ≤
      tK.freeNodes.length := by decide!
  obtain ⟨t1, h1, h2, -⟩ := traverse_acceptance cfgW tK (QTree.leaf 0) 3 4 hI hd
  exact ⟨hI, hd, t1, h1, h2⟩

/-! ### C10 -/

theorem demandLeaf_le (cfg : Config) (K : ℚ) (posX posY : Int) :
    ∀ (L : Nat) (b : VisBounds), demandLeaf cfg K posX posY L b + 1 ≤ fullSize L := by
  intro L
  induction L with
  | zero => intro b; simp [demandLeaf, fullSize]
  | succ l ih =>
    intro b
    rw [fullSize_succ]
    simp only [demandLeaf]
    have h0 := ih (childBounds b 0 0)
    have h1 := ih (childBounds b 0 1)
    have h2 := ih (childBounds b 1 0)
    have h3 := ih (childBounds b 1 1)
    split <;> omega

theorem demand_le (cfg : Config) (K : ℚ) (posX posY : Int) :
    ∀ (L : Nat) (b : VisBounds) (T : QTree), T.height ≤ L →
      demand cfg K posX posY L b T + T.indices.length ≤ fullSize L := by
  intro L
  induction L with
  | zero =>
    intro b T hT
    cases T with
    | leaf i => simp [demand, QTree.indices, fullSize]
    | node i a b c d => simp [QTree.height] at hT
  | succ l ih =>
    intro b T hT
    cases T with
    | leaf i =>
      have := demandLeaf_le cfg K posX posY (l + 1) b
      simpa [demand, QTree.indices] using this
    | node i c0 c1 c2 c3 =>
      simp only [QTree.height] at hT
      have h0 := ih (childBounds b 0 0) c0 (by omega)
      have h1 := ih (childBounds b 1 0) c1 (by omega)
      have h2 := ih (childBounds b 0 1) c2 (by omega)
      have h3 := ih (childBounds b 1 1) c3 (by omega)
      rw [fullSize_succ]
      simp only [demand, QTree.indices, List.length_cons, List.length_append]
      split <;> omega

theorem TraverseReachable_inv {cfg : Config} (h16 : cfg.MaxNumNodes ≤ 32768) {t : VisTree}
    (hr : TraverseReachable cfg t) : ∃ T, InvT cfg t T ∧ T.height ≤ cfg.NumLevels := by
  induction hr with
  | @setup t0 t w th hfree hlen hset =>
    by_cases hpos : 0 < cfg.MaxNumNodes
    · obtain ⟨t1, e1, hI, -⟩ := Setup_spec w th h16 hfree hlen hpos
      rw [hset] at e1
      cases e1
      exact ⟨_, hI, by simp [QTree.height]⟩
    · have h0 : cfg.MaxNumNodes = 0 := by omega
      simp [VisTree.Setup, VisTree.AllocNode, hfree, h0] at hset
  | @traverse t t1 posX posY _ hok ih =>
    obtain ⟨T, hT, hh⟩ := ih
    obtain ⟨T1, hst, -, hI1⟩ := Traverse_post hT hok
    refine ⟨T1, hI1, ?_⟩
    have := hst.2.2.2.2.2.2.2.2.1
    omega

theorem InvT.ncard_live {cfg : Config} {t : VisTree} {T : QTree} (hT : InvT cfg t T) :
    Set.ncard {i | Live t i} = T.indices.length := by
  have hnd := List.nodup_append.1 hT.nodup
  have hset : {i | Live t i} = ((T.indices.toFinset : Finset Int) : Set Int) := by
    ext i
    simp [hT.live_iff i]
  rw [hset, Set.ncard_coe_Finset, List.toFinset_card_of_nodup hnd.1]

theorem InvT.length_eq {cfg : Config} {t : VisTree} {T : QTree} (hT : InvT cfg t T) :
    T.indices.length + t.freeNodes.length = cfg.MaxNumNodes := by
  have := List.Perm.length_eq hT.2.2.2
  simpa using this

/-- C10 (pool capacity suffices).  If `MaxNumNodes ≥ (4^(NumLevels+1) - 1)/3`,
then in every state reached from `Setup` by `Traverse` calls with arbitrary
viewer positions, a further `Traverse` with any viewer position completes (no
`AllocNode` finds the free-list empty and no assertion fails), and the number
of live nodes never exceeds `(4^(NumLevels+1) - 1)/3`. -/
theorem pool_suffices (cfg : Config) (h16 : cfg.MaxNumNodes ≤ 32768)
    (hcap : (4 ^ (cfg.NumLevels + 1) - 1) / 3 ≤ cfg.MaxNumNodes) (t : VisTree)
    (hr : TraverseReachable cfg t) (posX posY : Int) :
    (∃ t1, (t.Traverse cfg posX posY).2 = some t1) ∧
    Set.ncard {i | Live t i} ≤ (4 ^ (cfg.NumLevels + 1) - 1) / 3 := by
  obtain ⟨T, hT, hh⟩ := TraverseReachable_inv h16 hr
  have hd := demand_le cfg t.K posX posY cfg.NumLevels (rootBounds cfg) T hh
  have hl := hT.length_eq
  have hf : fullSize cfg.NumLevels ≤ cfg.MaxNumNodes := hcap
  refine ⟨Traverse_succeeds hT (by omega), ?_⟩
  rw [hT.ncard_live]
  show T.indices.length ≤ fullSize cfg.NumLevels
  omega

theorem pool_suffices_witness :
    cfgW.MaxNumNodes ≤ 32768 ∧ (4 ^ (cfgW.NumLevels + 1) - 1) / 3 ≤ cfgW.MaxNumNodes ∧
    TraverseReachable cfgW tK1 ∧ ∃ t1, (tK1.Traverse cfgW 7 7).2 = some t1 :=
  have h0 : TraverseReachable cfgW tK :=
    @TraverseReachable.setup cfgW tW0 tK 2000 1 rfl rfl (by decide!)
  have h1 : TraverseReachable cfgW tK1 := TraverseReachable.traverse 3 4 h0 (by decide!)
  ⟨by decide, by decide, h1, (pool_suffices cfgW (by decide) (by decide) tK1 h1 7 7).1⟩

/-! ### C14 -/

/-- C14 (`Traverse` only grows the tree).  For every viewer position and every
well-formed state, a completed `Traverse` leaves a free-list that is a prefix
of the one before, every node live before is live after, and every node that
had children before has the same content (the same four children) after; the
state stays well-formed. -/
theorem traverse_only_grows (cfg : Config) (t t1 : VisTree) (posX posY : Int) (hI : Inv cfg t)
    (hok : (t.Traverse cfg posX posY).2 = some t1) :
    t1.freeNodes <+: t.freeNodes ∧
    (∀ i, Live t i → Live t1 i) ∧
    (∀ i m, Live t i → t.slot i = some m → m.IsLeaf = false → t1.slot i = some m) ∧
    Inv cfg t1 := by
  obtain ⟨T, hT⟩ := hI
  obtain ⟨T1, hst, -, hI1⟩ := Traverse_post hT hok
  have hsub := Stage_sub hT.travPre hst
  obtain ⟨⟨P, hP, -⟩, -, -, -, -, -, -, -, -, hgrow, -⟩ := hst
  refine ⟨⟨P, hP.symm⟩, ?_, ?_, ⟨T1, hI1⟩⟩
  · intro i hi
    exact (hI1.live_iff i).2 (hsub i ((hT.live_iff i).1 hi))
  · intro i m hi hm hl
    exact hgrow i ((hT.live_iff i).1 hi) m hm hl

theorem traverse_only_grows_witness :
    Inv cfgW tK ∧ (tK.Traverse cfgW 3 4).2 = some tK1 ∧ tK1.freeNodes <+: tK.freeNodes := by
  have hI : Inv cfgW tK := ⟨QTree.leaf 0, rfl, rfl, ⟨_, rfl, rfl⟩, by decide⟩
  have hok : (tK.Traverse cfgW 3 4).2 = some tK1 := by decide!
  exact ⟨hI, hok, (traverse_only_grows cfgW tK tK1 3 4 hI hok).1⟩

/-! ### C17 -/

/-- C17 (`Traverse` is idempotent for a fixed viewer).  For every viewer
position and every well-formed state from which `Traverse` completes, a second
`Traverse` with the same viewer position completes, leaves the state (node
contents and free-list) exactly as the first call left it, and draws the same
sequence of records. -/
theorem traverse_idempotent (cfg : Config) (t t1 : VisTree) (posX posY : Int) (hI : Inv cfg t)
    (hok : (t.Traverse cfg posX posY).2 = some t1) :
    (t1.Traverse cfg posX posY).2 = some t1 ∧
    drawn (t1.Traverse cfg posX posY).1 = drawn (t.Traverse cfg posX posY).1 := by
  obtain ⟨T, hT⟩ := hI
  obtain ⟨T1, hst, hd, hI1⟩ := Traverse_post hT hok
  have hK : t1.K = t.K := hst.2.2.2.2.2.2.1
  have h2 : (t1.Traverse cfg posX posY).2 = some t1 := by
    rcases (Traverse_spec hI1 posX posY).2 with ⟨t2, T2, hres, hst2, -⟩ | ⟨-, hlt⟩
    · rw [hK, hd] at hst2
      have := hst2.2.2.2.2.2.2.2.2.2.2.1 rfl
      rw [hres, this]
    · rw [hK, hd] at hlt
      omega
  refine ⟨h2, ?_⟩
  simp only [Traverse_eq] at hok h2 ⊢
  rw [(traverse_ok cfg posX posY _ _ _ _ _ h2).2.1, (traverse_ok cfg posX posY _ _ _ _ _ hok).2.1,
    hK]

theorem traverse_idempotent_witness :
    Inv cfgW tK ∧ (tK.Traverse cfgW 3 4).2 = some tK1 ∧
      (tK1.Traverse cfgW 3 4).2 = some tK1 := by
  have hI : Inv cfgW tK := ⟨QTree.leaf 0, rfl, rfl, ⟨_, rfl, rfl⟩, by decide⟩
  have hok : (tK.Traverse cfgW 3 4).2 = some tK1 := by decide!
  exact ⟨hI, hok, (traverse_idempotent cfgW tK tK1 3 4 hI hok).1⟩

/-! ### The stored shape is a tree -/

/-- The parts of a stored inner node with distinct indices, with the four
subtrees addressed by child slot. -/
theorem node_facts {t : VisTree} {r : Int} {a b c d : QTree}
    (hrep : Rep t (QTree.node r a b c d)) (hnd : (QTree.node r a b c d).indices.Nodup) :
    ∃ m, t.slot r = some m ∧
      (∀ p, p < 4 → m.childs p = (QTree.kid a b c d p).idx ∧ Rep t (QTree.kid a b c d p) ∧
        (QTree.kid a b c d p).indices.Nodup ∧ r ∉ (QTree.kid a b c d p).indices ∧
        (∀ x ∈ (QTree.kid a b c d p).indices, x ∈ (QTree.node r a b c d).indices)) ∧
      (∀ i, i ∈ (QTree.node r a b c d).indices →
        i = r ∨ ∃ p, p < 4 ∧ i ∈ (QTree.kid a b c d p).indices) ∧
      (∀ p q, p < 4 → q < 4 → ∀ x, x ∈ (QTree.kid a b c d p).indices →
        x ∈ (QTree.kid a b c d q).indices → p = q) := by
  simp only [Rep] at hrep
  obtain ⟨⟨m, hm, h0, h1, h2, h3⟩, ha, hb, hc, hd⟩ := hrep
  simp only [QTree.indices] at hnd
  obtain ⟨⟨ia, ib, ic, id⟩, ⟨na, nb, nc, nd⟩, ab, ac, ad, bc, bd, cd⟩ := nodup_node hnd
  refine ⟨m, hm, ?_, ?_, ?_⟩
  · intro p hp
    match p, hp with
    | 0, _ => exact ⟨h0, ha, na, ia, fun x hx => by simp [QTree.indices, QTree.kid, hx] at *; tauto⟩
    | 1, _ => exact ⟨h1, hb, nb, ib, fun x hx => by simp [QTree.indices, QTree.kid, hx] at *; tauto⟩
    | 2, _ => exact ⟨h2, hc, nc, ic, fun x hx => by simp [QTree.indices, QTree.kid, hx] at *; tauto⟩
    | 3, _ => exact ⟨h3, hd, nd, id, fun x hx => by simp [QTree.indices, QTree.kid, hx] at *; tauto⟩
  · intro i hi
    simp only [QTree.indices, List.mem_cons, List.mem_append] at hi
    rcases hi with h | ((h | h) | h) | h
    · exact Or.inl h
    · exact Or.inr ⟨0, by decide, h⟩
    · exact Or.inr ⟨1, by decide, h⟩
    · exact Or.inr ⟨2, by decide, h⟩
    · exact Or.inr ⟨3, by decide, h⟩
  · intro p q hp hq x hx hy
    match p, hp, q, hq with
    | 0, _, 0, _ => rfl
    | 1, _, 1, _ => rfl
    | 2, _, 2, _ => rfl
    | 3, _, 3, _ => rfl
    | 0, _, 1, _ => exact absurd hy (ab x hx)
    | 0, _, 2, _ => exact absurd hy (ac x hx)
    | 0, _, 3, _ => exact absurd hy (ad x hx)
    | 1, _, 0, _ => exact absurd hx (ab x hy)
    | 1, _, 2, _ => exact absurd hy (bc x hx)
    | 1, _, 3, _ => exact absurd hy (bd x hx)
    | 2, _, 0, _ => exact absurd hx (ac x hy)
    | 2, _, 1, _ => exact absurd hx (bc x hy)
    | 2, _, 3, _ => exact absurd hy (cd x hx)
    | 3, _, 0, _ => exact absurd hx (ad x hy)
    | 3, _, 1, _ => exact absurd hx (bd x hy)
    | 3, _, 2, _ => exact absurd hx (cd x hy)

theorem kid_cases (P : QTree → Prop) {a b c d : QTree} (ha : P a) (hb : P b) (hc : P c)
    (hd : P d) (p : Nat) : P (QTree.kid a b c d p) := by
  unfold QTree.kid
  split <;> assumption

/-- A valid child link of a node of a stored shape with distinct indices leads
to a node of the shape other than its root. -/
theorem Rep_child_strict {t : VisTree} (T : QTree) (hr : Rep t T) (hnd : T.indices.Nodup) :
    ∀ j ∈ T.indices, ∀ m, t.slot j = some m → ∀ k, k < 4 → m.childs k ≠ InvalidIndex →
      m.childs k ∈ T.indices ∧ m.childs k ≠ T.idx := by
  induction T with
  | leaf i =>
    intro j hj m hm k hk hv
    simp only [Rep] at hr
    obtain ⟨m1, hm1, hleaf⟩ := hr
    simp only [QTree.indices, List.mem_singleton] at hj
    subst hj
    rw [hm] at hm1
    cases hm1
    exact absurd (childs_of_leaf hleaf hk) hv
  | node r a b c d iha ihb ihc ihd =>
    intro j hj m hm k hk hv
    obtain ⟨m0, hm0, hkid, hmem, -⟩ := node_facts hr hnd
    have ihk : ∀ p, p < 4 → ∀ j ∈ (QTree.kid a b c d p).indices, ∀ m, t.slot j = some m →
        ∀ k, k < 4 → m.childs k ≠ InvalidIndex →
        m.childs k ∈ (QTree.kid a b c d p).indices ∧ m.childs k ≠ (QTree.kid a b c d p).idx := by
      intro p hp
      obtain ⟨-, hrp, hnp, -, -⟩ := hkid p hp
      revert hrp hnp
      exact kid_cases (fun X => Rep t X → X.indices.Nodup → ∀ j ∈ X.indices, ∀ m,
        t.slot j = some m → ∀ k, k < 4 → m.childs k ≠ InvalidIndex →
        m.childs k ∈ X.indices ∧ m.childs k ≠ X.idx) iha ihb ihc ihd p
    simp only [QTree.idx]
    rcases hmem j hj with h | ⟨p, hp, h⟩
    · subst h
      rw [hm] at hm0
      cases hm0
      obtain ⟨he, -, -, hrn, hsub⟩ := hkid k hk
      have h1 := idx_mem_indices (QTree.kid a b c d k)
      rw [← he] at h1
      exact ⟨hsub _ h1, fun e => hrn (e ▸ h1)⟩
    · obtain ⟨h1, -⟩ := ihk p hp j h m hm k hk hv
      obtain ⟨-, -, -, hrn, hsub⟩ := hkid p hp
      exact ⟨hsub _ h1, fun e => hrn (e ▸ h1)⟩

/-- In a stored shape with distinct indices every node has at most one parent
and sits in one child slot of it. -/
theorem Rep_parent_unique {t : VisTree} (T : QTree) (hr : Rep t T) (hnd : T.indices.Nodup) :
    ∀ i ∈ T.indices, ∀ j ∈ T.indices, ∀ mi mj, t.slot i = some mi → t.slot j = some mj →
      ∀ k k1, k < 4 → k1 < 4 → mi.childs k ≠ InvalidIndex → mi.childs k = mj.childs k1 →
      i = j ∧ k = k1 := by
  induction T with
  | leaf r =>
    intro i hi j _ mi mj hmi _ k k1 hk _ hv _
    simp only [Rep] at hr
    obtain ⟨m1, hm1, hleaf⟩ := hr
    simp only [QTree.indices, List.mem_singleton] at hi
    subst hi
    rw [hmi] at hm1
    cases hm1
    exact absurd (childs_of_leaf hleaf hk) hv
  | node r a b c d iha ihb ihc ihd =>
    intro i hi j hj mi mj hmi hmj k k1 hk hk1 hv he
    obtain ⟨m0, hm0, hkid, hmem, hdis⟩ := node_facts hr hnd
    have hv1 : mj.childs k1 ≠ InvalidIndex := he ▸ hv
    have ihk : ∀ p, p < 4 → ∀ i ∈ (QTree.kid a b c d p).indices,
        ∀ j ∈ (QTree.kid a b c d p).indices, ∀ mi mj, t.slot i = some mi → t.slot j = some mj →
        ∀ k k1, k < 4 → k1 < 4 → mi.childs k ≠ InvalidIndex → mi.childs k = mj.childs k1 →
        i = j ∧ k = k1 := by
      intro p hp
      obtain ⟨-, hrp, hnp, -, -⟩ := hkid p hp
      revert hrp hnp
      exact kid_cases (fun X => Rep t X → X.indices.Nodup → ∀ i ∈ X.indices, ∀ j ∈ X.indices,
        ∀ mi mj, t.slot i = some mi → t.slot j = some mj →
        ∀ k k1, k < 4 → k1 < 4 → mi.childs k ≠ InvalidIndex → mi.childs k = mj.childs k1 →
        i = j ∧ k = k1) iha ihb ihc ihd p
    have strict : ∀ p, p < 4 → ∀ x ∈ (QTree.kid a b c d p).indices, ∀ m, t.slot x = some m →
        ∀ k, k < 4 → m.childs k ≠ InvalidIndex →
        m.childs k ∈ (QTree.kid a b c d p).indices ∧ m.childs k ≠ (QTree.kid a b c d p).idx :=
      fun p hp => Rep_child_strict _ (hkid p hp).2.1 (hkid p hp).2.2.1
    have rootkid : ∀ k, k < 4 → m0.childs k ∈ (QTree.kid a b c d k).indices := by
      intro k hk
      rw [(hkid k hk).1]
      exact idx_mem_indices _
    rcases hmem i hi with h | ⟨p, hp, h⟩ <;> rcases hmem j hj with h1 | ⟨q, hq, h1⟩
    · subst h
      subst h1
      rw [hmi] at hm0 hmj
      cases hm0
      cases hmj
      refine ⟨rfl, hdis k k1 hk hk1 _ (rootkid k hk) ?_⟩
      rw [he]
      exact rootkid k1 hk1
    · subst h
      rw [hmi] at hm0
      cases hm0
      exfalso
      obtain ⟨s1, s2⟩ := strict q hq j h1 mj hmj k1 hk1 hv1
      have hkq : k = q := hdis k q hk hq _ (rootkid k hk) (he ▸ s1)
      subst hkq
      exact s2 (by rw [← he, (hkid k hk).1])
    · subst h1
      rw [hmj] at hm0
      cases hm0
      exfalso
      obtain ⟨s1, s2⟩ := strict p hp i h mi hmi k hk hv
      have hkq : k1 = p := hdis k1 p hk1 hp _ (rootkid k1 hk1) (he ▸ s1)
      subst hkq
      exact s2 (by rw [he, (hkid k1 hk1).1])
    · obtain ⟨s1, -⟩ := strict p hp i h mi hmi k hk hv
      obtain ⟨s2, -⟩ := strict q hq j h1 mj hmj k1 hk1 hv1
      have hpq : p = q := hdis p q hp hq _ s1 (he ▸ s2)
      subst hpq
      exact ihk p hp i h j h1 mi mj hmi hmj k k1 hk hk1 hv he

/-! ### C15 -/

theorem LocatedFrom_head {t : VisTree} {r : Int} {m : VisNode} (hm : t.slot r = some m)
    {L : Nat} {B : VisBounds} {i : Int} {l : Nat} {b : VisBounds}
    (h : LocatedFrom t r L B i l b) :
    (i = r ∧ l = L ∧ b = B) ∨
    ∃ p L1, p < 4 ∧ L = L1 + 1 ∧ m.childs p ≠ InvalidIndex ∧
      LocatedFrom t (m.childs p) L1 (quadrant B p) i l b := by
  induction h with
  | root => exact Or.inl ⟨rfl, rfl, rfl⟩
  | child k _ hs hk hv ih =>
    rcases ih with ⟨h1, h2, h3⟩ | ⟨p, L1, hp, hL, hvp, hloc⟩
    · subst h1
      rw [hm] at hs
      cases hs
      subst h3
      exact Or.inr ⟨k, _, hk, h2.symm, hv, LocatedFrom.root⟩
    · exact Or.inr ⟨p, L1, hp, hL, hvp, LocatedFrom.child k hloc hs hk hv⟩

/-- In a stored shape with distinct indices a node has one location only. -/
theorem Located_unique {t : VisTree} (T : QTree) (hr : Rep t T) (hnd : T.indices.Nodup) :
    ∀ (L : Nat) (B : VisBounds) (i : Int) (l l1 : Nat) (b b1 : VisBounds),
      LocatedFrom t T.idx L B i l b → LocatedFrom t T.idx L B i l1 b1 → l = l1 ∧ b = b1 := by
  induction T with
  | leaf r =>
    intro L B i l l1 b b1 h1 h2
    simp only [Rep] at hr
    obtain ⟨m, hm, hleaf⟩ := hr
    simp only [QTree.idx] at h1 h2
    rcases LocatedFrom_head hm h1 with ⟨-, e1, e2⟩ | ⟨p, _, hp, -, hv, -⟩
    · rcases LocatedFrom_head hm h2 with ⟨-, e3, e4⟩ | ⟨p, _, hp, -, hv, -⟩
      · exact ⟨e1.trans e3.symm, e2.trans e4.symm⟩
      · exact absurd (childs_of_leaf hleaf hp) hv
    · exact absurd (childs_of_leaf hleaf hp) hv
  | node r a b0 c d iha ihb ihc ihd =>
    intro L B i l l1 b b1 h1 h2
    obtain ⟨m, hm, hkid, -, hdis⟩ := node_facts hr hnd
    have ihk : ∀ p, p < 4 → ∀ (L : Nat) (B : VisBounds) (i : Int) (l l1 : Nat) (b b1 : VisBounds),
        LocatedFrom t (QTree.kid a b0 c d p).idx L B i l b →
        LocatedFrom t (QTree.kid a b0 c d p).idx L B i l1 b1 → l = l1 ∧ b = b1 := by
      intro p hp
      obtain ⟨-, hrp, hnp, -, -⟩ := hkid p hp
      revert hrp hnp
      exact kid_cases (fun X => Rep t X → X.indices.Nodup →
        ∀ (L : Nat) (B : VisBounds) (i : Int) (l l1 : Nat) (b b1 : VisBounds),
        LocatedFrom t X.idx L B i l b → LocatedFrom t X.idx L B i l1 b1 → l = l1 ∧ b = b1)
        iha ihb ihc ihd p
    have inkid : ∀ p, p < 4 → ∀ (L1 : Nat) (B1 : VisBounds) (x : Int) (l2 : Nat) (b2 : VisBounds),
        LocatedFrom t (m.childs p) L1 B1 x l2 b2 → x ∈ (QTree.kid a b0 c d p).indices := by
      intro p hp L1 B1 x l2 b2 h
      rw [(hkid p hp).1] at h
      exact (Rep_reach (hkid p hp).2.1 x).1 (LocatedFrom_reach h)
    simp only [QTree.idx] at h1 h2
    rcases LocatedFrom_head hm h1 with ⟨e0, e1, e2⟩ | ⟨p, L1, hp, hL, -, loc1⟩ <;>
      rcases LocatedFrom_head hm h2 with ⟨e3, e4, e5⟩ | ⟨q, L2, hq, hL2, -, loc2⟩
    · exact ⟨e1.trans e4.symm, e2.trans e5.symm⟩
    · exact absurd (e0 ▸ inkid q hq _ _ _ _ _ loc2) (hkid q hq).2.2.2.1
    · exact absurd (e3 ▸ inkid p hp _ _ _ _ _ loc1) (hkid p hp).2.2.2.1
    · have hpq : p = q := hdis p q hp hq i (inkid p hp _ _ _ _ _ loc1) (inkid q hq _ _ _ _ _ loc2)
      subst hpq
      have hLL : L1 = L2 := by omega
      subst hLL
      rw [(hkid p hp).1] at loc1 loc2
      exact ihk p hp _ _ _ _ _ _ _ loc1 loc2

/-- C15 (child slot to quadrant mapping).  In `traverse` the child in slot `k`
of a node with bounds `b` at level `l + 1` is located at level `l` with the
quadrant `k` of `b` (bit 0 of `k` = X half, bit 1 = Y half).  For a completed
`Traverse` on a well-formed state: every logged invocation visits its node at
the node's location in the tree; a location is kept by the call; a node has
one location only; hence a node visited by this call and by the next
`Traverse` call is visited with the same level and the same rectangle. -/
theorem child_slot_quadrant (cfg : Config) (t t1 : VisTree) (posX posY : Int) (hI : Inv cfg t)
    (hok : (t.Traverse cfg posX posY).2 = some t1) :
    (∀ (b : VisBounds) (k : Nat),
      (quadrant b k).x0 = b.x0 + ((k % 2 : Nat) : Int) * (b.x1 - b.x0).tdiv 2 ∧
      (quadrant b k).x1 = (quadrant b k).x0 + (b.x1 - b.x0).tdiv 2 ∧
      (quadrant b k).y0 = b.y0 + ((k / 2 : Nat) : Int) * (b.y1 - b.y0).tdiv 2 ∧
      (quadrant b k).y1 = (quadrant b k).y0 + (b.y1 - b.y0).tdiv 2) ∧
    (∀ v ∈ (t.Traverse cfg posX posY).1,
      LocatedFrom t1 t1.rootNode cfg.NumLevels (rootBounds cfg) v.nodeIndex v.lvl v.bounds) ∧
    (∀ i l b, LocatedFrom t t.rootNode cfg.NumLevels (rootBounds cfg) i l b →
      LocatedFrom t1 t1.rootNode cfg.NumLevels (rootBounds cfg) i l b) ∧
    (∀ i l b l1 b1, LocatedFrom t1 t1.rootNode cfg.NumLevels (rootBounds cfg) i l b →
      LocatedFrom t1 t1.rootNode cfg.NumLevels (rootBounds cfg) i l1 b1 → l = l1 ∧ b = b1) ∧
    (∀ (x y : Int) (t2 : VisTree), (t1.Traverse cfg x y).2 = some t2 →
      ∀ v ∈ (t.Traverse cfg posX posY).1, ∀ w ∈ (t1.Traverse cfg x y).1,
        v.nodeIndex = w.nodeIndex → v.lvl = w.lvl ∧ v.bounds = w.bounds) := by
  obtain ⟨T, hT⟩ := hI
  obtain ⟨T1, hst, -, hI1⟩ := Traverse_post hT hok
  have hroot : t1.rootNode = t.rootNode := hst.2.2.2.2.2.2.2.1
  have hloc := hst.2.2.2.2.2.2.2.2.2.2.2.1
  have hgrow := hst.2.2.2.2.2.2.2.2.2.1
  have hvis : ∀ v ∈ (t.Traverse cfg posX posY).1,
      LocatedFrom t1 t1.rootNode cfg.NumLevels (rootBounds cfg) v.nodeIndex v.lvl v.bounds := by
    intro v hv
    rw [hroot, ← hT.2.1]
    exact hloc v hv
  refine ⟨fun b k => ⟨rfl, rfl, rfl, rfl⟩, hvis, ?_, ?_, ?_⟩
  · intro i l b h
    rw [hroot]
    rw [← hT.2.1] at h ⊢
    exact LocatedFrom_mono hT.2.2.1 hgrow h
  · intro i l b l1 b1 h1 h2
    rw [← hI1.2.1] at h1 h2
    exact Located_unique T1 hI1.2.2.1 (List.nodup_append.1 hI1.nodup).1 _ _ _ _ _ _ _ h1 h2
  · intro x y t2 hok2 v hv w hw he
    obtain ⟨T2, hst2, -, hI2⟩ := Traverse_post hI1 hok2
    have hroot2 : t2.rootNode = t1.rootNode := hst2.2.2.2.2.2.2.2.1
    have h1 := hvis v hv
    rw [← hI1.2.1] at h1
    have h2 := LocatedFrom_mono hI1.2.2.1 hst2.2.2.2.2.2.2.2.2.2.1 h1
    have h3 := hst2.2.2.2.2.2.2.2.2.2.2.2.1 w hw
    rw [he] at h2
    have hidx : T2.idx = T1.idx := hst2.2.2.1
    rw [← hidx] at h2 h3
    exact Located_unique T2 hI2.2.2.1 (List.nodup_append.1 hI2.nodup).1 _ _ _ _ _ _ _ h2 h3

theorem child_slot_quadrant_witness :
    Inv cfgW tK ∧ (tK.Traverse cfgW 3 4).2 = some tK1 ∧
    ∀ v ∈ (tK.Traverse cfgW 3 4).1,
      LocatedFrom tK1 tK1.rootNode cfgW.NumLevels (rootBounds cfgW) v.nodeIndex v.lvl v.bounds := by
  have hI : Inv cfgW tK := ⟨QTree.leaf 0, rfl, rfl, ⟨_, rfl, rfl⟩, by decide⟩
  have hok : (tK.Traverse cfgW 3 4).2 = some tK1 := by decide!
  exact ⟨hI, hok, (child_slot_quadrant cfgW tK tK1 3 4 hI hok).2.1⟩

/-! ### C16 -/

/-- Every state reached from `Setup` by successful `Split`, `Merge` and
`Traverse` calls is well-formed and holds no geometry. -/
theorem ReachableAll_inv {cfg : Config} (h16 : cfg.MaxNumNodes ≤ 32768) {t : VisTree}
    (hr : ReachableAll cfg t) : Inv cfg t ∧ NoGeoms t := by
  induction hr with
  | @setup t0 t w th hfree hlen hset => exact Setup_keeps h16 w th hfree hlen hset
  | @split t t1 n nd _ hlive hs hleaf hsp ih =>
    exact Split_keeps ih hlive hs hleaf (Split_some_length hsp) hsp
  | @merge t t1 n fuel _ hlive hmg ih => exact Merge_keeps fuel ih hlive hmg
  | @traverse t t1 posX posY _ hok ih =>
    obtain ⟨⟨T, hT⟩, hG⟩ := ih
    obtain ⟨T1, hst, -, hI1⟩ := Traverse_post hT hok
    refine ⟨⟨T1, hI1⟩, ?_⟩
    intro i hi m hm
    exact hst.2.2.2.2.2.2.2.2.2.2.2.2
      (fun j hj m0 hm0 => hG j ((hT.live_iff j).2 hj) m0 hm0) i ((hI1.live_iff i).1 hi) m hm

/-- A live node of a well-formed state is stored in the pool and has either no
valid child or four valid children, none of which leads back to the node. -/
theorem InvT.node_shape {cfg : Config} {t : VisTree} {T : QTree} (hT : InvT cfg t T) {i : Int}
    (hi : i ∈ T.indices) :
    ∃ m, t.slot i = some m ∧
      ((m.IsLeaf = true ∧ ∀ k, k < 4 → m.childs k = InvalidIndex) ∨
        (m.IsLeaf = false ∧ ∀ k, k < 4 → m.childs k ≠ InvalidIndex ∧
          ¬ ReachFrom t (m.childs k) i)) := by
  have hnd := (List.nodup_append.1 hT.nodup).1
  obtain ⟨S, hS, hrS, hndS, -, -⟩ := Rep_focus T hT.2.2.1 hnd i hi
  cases S with
  | leaf r =>
    simp only [QTree.idx] at hS
    subst hS
    obtain ⟨n, hn, hl⟩ := hrS
    exact ⟨n, hn, Or.inl ⟨hl, fun k hk => childs_of_leaf hl hk⟩⟩
  | node r a b c d =>
    simp only [QTree.idx] at hS
    subst hS
    obtain ⟨m, hm, hk, -, -⟩ := node_facts hrS hndS
    have hv : ∀ k, k < 4 → m.childs k ≠ InvalidIndex ∧ ¬ ReachFrom t (m.childs k) r := by
      intro k hk4
      obtain ⟨e, hrep, -, hnot, -⟩ := hk k hk4
      rw [e]
      exact ⟨Rep_idx_ne_invalid hrep, fun h => hnot ((Rep_reach hrep r).1 h)⟩
    exact ⟨m, hm, Or.inr ⟨not_leaf_of_child (by decide : 0 < 4) (hv 0 (by decide)).1, hv⟩⟩

/-- C16 (well-formedness and index safety).  In every state reached from
`Setup` on a fresh object by successful `Split` calls (on live leaves), `Merge`
calls (on live nodes) and `Traverse` calls: every live node is stored in the
pool and has either zero or four valid children; every valid child index of a
live node lies in `[0, MaxNumNodes)` and is live; no node is the child of two
live nodes or twice the child of one, and the root is nobody's child; no valid
child link leads back to its node (no cycle); and for every viewer position
every index that `Traverse` passes to `At` (the index of every invocation of
`traverse`) lies in `[0, MaxNumNodes)`, hence is not `Invalid` and addresses a
slot of the pool, and `Traverse` can only stop early because the free-list is
exhausted. -/
theorem wellformed_index_safety (cfg : Config) (h16 : cfg.MaxNumNodes ≤ 32768) (t : VisTree)
    (hr : ReachableAll cfg t) :
    t.nodes.length = cfg.MaxNumNodes ∧
    (∀ i, Live t i → ∃ m, t.slot i = some m ∧
      ((∀ k, k < 4 → m.childs k = InvalidIndex) ∨ (∀ k, k < 4 → m.childs k ≠ InvalidIndex))) ∧
    (∀ i m k, Live t i → t.slot i = some m → k < 4 → m.childs k ≠ InvalidIndex →
      0 ≤ m.childs k ∧ m.childs k < (cfg.MaxNumNodes : Int) ∧ Live t (m.childs k)) ∧
    (∀ i j mi mj k k1, Live t i → Live t j → t.slot i = some mi → t.slot j = some mj →
      k < 4 → k1 < 4 → mi.childs k ≠ InvalidIndex → mi.childs k = mj.childs k1 →
      i = j ∧ k = k1) ∧
    (∀ i m k, Live t i → t.slot i = some m → k < 4 → m.childs k ≠ InvalidIndex →
      m.childs k ≠ t.rootNode ∧ ¬ ReachFrom t (m.childs k) i) ∧
    (∀ posX posY, ∀ v ∈ (t.Traverse cfg posX posY).1,
      0 ≤ v.nodeIndex ∧ v.nodeIndex < (cfg.MaxNumNodes : Int) ∧ v.nodeIndex ≠ InvalidIndex) ∧
    (∀ posX posY, (t.Traverse cfg posX posY).2 = none →
      ∃ T, InvT cfg t T ∧
        t.freeNodes.length < demand cfg t.K posX posY cfg.NumLevels (rootBounds cfg) T) := by
  obtain ⟨⟨T, hT⟩, -⟩ := ReachableAll_inv h16 hr
  have hnd := (List.nodup_append.1 hT.nodup).1
  refine ⟨hT.1, ?_, ?_, ?_, ?_, ?_, ?_⟩
  · intro i hi
    obtain ⟨m, hm, h | h⟩ := hT.node_shape ((hT.live_iff i).1 hi)
    · exact ⟨m, hm, Or.inl h.2⟩
    · exact ⟨m, hm, Or.inr fun k hk => (h.2 k hk).1⟩
  · intro i m k hi hm hk hv
    have hc := (Rep_child_strict T hT.2.2.1 hnd i ((hT.live_iff i).1 hi) m hm k hk hv).1
    have hrange := mem_range_cast.1 ((List.Perm.mem_iff hT.2.2.2).1 (List.mem_append_left _ hc))
    exact ⟨hrange.1, hrange.2, (hT.live_iff _).2 hc⟩
  · intro i j mi mj k k1 hi hj hmi hmj hk hk1 hv he
    exact Rep_parent_unique T hT.2.2.1 hnd i ((hT.live_iff i).1 hi) j ((hT.live_iff j).1 hj)
      mi mj hmi hmj k k1 hk hk1 hv he
  · intro i m k hi hm hk hv
    have hc := (Rep_child_strict T hT.2.2.1 hnd i ((hT.live_iff i).1 hi) m hm k hk hv).2
    rw [hT.2.1] at hc
    refine ⟨hc, ?_⟩
    obtain ⟨m1, hm1, h | h⟩ := hT.node_shape ((hT.live_iff i).1 hi)
    · rw [hm] at hm1
      cases hm1
      exact absurd (h.2 k hk) hv
    · rw [hm] at hm1
      cases hm1
      exact (h.2 k hk).2
  · intro posX posY v hv
    have h := (Traverse_spec hT posX posY).1 v hv
    refine ⟨h.1, h.2, ?_⟩
    unfold InvalidIndex
    omega
  · intro posX posY hnone
    rcases (Traverse_spec hT posX posY).2 with ⟨t2, T1, hres, -, -⟩ | ⟨-, hlt⟩
    · rw [hnone] at hres
      cases hres
    · exact ⟨T, hT, hlt⟩

theorem wellformed_index_safety_witness :
    cfgW.MaxNumNodes ≤ 32768 ∧ ReachableAll cfgW tK1 ∧
      ∀ posX posY, ∀ v ∈ (tK1.Traverse cfgW posX posY).1,
        0 ≤ v.nodeIndex ∧ v.nodeIndex < (cfgW.MaxNumNodes : Int) ∧ v.nodeIndex ≠ InvalidIndex :=
  have h0 : ReachableAll cfgW tK :=
    @ReachableAll.setup cfgW tW0 tK 2000 1 rfl rfl (by decide!)
  have hr : ReachableAll cfgW tK1 :=
    @ReachableAll.traverse cfgW tK tK1 3 4 h0 (by decide!)
  ⟨by decide, hr, (wellformed_index_safety cfgW (by decide) tK1 hr).2.2.2.2.2.1⟩

end VoxelTest
